import Mathlib

/-!
# Distance field, clearance and breadth-first path search

A shallow embedding of `cmd/all/distance_field.go` and `cmd/all/vec.go`:
the cell grid, the clearance (`space`) recomputation, the 8-connected
breadth-first search with its corner-cutting rule and fallback, and the
tile bitmask used by Save and Load.

Go's `int` is modelled by `Int`.  Sums of a coordinate and a unit offset are
taken in `Int`: the only coordinates the search ever adds to are `start` and
in-bounds cells, and a sum that would wrap is off-grid either way.  The
squares of `distance_sq`, `max_reach` and `max_distance` are wrapped to 64
bits (`wrap64`), since there wrapping changes what the code computes.
-/

namespace DistanceField

/-! ## Constants -/

def tile_size : Int := 8

def grid_size : Int := 128

def grid_tile_divisions : Int := grid_size / tile_size

def max_distance : Int := 15

/-- Largest value of a 64-bit Go `int` (`math.MaxInt`). -/
def MaxInt : Int := 9223372036854775807

/-- Two's-complement wrap of an integer into the 64-bit signed range. -/
def wrap64 (i : Int) : Int := (i + 9223372036854775808) % 18446744073709551616 - 9223372036854775808

/-! ## vec.go -/

structure vec2i where
  x : Int
  y : Int
deriving DecidableEq, Repr

def vec2i.add2 (p : vec2i) (x y : Int) : vec2i :=
  { x := p.x + x, y := p.y + y }

def vec2i.add (p other : vec2i) : vec2i :=
  p.add2 other.x other.y

def vec2i.distance_sq (p other : vec2i) : Int :=
  let dx := wrap64 (other.x - p.x)
  let dy := wrap64 (other.y - p.y)
  wrap64 (wrap64 (dx * dx) + wrap64 (dy * dy))

/-- Search for the rounded square root: the least `k` with `x ≤ k*k + k`,
that is the `k` with `(k - 1/2)^2 < x < (k + 1/2)^2`. -/
def sqrt_int_search (x : Nat) : Nat → Nat → Nat
  | 0, k => k
  | fuel + 1, k => if x ≤ k * k + k then k else sqrt_int_search x fuel (k + 1)

/-- Integer value of `int(math.Round(math.Sqrt(float64(x))))` for `0 ≤ x`:
the square root of an integer is never half-way between two integers, so
rounding to nearest picks the unique `k` with `k*k - k < x ≤ k*k + k`
(for the arguments below `2^52` used here the float square root is exact
enough not to cross that boundary). -/
def sqrt_int (x : Int) : Int :=
  (sqrt_int_search x.toNat x.toNat 0 : Nat)

/-! ## Cells and the grid -/

structure cell where
  closed : Bool
  space : Int
  _input_cycle : Int
deriving DecidableEq, Repr

/-- Method `traversable` of `*cell`; `none` is the nil pointer. -/
def cell.traversable (c : Option cell) (min_space : Int) : Bool :=
  match c with
  | none => false
  | some c => !c.closed && decide (c.space ≥ min_space)

/-- The part of `distance_field` the grid engine reads and writes.
`cells i` for `i < grid_size * grid_size` is `g.cells[i]`; no other index
is ever read or written. -/
structure distance_field where
  cells : Nat → cell
  grid_dirty : Bool

def distance_field.in_bounds (_g : distance_field) (x y : Int) : Bool :=
  decide (x ≥ 0) && decide (y ≥ 0) && decide (x < grid_size) && decide (y < grid_size)

/-- Index `x+(y*grid_size)` into `g.cells`. -/
def cell_index (x y : Int) : Nat := (x + y * grid_size).toNat

def distance_field.cell_at (g : distance_field) (x y : Int) : Option cell :=
  if g.in_bounds x y then some (g.cells (cell_index x y)) else none

def distance_field.cell_at_pos (g : distance_field) (p : vec2i) : Option cell :=
  g.cell_at p.x p.y

/-- Write through the pointer returned by `cell_at`. -/
def distance_field.set_cell (g : distance_field) (x y : Int) (c : cell) : distance_field :=
  { g with cells := fun i => if i = cell_index x y then c else g.cells i }

/-! ## Clearance recomputation -/

/-- The Go loop `for i := lo; i < hi; i++` visits these values in order. -/
def int_range (lo hi : Int) : List Int :=
  (List.range (hi - lo).toNat).map (fun (k : Nat) => lo + (k : Int))

/-- One pass of the inner body of `update_cell` at offset `(dx, dy)`;
`space` is the running `cell.space`. -/
def update_cell_offset (g : distance_field) (x y : Int) (dy : Int) (space : Int) (dx : Int) : Int :=
  if dx = 0 ∧ dy = 0 then space
  else
    let other_x := x + dx
    let other_y := y + dy
    let distance := min (sqrt_int (dx * dx + dy * dy)) max_distance
    if distance ≥ space then space
    else
      match g.cell_at other_x other_y with
      | none => distance
      | some other => if other.closed then distance else space

/-- The two nested offset loops of `update_cell`, started at `max_distance`. -/
def scan_space (g : distance_field) (x y : Int) : Int :=
  (int_range (-max_distance) (max_distance + 1)).foldl
    (fun space dy =>
      (int_range (-max_distance) (max_distance + 1)).foldl (update_cell_offset g x y dy) space)
    max_distance

def distance_field.update_cell (g : distance_field) (x y : Int) : distance_field × Bool :=
  match g.cell_at x y with
  | some c =>
    let space := if c.closed then 0 else scan_space g x y
    ({ g.set_cell x y { c with space := space } with grid_dirty := true }, true)
  | none => (g, false)

def distance_field.update_cells (g : distance_field) (x0 y0 x1 y1 : Int) : distance_field :=
  (int_range y0 y1).foldl
    (fun g y => (int_range x0 x1).foldl (fun g x => (g.update_cell x y).1) g) g

def distance_field.update_all_cells (g : distance_field) : distance_field :=
  g.update_cells 0 0 grid_size grid_size

/-- Does the target of offset `(dx, dy)` from `(x, y)` block: closed or off-grid. -/
def is_obstacle (g : distance_field) (x y : Int) : Bool :=
  match g.cell_at x y with
  | none => true
  | some c => c.closed

/-- The value `update_cell` stores in `cell.space` of an existing cell. -/
def recomputed_space (g : distance_field) (x y : Int) : Int :=
  if is_obstacle g x y then 0 else scan_space g x y

/-- Column of the cell stored at index `i` of `g.cells`. -/
def index_x (i : Nat) : Int := ((i % 128 : Nat) : Int)

/-- Row of the cell stored at index `i` of `g.cells`. -/
def index_y (i : Nat) : Int := ((i / 128 : Nat) : Int)

/-- The cells visited by `update_cells`, in the order of its two loops. -/
def region_cells (x0 y0 x1 y1 : Int) : List (Int × Int) :=
  (int_range y0 y1).flatMap fun y => (int_range x0 x1).map fun x => (x, y)

/-- The edit of `Update` on an existing cell: stamp it with the drag cycle
and flip its `closed` flag. -/
def distance_field.toggle_closed (g : distance_field) (x y : Int) (drag_cycle : Int) :
    distance_field :=
  match g.cell_at x y with
  | some c => g.set_cell x y { c with _input_cycle := drag_cycle, closed := !c.closed }
  | none => g

/-- The values the specification takes the minimum of for an open cell:
`max_distance`, and `sqrt_int (dx*dx+dy*dy)` for every offset `(dx, dy)`
other than `(0,0)` with `|dx| ≤ max_distance`, `|dy| ≤ max_distance` whose
target is closed or off-grid. -/
def clearance_candidates (g : distance_field) (x y : Int) : Set Int :=
  {d | d = max_distance ∨
    ∃ dx dy : Int, ¬(dx = 0 ∧ dy = 0) ∧ |dx| ≤ max_distance ∧ |dy| ≤ max_distance ∧
      is_obstacle g (x + dx) (y + dy) = true ∧ d = sqrt_int (dx * dx + dy * dy)}

/-- Reference clearance in the words of the specification: `m` is `0` if
the cell at `(x, y)` is closed, and otherwise the minimum of the
candidates. -/
def is_reference_clearance (g : distance_field) (x y : Int) (m : Int) : Prop :=
  (is_obstacle g x y = true → m = 0) ∧
  (is_obstacle g x y = false → IsLeast (clearance_candidates g x y) m)

/-- Space stored in the cell at `(x, y)`, `0` when the cell is absent. -/
def distance_field.space_at (g : distance_field) (x y : Int) : Int :=
  match g.cell_at x y with
  | some c => c.space
  | none => 0

/-- Closed flag of the cell at `(x, y)`; an absent cell counts as closed. -/
def distance_field.closed_at (g : distance_field) (x y : Int) : Bool :=
  is_obstacle g x y

/-- A grid of open cells whose only closed cell is `(5, 5)`. -/
def grid_single_closed : distance_field :=
  { cells := fun i => { closed := decide (i = 645), space := 0, _input_cycle := 0 },
    grid_dirty := false }

/-- The grid after Fill and `update_all_cells`: every cell closed, space `0`. -/
def grid_filled : distance_field :=
  { cells := fun _ => { closed := true, space := 0, _input_cycle := 0 },
    grid_dirty := true }

/-- The cells allocated by `Load`: every cell open, with space `0`. -/
def grid_empty : distance_field :=
  { cells := fun _ => { closed := false, space := 0, _input_cycle := 0 },
    grid_dirty := false }

/-- The grid after `Load`: all cells open, clearance recomputed. -/
def grid_loaded : distance_field := grid_empty.update_all_cells

/-! ## Path search -/

structure path_args where
  start : vec2i
  goal : vec2i
  min_space : Int
  max_distance : Int
  max_reach : Int

/-- The Go type `direction` is an `int`; its eight named values are `0..7`. -/
def direction : Type := Nat

instance : DecidableEq direction := inferInstanceAs (DecidableEq Nat)

def northwest : direction := (0 : Nat)

def north : direction := (1 : Nat)

def northeast : direction := (2 : Nat)

def east : direction := (3 : Nat)

def southeast : direction := (4 : Nat)

def south : direction := (5 : Nat)

def southwest : direction := (6 : Nat)

def west : direction := (7 : Nat)

def path_directions : List direction :=
  [north, east, south, west, northwest, northeast, southeast, southwest]

def direction.vec2i (d : direction) : vec2i :=
  match (show Nat from d) with
  | 0 => { x := -1, y := -1 }
  | 1 => { x := 0, y := -1 }
  | 2 => { x := 1, y := -1 }
  | 3 => { x := 1, y := 0 }
  | 4 => { x := 1, y := 1 }
  | 5 => { x := 0, y := 1 }
  | 6 => { x := -1, y := 1 }
  | 7 => { x := -1, y := 0 }
  | _ => { x := 0, y := 0 }

def direction.rotate_ccw (d : direction) : direction :=
  Nat.land (Nat.add d 7) 7

def direction.rotate_cw (d : direction) : direction :=
  Nat.land (Nat.add d 1) 7

def direction.diagonal (d : direction) : Bool :=
  Nat.land d 1 == 0

/-- The closure `can_traverse` of `bfs`; `none` is the nil pointer. -/
def can_traverse (arg : path_args) (c : Option cell) : Bool :=
  match c with
  | none => false
  | some c => if c.closed then false else if c.space < arg.min_space then false else true

/-- The local variables of `bfs`.  The maps `visited` and `prev` are total
functions: a key absent from `visited` maps to `false`, a key absent from
`prev` to the zero value `vec2i{0, 0}`. -/
structure bfs_state where
  visited : vec2i → Bool
  prev : vec2i → vec2i
  queue : List vec2i
  closest : vec2i
  closest_distance : Int

/-- The value of `max_reach` inside `bfs`: `arg.max_reach * arg.max_reach`. -/
def max_reach_sq (arg : path_args) : Int := wrap64 (arg.max_reach * arg.max_reach)

/-- The value of `max_distance` inside `bfs`: `arg.max_distance * arg.max_distance`. -/
def max_distance_sq (arg : path_args) : Int := wrap64 (arg.max_distance * arg.max_distance)

/-- The loop of the closure `construct_path`, with `fuel` bounding the
number of iterations; `path` is the slice built so far. -/
def construct_path_loop (prev : vec2i → vec2i) (start : vec2i) :
    Nat → vec2i → List vec2i → Option (List vec2i)
  | 0, _, _ => none
  | fuel + 1, e, path =>
    if e ≠ start then construct_path_loop prev start fuel (prev e) (path ++ [e])
    else some (path ++ [start]).reverse

/-- The closure `construct_path`: no predecessor walk the search can start
is longer than the number of cells plus one. -/
def construct_path (prev : vec2i → vec2i) (start : vec2i) (e : vec2i) : Option (List vec2i) :=
  construct_path_loop prev start 16385 e []

/-- One pass of the body of `for _, dir := range path_directions` for the
dequeued node `cur`. -/
def bfs_visit (g : distance_field) (arg : path_args) (cur : vec2i) (s : bfs_state)
    (dir : direction) : bfs_state :=
  let next := cur.add dir.vec2i
  if s.visited next then s
  else if dir.diagonal &&
      (!can_traverse arg (g.cell_at_pos (cur.add dir.rotate_cw.vec2i)) ||
        !can_traverse arg (g.cell_at_pos (cur.add dir.rotate_ccw.vec2i))) then s
  else
    let s1 := { s with visited := fun v => if v = next then true else s.visited v }
    if !can_traverse arg (g.cell_at_pos next) then s1
    else
      { s1 with
        prev := fun v => if v = next then cur else s.prev v
        queue := s.queue ++ [next] }

/-- The state after `cur` was dequeued and offered as fallback candidate. -/
def bfs_record (arg : path_args) (cur : vec2i) (rest : List vec2i) (s : bfs_state) : bfs_state :=
  let distance := cur.distance_sq arg.goal
  if max_reach_sq arg > 0 ∧ distance < s.closest_distance ∧ distance ≤ max_reach_sq arg then
    { s with queue := rest, closest := cur, closest_distance := distance }
  else { s with queue := rest }

/-- The code after the loop of `bfs`: the fallback path or nothing. -/
def bfs_exhausted (arg : path_args) (s : bfs_state) : Option (List vec2i × Bool) :=
  if max_reach_sq arg > 0 ∧ s.closest_distance ≠ MaxInt then
    (construct_path s.prev arg.start s.closest).map fun p => (p, false)
  else some ([], false)

/-- The loop `for len(queue) > 0` of `bfs`, with `fuel` bounding the number
of iterations; `none` means the fuel ran out. -/
def bfs_loop (g : distance_field) (arg : path_args) : Nat → bfs_state → Option (List vec2i × Bool)
  | 0, _ => none
  | fuel + 1, s =>
    match s.queue with
    | [] => bfs_exhausted arg s
    | cur :: rest =>
      if max_distance_sq arg > 0 ∧ cur.distance_sq arg.goal > max_distance_sq arg then
        bfs_loop g arg fuel { s with queue := rest }
      else if cur = arg.goal then
        (construct_path s.prev arg.start arg.goal).map fun p => (p, true)
      else
        bfs_loop g arg fuel (path_directions.foldl (bfs_visit g arg cur) (bfs_record arg cur rest s))

/-- The state of `bfs` when the loop is first entered. -/
def bfs_init (arg : path_args) : bfs_state :=
  { visited := fun v => decide (v = arg.start)
    prev := fun _ => { x := 0, y := 0 }
    queue := [arg.start]
    closest := { x := 0, y := 0 }
    closest_distance := MaxInt }

/-- The method `bfs`.  The loop dequeues each coordinate at most once and,
apart from `start`, only cells of the grid, so `grid_size * grid_size + 2`
iterations always suffice (see `bfs_total`). -/
def distance_field.bfs (g : distance_field) (arg : path_args) : Option (List vec2i × Bool) :=
  bfs_loop g arg 16386 (bfs_init arg)

/-! ## Save and Load -/

structure tile_data where
  X : Int
  Y : Int
  /-- A `uint64`. -/
  ClosedCells : Nat
deriving DecidableEq, Repr

/-- Body of the two inner loops of Save for the cell `(x0, y0)` of a tile:
shift the accumulator left (in 64 bits) and set the low bit for a closed or
absent cell. -/
def save_cell (g : distance_field) (grid_x grid_y y0 : Int) (closed_cells : Nat) (x0 : Int) :
    Nat :=
  let closed_cells := (closed_cells <<< 1) % 18446744073709551616
  let cell_x := grid_x + x0
  let cell_y := grid_y + y0
  match g.cell_at cell_x cell_y with
  | none => closed_cells ||| 1
  | some c => if c.closed then closed_cells ||| 1 else closed_cells

/-- The record Save appends for the tile `(tile_x, tile_y)`. -/
def save_tile (g : distance_field) (tile_x tile_y : Int) : tile_data :=
  { X := tile_x
    Y := tile_y
    ClosedCells :=
      (int_range 0 tile_size).foldl
        (fun cc y0 =>
          (int_range 0 tile_size).foldl
            (save_cell g (tile_x * tile_size) (tile_y * tile_size) y0) cc)
        0 }

/-- The slice `tiles` built by the Save button. -/
def distance_field.save_tiles (g : distance_field) : List tile_data :=
  (int_range 0 grid_tile_divisions).foldl
    (fun tiles tile_y =>
      (int_range 0 grid_tile_divisions).foldl
        (fun tiles tile_x => tiles ++ [save_tile g tile_x tile_y]) tiles)
    []

/-- The Go loop `for i := n - 1; i >= 0; i--` visits these values in order. -/
def int_range_down (n : Int) : List Int := (int_range 0 n).reverse

/-- Body of the two inner loops of Load for the cell `(x, y)` of a tile:
write the low bit to the cell, shift right.  `none` is the run-time panic
of the write through the nil pointer that `cell_at` returns off the grid. -/
def load_cell (chunk_x chunk_y y : Int) (st : Option (distance_field × Nat)) (x : Int) :
    Option (distance_field × Nat) :=
  match st with
  | none => none
  | some (g, closed_cells) =>
    match g.cell_at (x + chunk_x) (y + chunk_y) with
    | none => none
    | some c =>
      some (g.set_cell (x + chunk_x) (y + chunk_y)
        { c with closed := (closed_cells &&& 1 == 1) }, closed_cells >>> 1)

/-- The body of `for _, chunk := range chunks` in Load. -/
def load_tile (g : distance_field) (chunk : tile_data) : Option distance_field :=
  ((int_range_down tile_size).foldl
    (fun st y =>
      (int_range_down tile_size).foldl
        (load_cell (chunk.X * tile_size) (chunk.Y * tile_size) y) st)
    (some (g, chunk.ClosedCells))).map Prod.fst

/-- The loop over the decoded tile records in Load; `none` is a panic. -/
def distance_field.load_tiles (g : distance_field) (chunks : List tile_data) :
    Option distance_field :=
  chunks.foldl (fun st chunk => st.bind fun g => load_tile g chunk) (some g)

/-- One step of packing: shift left in 64 bits, or in the bit. -/
def pack_step (cc : Nat) (b : Bool) : Nat :=
  ((cc <<< 1) % 18446744073709551616) ||| (if b then 1 else 0)

/-- The accumulator of Save after the cells `L`, visited in order. -/
def pack_cells (g : distance_field) (L : List (Int × Int)) : Nat :=
  L.foldl (fun cc c => pack_step cc (is_obstacle g c.1 c.2)) 0

/-- Load's write to the cell at `c`, in absolute coordinates. -/
def load_step (st : Option (distance_field × Nat)) (c : Int × Int) :
    Option (distance_field × Nat) :=
  load_cell 0 0 c.2 st c.1

/-- The cells of the tile `(X, Y)`, row by row. -/
def tile_cells (X Y : Int) : List (Int × Int) :=
  region_cells (X * 8) (Y * 8) (X * 8 + 8) (Y * 8 + 8)

/-! ## Vocabulary of the path-search claims -/

/-- A cell is traversable under `min_space` when it exists (is in bounds),
is not closed and has `space ≥ min_space`. -/
def is_traversable (g : distance_field) (min_space : Int) (v : vec2i) : Prop :=
  g.in_bounds v.x v.y = true ∧ g.closed_at v.x v.y = false ∧ min_space ≤ g.space_at v.x v.y

/-- The coordinate `q` is `p` plus one of the eight unit offsets. -/
def is_neighbour (p q : vec2i) : Prop :=
  |q.x - p.x| ≤ 1 ∧ |q.y - p.y| ≤ 1 ∧ q ≠ p

/-- A legal move: a step to one of the eight neighbours, into a traversable
cell, and for a diagonal step with both orthogonally adjacent cells
`(q.x, p.y)` and `(p.x, q.y)` traversable. -/
def legal_move (g : distance_field) (min_space : Int) (p q : vec2i) : Prop :=
  is_neighbour p q ∧ is_traversable g min_space q ∧
    (q.x ≠ p.x ∧ q.y ≠ p.y →
      is_traversable g min_space { x := q.x, y := p.y } ∧
      is_traversable g min_space { x := p.x, y := q.y })

/-- A route: a non-empty sequence of coordinates from `a` to `b` in which
every consecutive pair is a legal move. -/
def is_route (g : distance_field) (min_space : Int) (a b : vec2i) (p : List vec2i) : Prop :=
  p.head? = some a ∧ p.getLast? = some b ∧ p.Chain' (legal_move g min_space)

/-- The coordinate `b` is reachable from `a` by a finite, possibly empty,
sequence of legal moves. -/
def reachable (g : distance_field) (min_space : Int) (a b : vec2i) : Prop :=
  ∃ p, is_route g min_space a b p

/-- Squared Euclidean distance, in the integers. -/
def sq_dist (a b : vec2i) : Int :=
  (b.x - a.x) * (b.x - a.x) + (b.y - a.y) * (b.y - a.y)

/-- Both coordinates are below `2^30` in absolute value. -/
def coord_small (v : vec2i) : Prop :=
  |v.x| < 1073741824 ∧ |v.y| < 1073741824

instance (v : vec2i) : Decidable (coord_small v) :=
  inferInstanceAs (Decidable (|v.x| < 1073741824 ∧ |v.y| < 1073741824))

/-- The coordinates `(0,0), (1,1), ..., (n,n)`. -/
def diagonal_route (n : Nat) : List vec2i :=
  (List.range (n + 1)).map fun (i : Nat) => { x := (i : Int), y := (i : Int) }

/-- A request whose `max_reach` squared does not fit in 64 bits:
`max_reach = 2^32`, `goal = (2^32, 0)`. -/
def overflow_request : path_args :=
  { start := { x := 0, y := 0 }
    goal := { x := 4294967296, y := 0 }
    min_space := 1
    max_distance := 0
    max_reach := 4294967296 }

/-- A request on top of a closed cell: `start = goal = (0, 0)`. -/
def standing_request : path_args :=
  { start := { x := 0, y := 0 }
    goal := { x := 0, y := 0 }
    min_space := 1
    max_distance := 0
    max_reach := 0 }

/-- A request from `(0,0)` to `(1,1)` with fallback reach `5`. -/
def corner_request : path_args :=
  { start := { x := 0, y := 0 }
    goal := { x := 1, y := 1 }
    min_space := 0
    max_distance := 0
    max_reach := 5 }

/-- The request of the empty-grid scenario: `(0,0)` to `(16,16)`, `min_space = 1`. -/
def scenario_request : path_args :=
  { start := { x := 0, y := 0 }
    goal := { x := 16, y := 16 }
    min_space := 1
    max_distance := 0
    max_reach := 0 }

/-- A grid of open cells in which `(1,0)` and `(0,1)` are closed: both
cells orthogonally next to the diagonal step from `(0,0)` to `(1,1)`. -/
def grid_corner : distance_field :=
  { cells := fun i => { closed := decide (i = 1 ∨ i = 128), space := 0, _input_cycle := 0 },
    grid_dirty := false }

/-- A decoded save whose only record lies off the grid (`X = 16`). -/
def malformed_tiles : List tile_data :=
  [{ X := 16, Y := 0, ClosedCells := 0 }]

/-- The cell at `v` passes `can_traverse`. -/
def trav (g : distance_field) (arg : path_args) (v : vec2i) : Bool :=
  can_traverse arg (g.cell_at_pos v)

/-- The tests `bfs` makes before it enqueues the neighbour of `p` in
direction `dir`: the corner-cutting test and the test of the neighbour. -/
def step_ok (g : distance_field) (arg : path_args) (p : vec2i) (dir : direction) : Bool :=
  (!dir.diagonal ||
    (trav g arg (p.add dir.rotate_cw.vec2i) && trav g arg (p.add dir.rotate_ccw.vec2i))) &&
  trav g arg (p.add dir.vec2i)

/-- The search may step from `p` to `q`: `q` is the neighbour of `p` in one
of the eight directions and the tests of `bfs` pass. -/
def bfs_step (g : distance_field) (arg : path_args) (p q : vec2i) : Prop :=
  ∃ dir ∈ path_directions, q = p.add dir.vec2i ∧ step_ok g arg p dir = true

/-- The node `bfs` is about to return from: the queue is empty, or its head
is `goal` and passes the distance cut-off. -/
def bfs_return (arg : path_args) (s : bfs_state) (r : List vec2i × Bool) : Prop :=
  (s.queue = [] ∧ bfs_exhausted arg s = some r) ∨
  (∃ rest, s.queue = arg.goal :: rest ∧
    ¬(max_distance_sq arg > 0 ∧ arg.goal.distance_sq arg.goal > max_distance_sq arg) ∧
    (construct_path s.prev arg.start arg.goal).map (fun p => (p, true)) = some r)

/-- The states in which the loop condition of `bfs` is evaluated: the
initial state, and the state after each iteration that does not return. -/
inductive bfs_reaches (g : distance_field) (arg : path_args) : bfs_state → Prop
  | init : bfs_reaches g arg (bfs_init arg)
  | skip (s : bfs_state) (cur : vec2i) (rest : List vec2i) :
      bfs_reaches g arg s → s.queue = cur :: rest →
      (max_distance_sq arg > 0 ∧ cur.distance_sq arg.goal > max_distance_sq arg) →
      bfs_reaches g arg { s with queue := rest }
  | expand (s : bfs_state) (cur : vec2i) (rest : List vec2i) :
      bfs_reaches g arg s → s.queue = cur :: rest →
      ¬(max_distance_sq arg > 0 ∧ cur.distance_sq arg.goal > max_distance_sq arg) →
      cur ≠ arg.goal →
      bfs_reaches g arg
        (path_directions.foldl (bfs_visit g arg cur) (bfs_record arg cur rest s))

/-- The coordinates the search has discovered: `start`, and the visited
coordinates that are traversable (those are exactly the enqueued ones). -/
def discovered (g : distance_field) (arg : path_args) (s : bfs_state) (v : vec2i) : Prop :=
  s.visited v = true ∧ (v = arg.start ∨ trav g arg v = true)

/-- The cells of the grid, by index. -/
def all_cells : List vec2i :=
  (List.range 16384).map fun i => { x := index_x i, y := index_y i }

/-- Number of grid cells not yet in `visited`. -/
def unvisited_count (s : bfs_state) : Nat :=
  (all_cells.filter fun v => !s.visited v).length

/-- Depth bookkeeping for the proofs: the depth of a neighbour that
`bfs_visit` enqueues is one more than the depth of `cur`. -/
def visit_depth (g : distance_field) (arg : path_args) (cur : vec2i) (s : bfs_state)
    (dir : direction) (d : vec2i → Nat) : vec2i → Nat :=
  if s.visited (cur.add dir.vec2i) = false ∧ step_ok g arg cur dir = true then
    fun v => if v = cur.add dir.vec2i then d cur + 1 else d v
  else d

/-- Depth bookkeeping along the direction loop. -/
def expand_depth (g : distance_field) (arg : path_args) (cur : vec2i) :
    List direction → bfs_state → (vec2i → Nat) → (vec2i → Nat)
  | [], _, d => d
  | dir :: dirs, s, d =>
    expand_depth g arg cur dirs (bfs_visit g arg cur s dir) (visit_depth g arg cur s dir d)

/-- Invariant of the search loop, for every request: discovered
coordinates are linked to `start` by predecessor steps that passed the
tests of `bfs`, and `d` counts those steps. -/
structure bfs_inv (g : distance_field) (arg : path_args) (s : bfs_state) (d : vec2i → Nat) :
    Prop where
  start_visited : s.visited arg.start = true
  queue_disc : ∀ v ∈ s.queue, discovered g arg s v
  depth_start : d arg.start = 0
  prev_ok : ∀ v, discovered g arg s v → v ≠ arg.start →
    discovered g arg s (s.prev v) ∧
    bfs_step g arg (s.prev v) v ∧ d v = d (s.prev v) + 1
  depth_bound : ∀ v, discovered g arg s v → d v + unvisited_count s ≤ 16384
  closest_disc : s.closest_distance ≠ MaxInt → discovered g arg s s.closest

/-- Discovered and no longer queued: the coordinate was dequeued. -/
def processed (g : distance_field) (arg : path_args) (s : bfs_state) (v : vec2i) : Prop :=
  discovered g arg s v ∧ v ∉ s.queue

/-- Invariant of the search without distance cut-off, while the
neighbours of `cur` are visited; `done` holds of the directions already
handled.  The queue is ordered by depth and spans at most two depths. -/
structure bfs_mid (g : distance_field) (arg : path_args) (cur : vec2i)
    (done : direction → Prop) (s : bfs_state) (d : vec2i → Nat) : Prop where
  nodup : s.queue.Nodup
  cur_proc : processed g arg s cur
  expanded : ∀ u, processed g arg s u → ∀ dir ∈ path_directions, (u = cur → done dir) →
    step_ok g arg u dir = true →
    discovered g arg s (u.add dir.vec2i) ∧ d (u.add dir.vec2i) ≤ d u + 1
  sorted : s.queue.Pairwise fun a b => d a ≤ d b
  queue_depth : ∀ q ∈ s.queue, d cur ≤ d q ∧ d q ≤ d cur + 1
  proc_depth : ∀ u, processed g arg s u → d u ≤ d cur
  not_goal : ∀ u, processed g arg s u → u ≠ arg.goal

/-- Invariant of the search without distance cut-off, where the loop
condition is evaluated. -/
structure bfs_head (g : distance_field) (arg : path_args) (s : bfs_state) (d : vec2i → Nat) :
    Prop where
  nodup : s.queue.Nodup
  expanded : ∀ u, processed g arg s u → ∀ dir ∈ path_directions,
    step_ok g arg u dir = true →
    discovered g arg s (u.add dir.vec2i) ∧ d (u.add dir.vec2i) ≤ d u + 1
  sorted : s.queue.Pairwise fun a b => d a ≤ d b
  queue_gap : ∀ a ∈ s.queue, ∀ b ∈ s.queue, d b ≤ d a + 1
  proc_depth : ∀ u, processed g arg s u → ∀ q ∈ s.queue, d u ≤ d q
  not_goal : ∀ u, processed g arg s u → u ≠ arg.goal

/-- Invariant of the fallback candidate, for a positive squared reach. -/
structure bfs_fallback (g : distance_field) (arg : path_args) (s : bfs_state) : Prop where
  cd_le : s.closest_distance ≤ MaxInt
  recorded : ∀ u, processed g arg s u → u.distance_sq arg.goal ≤ max_reach_sq arg →
    u.distance_sq arg.goal < MaxInt → s.closest_distance ≤ u.distance_sq arg.goal
  closest_ok : s.closest_distance ≠ MaxInt →
    processed g arg s s.closest ∧ s.closest.distance_sq arg.goal = s.closest_distance ∧
      s.closest_distance ≤ max_reach_sq arg

/-! ## The editor's operations -/

/-- The loop of the Clear button: every cell of `g.cells` is opened. -/
def distance_field.clear_all (g : distance_field) : distance_field :=
  { g with cells := fun i => if i < 16384 then { g.cells i with closed := false } else g.cells i }

/-- The loop of the Fill button: every cell of `g.cells` is closed. -/
def distance_field.fill_all (g : distance_field) : distance_field :=
  { g with cells := fun i => if i < 16384 then { g.cells i with closed := true } else g.cells i }

/-- The grid states the editor reaches: the state after `Load`, and the
state after each edit of a cell (flip, then `update_cells` on the window),
after Clear, after Fill and after the Load button applied a tile list
without a panic, each followed by `update_all_cells`. -/
inductive editor_reaches : distance_field → Prop
  | start : editor_reaches grid_loaded
  | edit (g : distance_field) (x y drag_cycle : Int) :
      editor_reaches g → g.in_bounds x y = true →
      editor_reaches
        ((g.toggle_closed x y drag_cycle).update_cells (x - max_distance) (y - max_distance)
          (x + max_distance) (y + max_distance))
  | clear (g : distance_field) : editor_reaches g → editor_reaches g.clear_all.update_all_cells
  | fill (g : distance_field) : editor_reaches g → editor_reaches g.fill_all.update_all_cells
  | tiles (g g2 : distance_field) (chunks : List tile_data) :
      editor_reaches g → g.load_tiles chunks = some g2 → editor_reaches g2.update_all_cells

/-- Every cell of the grid has `0 ≤ space ≤ max_distance`, and a closed cell
has `space = 0`. -/
def space_in_range (g : distance_field) : Prop :=
  ∀ i, i < 16384 →
    0 ≤ (g.cells i).space ∧ (g.cells i).space ≤ max_distance ∧
      ((g.cells i).closed = true → (g.cells i).space = 0)

/-! ## Vocabulary of the termination claim -/

/-- The run of the search loop together with the coordinates dequeued so
far, in order: `bfs_trace g arg T s` holds when the loop condition is
evaluated in state `s` after the coordinates `T` were dequeued. -/
inductive bfs_trace (g : distance_field) (arg : path_args) : List vec2i → bfs_state → Prop
  | init : bfs_trace g arg [] (bfs_init arg)
  | skip (T : List vec2i) (s : bfs_state) (cur : vec2i) (rest : List vec2i) :
      bfs_trace g arg T s → s.queue = cur :: rest →
      (max_distance_sq arg > 0 ∧ cur.distance_sq arg.goal > max_distance_sq arg) →
      bfs_trace g arg (T ++ [cur]) { s with queue := rest }
  | expand (T : List vec2i) (s : bfs_state) (cur : vec2i) (rest : List vec2i) :
      bfs_trace g arg T s → s.queue = cur :: rest →
      ¬(max_distance_sq arg > 0 ∧ cur.distance_sq arg.goal > max_distance_sq arg) →
      cur ≠ arg.goal →
      bfs_trace g arg (T ++ [cur])
        (path_directions.foldl (bfs_visit g arg cur) (bfs_record arg cur rest s))

/-- The coordinates enqueued so far, `T` followed by the queue, are
distinct, visited, and apart from `start` traversable; together with the
unvisited cells of the grid they number at most `grid_size^2 + 1`. -/
def enqueued_once (g : distance_field) (arg : path_args) (T : List vec2i) (s : bfs_state) :
    Prop :=
  (T ++ s.queue).Nodup ∧
  (∀ v ∈ T ++ s.queue, s.visited v = true ∧ (v = arg.start ∨ trav g arg v = true)) ∧
  (T ++ s.queue).length + unvisited_count s ≤ 16385

/-- A request without fallback reach: `(0,0)` to `(1,1)`, `max_reach = 0`. -/
def no_reach_request : path_args :=
  { start := { x := 0, y := 0 }
    goal := { x := 1, y := 1 }
    min_space := 1
    max_distance := 0
    max_reach := 0 }

/-- A request from `(0,0)` to `(1,1)` for a mover of size `0`. -/
def detour_request : path_args :=
  { start := { x := 0, y := 0 }
    goal := { x := 1, y := 1 }
    min_space := 0
    max_distance := 0
    max_reach := 0 }

/-- A request whose `start` and `goal` both lie outside the grid. -/
def outside_request : path_args :=
  { start := { x := -5, y := -5 }
    goal := { x := 200, y := 200 }
    min_space := 1
    max_distance := 0
    max_reach := 0 }

/-- A grid of open cells whose only closed cell is `(1,0)`. -/
def grid_one_wall : distance_field :=
  { cells := fun i => { closed := decide (i = 1), space := 0, _input_cycle := 0 },
    grid_dirty := false }

/-- The state of the search on `grid_one_wall` for `detour_request` when the
direction loop of the first node, `(0,0)`, comes to `southeast`. -/
def detour_state : bfs_state :=
  [north, east, south, west, northwest, northeast].foldl
    (bfs_visit grid_one_wall detour_request { x := 0, y := 0 })
    (bfs_record detour_request { x := 0, y := 0 } [] (bfs_init detour_request))

end DistanceField

namespace DistanceField

/-! ## Clearance: proofs -/

theorem mem_int_range (lo hi v : Int) : v ∈ int_range lo hi ↔ lo ≤ v ∧ v < hi := by
  unfold int_range
  simp only [List.mem_map, List.mem_range]
  constructor
  · rintro ⟨k, hk, rfl⟩
    omega
  · rintro ⟨h1, h2⟩
    exact ⟨(v - lo).toNat, by omega, by omega⟩

/-- A loop nested in a loop is one loop over the pairs, outer index first. -/
theorem foldl_nested {α β σ : Type} (F : σ → α → β → σ) (Ly : List β) (Lx : List α) (s : σ) :
    Ly.foldl (fun s y => Lx.foldl (fun s x => F s x y) s) s =
      (Ly.flatMap fun y => Lx.map fun x => (x, y)).foldl (fun s p => F s p.1 p.2) s := by
  induction Ly generalizing s with
  | nil => rfl
  | cons y Ly ih =>
    simp only [List.foldl_cons, List.flatMap_cons, List.foldl_append, List.foldl_map]
    exact ih _

theorem mem_pairs {α β : Type} (Ly : List β) (Lx : List α) (p : α × β) :
    p ∈ (Ly.flatMap fun y => Lx.map fun x => (x, y)) ↔ p.1 ∈ Lx ∧ p.2 ∈ Ly := by
  obtain ⟨a, b⟩ := p
  simp only [List.mem_flatMap, List.mem_map, Prod.mk.injEq]
  constructor
  · rintro ⟨y, hy, x, hx, rfl, rfl⟩
    exact ⟨hx, hy⟩
  · rintro ⟨hx, hy⟩
    exact ⟨b, hy, a, hx, rfl, rfl⟩

section FoldMin

variable {α : Type} (f : Int → α → Int) (P : α → Bool) (D : α → Int)

theorem foldl_min_le_init (hf : ∀ s a, f s a = if P a = true then min s (D a) else s)
    (L : List α) (s : Int) : L.foldl f s ≤ s := by
  induction L generalizing s with
  | nil => exact le_refl _
  | cons a L ih =>
    simp only [List.foldl_cons]
    refine le_trans (ih _) ?_
    rw [hf]
    split
    · exact min_le_left _ _
    · exact le_refl _

theorem foldl_min_le_mem (hf : ∀ s a, f s a = if P a = true then min s (D a) else s)
    (L : List α) (s : Int) (a : α) (ha : a ∈ L) (hP : P a = true) : L.foldl f s ≤ D a := by
  induction L generalizing s with
  | nil => cases ha
  | cons b L ih =>
    simp only [List.foldl_cons]
    rcases List.mem_cons.mp ha with rfl | h
    · refine le_trans (foldl_min_le_init f P D hf L _) ?_
      rw [hf, if_pos hP]
      exact min_le_right _ _
    · exact ih _ h

theorem foldl_min_cases (hf : ∀ s a, f s a = if P a = true then min s (D a) else s)
    (L : List α) (s : Int) :
    L.foldl f s = s ∨ ∃ a ∈ L, P a = true ∧ L.foldl f s = D a := by
  induction L generalizing s with
  | nil => exact Or.inl rfl
  | cons b L ih =>
    simp only [List.foldl_cons]
    rcases ih (f s b) with h | ⟨a, ha, hP, h⟩
    · rw [h, hf]
      by_cases hb : P b = true
      · rw [if_pos hb]
        rcases min_choice s (D b) with h2 | h2
        · exact Or.inl h2
        · exact Or.inr ⟨b, List.mem_cons_self _ _, hb, h2⟩
      · rw [if_neg hb]
        exact Or.inl rfl
    · exact Or.inr ⟨a, List.mem_cons_of_mem _ ha, hP, h⟩

end FoldMin

/-- The body of the offset loop keeps a running minimum over the offsets
whose target is an obstacle. -/
theorem update_cell_offset_eq (g : distance_field) (x y dy s dx : Int) :
    update_cell_offset g x y dy s dx =
      if (decide (¬(dx = 0 ∧ dy = 0)) && is_obstacle g (x + dx) (y + dy)) = true
      then min s (min (sqrt_int (dx * dx + dy * dy)) max_distance) else s := by
  unfold update_cell_offset is_obstacle
  by_cases h0 : dx = 0 ∧ dy = 0
  · simp [h0]
  · simp only [h0, if_false, not_false_eq_true, decide_True, Bool.true_and]
    by_cases h1 : min (sqrt_int (dx * dx + dy * dy)) max_distance ≥ s
    · simp only [h1, if_true]
      split <;> simp [min_eq_left h1]
    · simp only [h1, if_false]
      have h2 : min s (min (sqrt_int (dx * dx + dy * dy)) max_distance) =
          min (sqrt_int (dx * dx + dy * dy)) max_distance := min_eq_right (le_of_lt (not_le.mp h1))
      cases hc : g.cell_at (x + dx) (y + dy) with
      | none => simp [h2]
      | some c => cases hcl : c.closed <;> simp [h2]

theorem scan_space_eq (g : distance_field) (x y : Int) :
    scan_space g x y =
      ((int_range (-max_distance) (max_distance + 1)).flatMap fun dy =>
        (int_range (-max_distance) (max_distance + 1)).map fun dx => (dx, dy)).foldl
        (fun s p => update_cell_offset g x y p.2 s p.1) max_distance := by
  unfold scan_space
  exact foldl_nested (fun s dx dy => update_cell_offset g x y dy s dx) _ _ _

theorem mem_window (v : Int) :
    v ∈ int_range (-max_distance) (max_distance + 1) ↔ |v| ≤ max_distance := by
  rw [mem_int_range, abs_le]
  constructor <;> intro h <;> constructor <;> omega

/-- The offset loops of `update_cell` compute the minimum of the candidates. -/
theorem scan_space_isLeast (g : distance_field) (x y : Int) :
    IsLeast (clearance_candidates g x y) (scan_space g x y) := by
  have hf : ∀ (s : Int) (p : Int × Int), update_cell_offset g x y p.2 s p.1 =
      if (fun p : Int × Int => decide (¬(p.1 = 0 ∧ p.2 = 0)) &&
            is_obstacle g (x + p.1) (y + p.2)) p = true
      then min s ((fun p : Int × Int => min (sqrt_int (p.1 * p.1 + p.2 * p.2)) max_distance) p)
      else s := fun s p => update_cell_offset_eq g x y p.2 s p.1
  rw [scan_space_eq]
  constructor
  · rcases foldl_min_cases _ _ _ hf _ max_distance with h | ⟨p, hp, hP, h⟩
    · exact Or.inl h
    · rw [h]
      rw [mem_pairs, mem_window, mem_window] at hp
      simp only [Bool.and_eq_true, decide_eq_true_eq] at hP
      rcases min_choice (sqrt_int (p.1 * p.1 + p.2 * p.2)) max_distance with h2 | h2
      · exact Or.inr ⟨p.1, p.2, hP.1, hp.1, hp.2, hP.2, h2⟩
      · exact Or.inl h2
  · rintro d (rfl | ⟨dx, dy, h0, hdx, hdy, hob, rfl⟩)
    · exact foldl_min_le_init _ _ _ hf _ _
    · refine le_trans (foldl_min_le_mem _ _ _ hf _ max_distance (dx, dy) ?_ ?_) (min_le_left _ _)
      · rw [mem_pairs, mem_window, mem_window]
        exact ⟨hdx, hdy⟩
      · simp only [Bool.and_eq_true, decide_eq_true_eq]
        exact ⟨h0, hob⟩

/-! ### `update_cell` and `update_cells` -/

theorem in_bounds_iff (g : distance_field) (x y : Int) :
    g.in_bounds x y = true ↔ 0 ≤ x ∧ x < 128 ∧ 0 ≤ y ∧ y < 128 := by
  unfold distance_field.in_bounds grid_size
  simp only [Bool.and_eq_true, decide_eq_true_eq, ge_iff_le]
  constructor
  · rintro ⟨⟨⟨h1, h2⟩, h3⟩, h4⟩
    exact ⟨h1, h3, h2, h4⟩
  · rintro ⟨h1, h3, h2, h4⟩
    exact ⟨⟨⟨h1, h2⟩, h3⟩, h4⟩

theorem in_bounds_congr (g g2 : distance_field) (x y : Int) :
    g.in_bounds x y = g2.in_bounds x y := rfl

theorem cell_index_eq_iff (i : Nat) (x y : Int) (h : 0 ≤ x ∧ x < 128 ∧ 0 ≤ y ∧ y < 128) :
    i = cell_index x y ↔ i < 16384 ∧ index_x i = x ∧ index_y i = y := by
  unfold cell_index index_x index_y grid_size
  omega

theorem index_in_bounds (i : Nat) (h : i < 16384) :
    0 ≤ index_x i ∧ index_x i < 128 ∧ 0 ≤ index_y i ∧ index_y i < 128 := by
  unfold index_x index_y
  omega

theorem cell_index_index (i : Nat) (h : i < 16384) : cell_index (index_x i) (index_y i) = i := by
  unfold cell_index index_x index_y grid_size
  omega

theorem update_cell_cells (g : distance_field) (x y : Int) (i : Nat) :
    (g.update_cell x y).1.cells i =
      if i < 16384 ∧ index_x i = x ∧ index_y i = y
      then { g.cells i with space := recomputed_space g x y } else g.cells i := by
  unfold distance_field.update_cell distance_field.cell_at
  by_cases hb : g.in_bounds x y = true
  · have hb2 := (in_bounds_iff g x y).mp hb
    simp only [hb, if_true, distance_field.set_cell]
    by_cases hi : i = cell_index x y
    · have hi2 := (cell_index_eq_iff i x y hb2).mp hi
      rw [if_pos hi, if_pos hi2, hi]
      unfold recomputed_space is_obstacle distance_field.cell_at
      simp only [hb, if_true]
    · have hi2 : ¬(i < 16384 ∧ index_x i = x ∧ index_y i = y) :=
        fun h => hi ((cell_index_eq_iff i x y hb2).mpr h)
      rw [if_neg hi, if_neg hi2]
  · have hi2 : ¬(i < 16384 ∧ index_x i = x ∧ index_y i = y) := by
      rintro ⟨h1, rfl, rfl⟩
      exact hb ((in_bounds_iff g _ _).mpr (index_in_bounds i h1))
    simp [hb, if_neg hi2]

theorem is_obstacle_eq (g : distance_field) (x y : Int) :
    is_obstacle g x y =
      if g.in_bounds x y = true then (g.cells (cell_index x y)).closed else true := by
  unfold is_obstacle distance_field.cell_at
  by_cases h : g.in_bounds x y = true
  · simp only [h, if_true]
  · simp [h]

theorem is_obstacle_update_cell (g : distance_field) (x y a b : Int) :
    is_obstacle (g.update_cell x y).1 a b = is_obstacle g a b := by
  rw [is_obstacle_eq, is_obstacle_eq, update_cell_cells, in_bounds_congr _ g]
  by_cases h : g.in_bounds a b = true
  · simp only [h, if_true]
    split <;> rfl
  · simp [h]

theorem clearance_candidates_congr (g g2 : distance_field)
    (h : ∀ a b, is_obstacle g a b = is_obstacle g2 a b) (x y : Int) :
    clearance_candidates g x y = clearance_candidates g2 x y := by
  unfold clearance_candidates
  simp only [h]

theorem recomputed_space_congr (g g2 : distance_field)
    (h : ∀ a b, is_obstacle g a b = is_obstacle g2 a b) (x y : Int) :
    recomputed_space g x y = recomputed_space g2 x y := by
  unfold recomputed_space
  rw [h x y]
  split
  · rfl
  · have h1 := scan_space_isLeast g x y
    rw [clearance_candidates_congr g g2 h] at h1
    exact h1.unique (scan_space_isLeast g2 x y)

theorem is_reference_clearance_congr (g g2 : distance_field)
    (h : ∀ a b, is_obstacle g a b = is_obstacle g2 a b) (x y m : Int) :
    is_reference_clearance g x y m ↔ is_reference_clearance g2 x y m := by
  unfold is_reference_clearance
  rw [h x y, clearance_candidates_congr g g2 h]

theorem is_reference_clearance_recomputed (g : distance_field) (x y : Int) :
    is_reference_clearance g x y (recomputed_space g x y) := by
  unfold is_reference_clearance recomputed_space
  constructor
  · intro h
    rw [if_pos h]
  · intro h
    rw [if_neg (by simp [h])]
    exact scan_space_isLeast g x y

theorem is_reference_clearance_unique (g : distance_field) (x y m : Int)
    (h : is_reference_clearance g x y m) : m = recomputed_space g x y := by
  have h2 := is_reference_clearance_recomputed g x y
  cases hob : is_obstacle g x y
  · exact (h.2 hob).unique (h2.2 hob)
  · rw [h.1 hob, h2.1 hob]

/-- Recomputing a list of cells one after the other. -/
theorem foldl_update_cell_obstacle (L : List (Int × Int)) (g : distance_field) (a b : Int) :
    is_obstacle (L.foldl (fun g p => (g.update_cell p.1 p.2).1) g) a b = is_obstacle g a b := by
  induction L generalizing g with
  | nil => rfl
  | cons p L ih =>
    simp only [List.foldl_cons]
    rw [ih, is_obstacle_update_cell]

theorem foldl_update_cell_cells (L : List (Int × Int)) (g : distance_field) (i : Nat) :
    (L.foldl (fun g p => (g.update_cell p.1 p.2).1) g).cells i =
      if i < 16384 ∧ (index_x i, index_y i) ∈ L
      then { g.cells i with space := recomputed_space g (index_x i) (index_y i) }
      else g.cells i := by
  induction L generalizing g with
  | nil => simp
  | cons p L ih =>
    simp only [List.foldl_cons]
    rw [ih, update_cell_cells,
      recomputed_space_congr (g.update_cell p.1 p.2).1 g (is_obstacle_update_cell g p.1 p.2)]
    by_cases hi : i < 16384
    · by_cases hL : (index_x i, index_y i) ∈ L
      · have h1 : i < 16384 ∧ (index_x i, index_y i) ∈ L := ⟨hi, hL⟩
        have h2 : i < 16384 ∧ (index_x i, index_y i) ∈ p :: L :=
          ⟨hi, List.mem_cons_of_mem _ hL⟩
        rw [if_pos h1, if_pos h2]
        split <;> rfl
      · have h1 : ¬(i < 16384 ∧ (index_x i, index_y i) ∈ L) := fun h => hL h.2
        rw [if_neg h1]
        by_cases hp : index_x i = p.1 ∧ index_y i = p.2
        · have h2 : i < 16384 ∧ (index_x i, index_y i) ∈ p :: L := by
            refine ⟨hi, ?_⟩
            rw [hp.1, hp.2]
            exact List.mem_cons_self _ _
          rw [if_pos ⟨hi, hp⟩, if_pos h2, hp.1, hp.2]
        · have h2 : ¬(i < 16384 ∧ (index_x i, index_y i) ∈ p :: L) := by
            rintro ⟨_, h⟩
            rcases List.mem_cons.mp h with h | h
            · exact hp ⟨congrArg Prod.fst h, congrArg Prod.snd h⟩
            · exact hL h
          have h3 : ¬(i < 16384 ∧ index_x i = p.1 ∧ index_y i = p.2) := fun h => hp h.2
          rw [if_neg h3, if_neg h2]
    · have h1 : ¬(i < 16384 ∧ (index_x i, index_y i) ∈ L) := fun h => hi h.1
      have h2 : ¬(i < 16384 ∧ (index_x i, index_y i) ∈ p :: L) := fun h => hi h.1
      have h3 : ¬(i < 16384 ∧ index_x i = p.1 ∧ index_y i = p.2) := fun h => hi h.1
      rw [if_neg h1, if_neg h2, if_neg h3]

theorem update_cells_eq (g : distance_field) (x0 y0 x1 y1 : Int) :
    g.update_cells x0 y0 x1 y1 =
      (region_cells x0 y0 x1 y1).foldl (fun g p => (g.update_cell p.1 p.2).1) g := by
  unfold distance_field.update_cells region_cells
  exact foldl_nested (fun (g : distance_field) (x y : Int) => (g.update_cell x y).1) _ _ _

theorem mem_region_cells (x0 y0 x1 y1 : Int) (p : Int × Int) :
    p ∈ region_cells x0 y0 x1 y1 ↔ (x0 ≤ p.1 ∧ p.1 < x1) ∧ (y0 ≤ p.2 ∧ p.2 < y1) := by
  unfold region_cells
  rw [mem_pairs, mem_int_range, mem_int_range]

theorem update_cells_obstacle (g : distance_field) (x0 y0 x1 y1 a b : Int) :
    is_obstacle (g.update_cells x0 y0 x1 y1) a b = is_obstacle g a b := by
  rw [update_cells_eq, foldl_update_cell_obstacle]

theorem space_at_eq (g : distance_field) (x y : Int) (h : g.in_bounds x y = true) :
    g.space_at x y = (g.cells (cell_index x y)).space := by
  unfold distance_field.space_at distance_field.cell_at
  rw [if_pos h]

/-- Inside the region every existing cell holds its recomputed space. -/
theorem update_cells_space_at (g : distance_field) (x0 y0 x1 y1 x y : Int)
    (hb : g.in_bounds x y = true) (hx : x0 ≤ x ∧ x < x1) (hy : y0 ≤ y ∧ y < y1) :
    (g.update_cells x0 y0 x1 y1).space_at x y = recomputed_space g x y := by
  rw [space_at_eq _ _ _ (by rw [in_bounds_congr _ g]; exact hb), update_cells_eq,
    foldl_update_cell_cells]
  have hb2 := (in_bounds_iff g x y).mp hb
  have hi := (cell_index_eq_iff (cell_index x y) x y hb2).mp rfl
  rw [hi.2.1, hi.2.2, if_pos ⟨hi.1, (mem_region_cells _ _ _ _ _).mpr ⟨hx, hy⟩⟩]

theorem update_cell_space_at (g : distance_field) (x y : Int) (hb : g.in_bounds x y = true) :
    (g.update_cell x y).1.space_at x y = recomputed_space g x y := by
  rw [space_at_eq _ _ _ (by rw [in_bounds_congr _ g]; exact hb), update_cell_cells]
  have hb2 := (in_bounds_iff g x y).mp hb
  have hi := (cell_index_eq_iff (cell_index x y) x y hb2).mp rfl
  rw [if_pos hi]

/-! ### The rounded square root -/

theorem sqrt_int_search_spec (x : Nat) (fuel k : Nat) :
    k ≤ sqrt_int_search x fuel k ∧
    (sqrt_int_search x fuel k < k + fuel →
      x ≤ sqrt_int_search x fuel k * sqrt_int_search x fuel k + sqrt_int_search x fuel k) ∧
    (∀ j, k ≤ j → j < sqrt_int_search x fuel k → j * j + j < x) := by
  induction fuel generalizing k with
  | zero =>
    refine ⟨le_refl _, fun h => ?_, fun j h1 h2 => ?_⟩
    · simp [sqrt_int_search] at h
    · simp only [sqrt_int_search] at h2
      omega
  | succ fuel ih =>
    unfold sqrt_int_search
    by_cases h : x ≤ k * k + k
    · rw [if_pos h]
      exact ⟨le_refl _, fun _ => h, fun j h1 h2 => by omega⟩
    · rw [if_neg h]
      obtain ⟨h1, h2, h3⟩ := ih (k + 1)
      refine ⟨by omega, fun h4 => h2 (by omega), fun j hj1 hj2 => ?_⟩
      rcases Nat.eq_or_lt_of_le hj1 with rfl | hj
      · omega
      · exact h3 j hj hj2

/-- The value `r` of `sqrt_int n` is the nearest integer to the square root:
`(2r-1)^2 < 4n < (2r+1)^2`, written without fractions. -/
theorem sqrt_int_rounds (n : Int) (hn : 1 ≤ n) :
    0 ≤ sqrt_int n ∧ sqrt_int n * sqrt_int n - sqrt_int n < n ∧
      n ≤ sqrt_int n * sqrt_int n + sqrt_int n := by
  obtain ⟨x, rfl⟩ : ∃ x : Nat, n = (x : Int) := ⟨n.toNat, by omega⟩
  have hx : 1 ≤ x := by omega
  unfold sqrt_int
  simp only [Int.toNat_ofNat]
  obtain ⟨-, h2, h3⟩ := sqrt_int_search_spec x x 0
  generalize sqrt_int_search x x 0 = r at h2 h3
  have hup : x ≤ r * r + r := by
    by_cases hr : r < 0 + x
    · exact h2 hr
    · have : x ≤ r := by omega
      exact le_trans this (Nat.le_add_left _ _)
  have hr1 : 1 ≤ r := by
    by_contra hr
    have : r = 0 := by omega
    subst this
    omega
  have hlo := h3 (r - 1) (Nat.zero_le _) (by omega)
  obtain ⟨q, rfl⟩ : ∃ q, r = q + 1 := ⟨r - 1, by omega⟩
  simp only [Nat.add_sub_cancel] at hlo
  refine ⟨by positivity, ?_, by exact_mod_cast hup⟩
  have : ((q * q + q : Nat) : Int) < (x : Int) := by exact_mod_cast hlo
  push_cast at this ⊢
  nlinarith

theorem sqrt_int_pos (n : Int) (hn : 1 ≤ n) : 1 ≤ sqrt_int n := by
  obtain ⟨h0, h1, h2⟩ := sqrt_int_rounds n hn
  by_contra h
  have : sqrt_int n = 0 := by omega
  rw [this] at h2
  omega

theorem sqrt_int_ge_max_distance (n : Int) (hn : 225 ≤ n) : max_distance ≤ sqrt_int n := by
  obtain ⟨h0, h1, h2⟩ := sqrt_int_rounds n (by omega)
  unfold max_distance
  by_contra h
  have h3 : sqrt_int n ≤ 14 := by omega
  nlinarith

theorem offset_sq_pos (dx dy : Int) (h : ¬(dx = 0 ∧ dy = 0)) : 1 ≤ dx * dx + dy * dy := by
  have h1 : 0 ≤ dx * dx := mul_self_nonneg dx
  have h2 : 0 ≤ dy * dy := mul_self_nonneg dy
  by_contra h3
  have h4 : dx * dx = 0 := by omega
  have h5 : dy * dy = 0 := by omega
  exact h ⟨mul_self_eq_zero.mp h4, mul_self_eq_zero.mp h5⟩

theorem offset_sq_far (dx dy : Int) (h : 15 ≤ |dx| ∨ 15 ≤ |dy|) : 225 ≤ dx * dx + dy * dy := by
  have h1 : 0 ≤ dx * dx := mul_self_nonneg dx
  have h2 : 0 ≤ dy * dy := mul_self_nonneg dy
  rcases h with h | h
  · have : 225 ≤ dx * dx := by
      rw [← abs_mul_abs_self dx]
      nlinarith [abs_nonneg dx]
    omega
  · have : 225 ≤ dy * dy := by
      rw [← abs_mul_abs_self dy]
      nlinarith [abs_nonneg dy]
    omega

/-! ### The single-closed-cell scenario -/

theorem grid_single_closed_obstacle (a b : Int) (h : 0 ≤ a ∧ a < 128 ∧ 0 ≤ b ∧ b < 128) :
    is_obstacle grid_single_closed a b = true ↔ a = 5 ∧ b = 5 := by
  rw [is_obstacle_eq, if_pos ((in_bounds_iff _ a b).mpr h)]
  unfold grid_single_closed cell_index grid_size
  simp only [decide_eq_true_eq]
  omega

theorem grid_single_closed_space_5_5 : recomputed_space grid_single_closed 5 5 = 0 := by
  unfold recomputed_space
  rw [if_pos ((grid_single_closed_obstacle 5 5 (by omega)).mpr ⟨rfl, rfl⟩)]

theorem grid_single_closed_space_6_6 : recomputed_space grid_single_closed 6 6 = 1 := by
  have hopen : is_obstacle grid_single_closed 6 6 = false := by
    rw [Bool.eq_false_iff, Ne, grid_single_closed_obstacle 6 6 (by omega)]
    omega
  symm
  refine is_reference_clearance_unique _ _ _ _ ⟨fun h => ?_, fun _ => ⟨?_, ?_⟩⟩
  · rw [hopen] at h
    cases h
  · refine Or.inr ⟨-1, -1, by omega, by decide, by decide, ?_, by decide⟩
    exact (grid_single_closed_obstacle _ _ (by omega)).mpr ⟨by omega, by omega⟩
  · rintro d (rfl | ⟨dx, dy, h0, -, -, -, rfl⟩)
    · decide
    · exact sqrt_int_pos _ (offset_sq_pos dx dy h0)

theorem grid_single_closed_space_20_20 : recomputed_space grid_single_closed 20 20 = 15 := by
  have hopen : is_obstacle grid_single_closed 20 20 = false := by
    rw [Bool.eq_false_iff, Ne, grid_single_closed_obstacle 20 20 (by omega)]
    omega
  symm
  refine is_reference_clearance_unique _ _ _ _ ⟨fun h => ?_, fun _ => ⟨Or.inl rfl, ?_⟩⟩
  · rw [hopen] at h
    cases h
  · rintro d (rfl | ⟨dx, dy, h0, hdx, hdy, hob, rfl⟩)
    · exact le_refl _
    · unfold max_distance at hdx hdy
      rw [abs_le] at hdx hdy
      rw [grid_single_closed_obstacle _ _ (by omega)] at hob
      have hx : dx = -15 := by omega
      have hy : dy = -15 := by omega
      subst hx hy
      decide

/-! ### Editing one cell -/

theorem toggle_closed_cells (g : distance_field) (x y dc : Int) (i : Nat) :
    (g.toggle_closed x y dc).cells i =
      if i < 16384 ∧ index_x i = x ∧ index_y i = y
      then { g.cells i with _input_cycle := dc, closed := !(g.cells i).closed }
      else g.cells i := by
  unfold distance_field.toggle_closed distance_field.cell_at
  by_cases hb : g.in_bounds x y = true
  · have hb2 := (in_bounds_iff g x y).mp hb
    simp only [hb, if_true, distance_field.set_cell]
    by_cases hi : i = cell_index x y
    · have hi2 := (cell_index_eq_iff i x y hb2).mp hi
      rw [if_pos hi, if_pos hi2, hi]
    · have hi2 : ¬(i < 16384 ∧ index_x i = x ∧ index_y i = y) :=
        fun h => hi ((cell_index_eq_iff i x y hb2).mpr h)
      rw [if_neg hi, if_neg hi2]
  · have hi2 : ¬(i < 16384 ∧ index_x i = x ∧ index_y i = y) := by
      rintro ⟨h1, rfl, rfl⟩
      exact hb ((in_bounds_iff g _ _).mpr (index_in_bounds i h1))
    simp [hb, if_neg hi2]

theorem toggle_closed_obstacle_other (g : distance_field) (x y dc a b : Int)
    (h : ¬(a = x ∧ b = y)) :
    is_obstacle (g.toggle_closed x y dc) a b = is_obstacle g a b := by
  rw [is_obstacle_eq, is_obstacle_eq, toggle_closed_cells, in_bounds_congr _ g]
  by_cases hb : g.in_bounds a b = true
  · simp only [hb, if_true]
    have hi := (cell_index_eq_iff (cell_index a b) a b ((in_bounds_iff g a b).mp hb)).mp rfl
    rw [if_neg]
    rintro ⟨-, h1, h2⟩
    exact h ⟨by rw [← hi.2.1, h1], by rw [← hi.2.2, h2]⟩
  · simp [hb]

/-- A cell outside the window `[x-15, x+15) × [y-15, y+15)` does not see a
change of the obstacle at `(x, y)`: its offset to that cell has rounded
length at least `max_distance`. -/
theorem candidates_least_of_far (g g2 : distance_field) (x y a b m : Int)
    (hsame : ∀ c d, ¬(c = x ∧ d = y) → is_obstacle g2 c d = is_obstacle g c d)
    (hfar : ¬((x - max_distance ≤ a ∧ a < x + max_distance) ∧
      (y - max_distance ≤ b ∧ b < y + max_distance)))
    (hm : IsLeast (clearance_candidates g a b) m) :
    IsLeast (clearance_candidates g2 a b) m := by
  have hmax : m ≤ max_distance := hm.2 (Or.inl rfl)
  have hbig : ∀ dx dy : Int, a + dx = x ∧ b + dy = y →
      max_distance ≤ sqrt_int (dx * dx + dy * dy) := by
    intro dx dy hxy
    apply sqrt_int_ge_max_distance
    apply offset_sq_far
    unfold max_distance at hfar
    by_contra hc
    push_neg at hc
    have h1 := abs_lt.mp hc.1
    have h2 := abs_lt.mp hc.2
    apply hfar
    omega
  constructor
  · rcases hm.1 with h | ⟨dx, dy, h0, hdx, hdy, hob, h⟩
    · exact Or.inl h
    · by_cases hxy : a + dx = x ∧ b + dy = y
      · have := hbig dx dy hxy
        exact Or.inl (le_antisymm hmax (by rw [h]; exact this))
      · exact Or.inr ⟨dx, dy, h0, hdx, hdy, by rw [hsame _ _ hxy]; exact hob, h⟩
  · rintro d (rfl | ⟨dx, dy, h0, hdx, hdy, hob, rfl⟩)
    · exact hmax
    · by_cases hxy : a + dx = x ∧ b + dy = y
      · exact le_trans hmax (hbig dx dy hxy)
      · exact hm.2 (Or.inr ⟨dx, dy, h0, hdx, hdy, by rw [← hsame _ _ hxy]; exact hob, rfl⟩)

theorem recomputed_space_of_far (g g2 : distance_field) (x y a b : Int)
    (hsame : ∀ c d, ¬(c = x ∧ d = y) → is_obstacle g2 c d = is_obstacle g c d)
    (hfar : ¬((x - max_distance ≤ a ∧ a < x + max_distance) ∧
      (y - max_distance ≤ b ∧ b < y + max_distance))) :
    recomputed_space g2 a b = recomputed_space g a b := by
  have hne : ¬(a = x ∧ b = y) := by
    rintro ⟨rfl, rfl⟩
    apply hfar
    unfold max_distance
    omega
  unfold recomputed_space
  rw [hsame a b hne]
  split
  · rfl
  · exact ((candidates_least_of_far g g2 x y a b _ hsame hfar
      (scan_space_isLeast g a b)).unique (scan_space_isLeast g2 a b)).symm

theorem foldl_update_cell_dirty (L : List (Int × Int)) (g : distance_field) :
    (L.foldl (fun g p => (g.update_cell p.1 p.2).1) g).grid_dirty =
      (g.grid_dirty || L.any fun p => g.in_bounds p.1 p.2) := by
  induction L generalizing g with
  | nil => simp
  | cons p L ih =>
    simp only [List.foldl_cons, List.any_cons]
    rw [ih]
    have h : (g.update_cell p.1 p.2).1.grid_dirty = (g.grid_dirty || g.in_bounds p.1 p.2) := by
      unfold distance_field.update_cell distance_field.cell_at
      by_cases hb : g.in_bounds p.1 p.2 = true
      · simp [hb, distance_field.set_cell]
      · simp [hb]
    rw [h, Bool.or_assoc]
    rfl

/-- After flipping `(x, y)`, recomputing the window around it gives the
same grid as recomputing every cell. -/
theorem window_update_eq_full (g : distance_field) (x y dc : Int)
    (hb : g.in_bounds x y = true)
    (href : ∀ a b, g.in_bounds a b = true → is_reference_clearance g a b (g.space_at a b)) :
    (g.toggle_closed x y dc).update_cells (x - max_distance) (y - max_distance)
        (x + max_distance) (y + max_distance) =
      (g.toggle_closed x y dc).update_all_cells := by
  have hb2 := (in_bounds_iff g x y).mp hb
  have hsame := toggle_closed_obstacle_other g x y dc
  unfold distance_field.update_all_cells
  rw [update_cells_eq, update_cells_eq]
  have hdirty : ∀ L : List (Int × Int), (x, y) ∈ L →
      (L.foldl (fun g p => (g.update_cell p.1 p.2).1) (g.toggle_closed x y dc)).grid_dirty
        = true := by
    intro L hL
    rw [foldl_update_cell_dirty, Bool.or_eq_true]
    right
    rw [List.any_eq_true]
    exact ⟨(x, y), hL, hb⟩
  have hcells : ∀ i,
      ((region_cells (x - max_distance) (y - max_distance) (x + max_distance)
        (y + max_distance)).foldl (fun g p => (g.update_cell p.1 p.2).1)
          (g.toggle_closed x y dc)).cells i =
      ((region_cells 0 0 grid_size grid_size).foldl (fun g p => (g.update_cell p.1 p.2).1)
          (g.toggle_closed x y dc)).cells i := by
    intro i
    rw [foldl_update_cell_cells, foldl_update_cell_cells]
    by_cases hi : i < 16384
    · have hxy := index_in_bounds i hi
      have hall : i < 16384 ∧ (index_x i, index_y i) ∈ region_cells 0 0 grid_size grid_size := by
        refine ⟨hi, ?_⟩
        rw [mem_region_cells]
        unfold grid_size
        exact ⟨⟨hxy.1, hxy.2.1⟩, hxy.2.2.1, hxy.2.2.2⟩
      rw [if_pos hall]
      by_cases hw : (index_x i, index_y i) ∈ region_cells (x - max_distance)
          (y - max_distance) (x + max_distance) (y + max_distance)
      · rw [if_pos ⟨hi, hw⟩]
      · rw [if_neg (fun h => hw h.2)]
        rw [mem_region_cells] at hw
        have hne : ¬(i < 16384 ∧ index_x i = x ∧ index_y i = y) := by
          rintro ⟨-, h1, h2⟩
          apply hw
          rw [h1, h2]
          unfold max_distance
          omega
        rw [recomputed_space_of_far g _ x y _ _ hsame hw, toggle_closed_cells, if_neg hne]
        have hbi : g.in_bounds (index_x i) (index_y i) = true := (in_bounds_iff g _ _).mpr hxy
        have h1 := is_reference_clearance_unique g _ _ _ (href _ _ hbi)
        rw [space_at_eq g _ _ hbi, cell_index_index i hi] at h1
        rw [← h1]
    · rw [if_neg (fun h => hi h.1), if_neg (fun h => hi h.1)]
  have hd1 := hdirty (region_cells (x - max_distance) (y - max_distance) (x + max_distance)
    (y + max_distance)) (by
      rw [mem_region_cells]
      unfold max_distance
      constructor <;> constructor <;> simp)
  have hd2 := hdirty (region_cells 0 0 grid_size grid_size) (by
      rw [mem_region_cells]
      unfold grid_size
      exact ⟨⟨hb2.1, hb2.2.1⟩, hb2.2.2.1, hb2.2.2.2⟩)
  generalize (region_cells (x - max_distance) (y - max_distance) (x + max_distance)
    (y + max_distance)).foldl (fun g p => (g.update_cell p.1 p.2).1)
      (g.toggle_closed x y dc) = A at hcells hd1
  generalize (region_cells 0 0 grid_size grid_size).foldl
    (fun g p => (g.update_cell p.1 p.2).1) (g.toggle_closed x y dc) = B at hcells hd2
  obtain ⟨ca, da⟩ := A
  obtain ⟨cb, db⟩ := B
  simp only at hcells hd1 hd2
  rw [hd1, hd2, funext hcells]

/-! ## Path search: proofs -/

theorem bfs_visit_cases (g : distance_field) (arg : path_args) (cur : vec2i) (s : bfs_state)
    (dir : direction) :
    (bfs_visit g arg cur s dir = s ∧
      (s.visited (cur.add dir.vec2i) = true ∨ step_ok g arg cur dir = false)) ∨
    (s.visited (cur.add dir.vec2i) = false ∧ step_ok g arg cur dir = false ∧
      trav g arg (cur.add dir.vec2i) = false ∧
      bfs_visit g arg cur s dir =
        { s with visited := fun v => if v = cur.add dir.vec2i then true else s.visited v }) ∨
    (s.visited (cur.add dir.vec2i) = false ∧ step_ok g arg cur dir = true ∧
      bfs_visit g arg cur s dir =
        { s with
          visited := fun v => if v = cur.add dir.vec2i then true else s.visited v
          prev := fun v => if v = cur.add dir.vec2i then cur else s.prev v
          queue := s.queue ++ [cur.add dir.vec2i] }) := by
  unfold bfs_visit step_ok trav
  cases h1 : s.visited (cur.add dir.vec2i)
  · cases h2 : dir.diagonal
    · cases h3 : can_traverse arg (g.cell_at_pos (cur.add dir.vec2i))
      · right; left
        simp [h1, h2, h3]
      · right; right
        simp [h1, h2, h3]
    · cases h4 : can_traverse arg (g.cell_at_pos (cur.add dir.rotate_cw.vec2i))
      · left
        simp [h1, h2, h4]
      · cases h5 : can_traverse arg (g.cell_at_pos (cur.add dir.rotate_ccw.vec2i))
        · left
          simp [h1, h2, h4, h5]
        · cases h3 : can_traverse arg (g.cell_at_pos (cur.add dir.vec2i))
          · right; left
            simp [h1, h2, h3, h4, h5]
          · right; right
            simp [h1, h2, h3, h4, h5]
  · left
    simp [h1]

theorem all_cells_length : all_cells.length = 16384 := by
  unfold all_cells
  rw [List.length_map, List.length_range]

theorem unvisited_count_le (s : bfs_state) : unvisited_count s ≤ 16384 := by
  unfold unvisited_count
  exact le_trans (List.length_filter_le _ _) (le_of_eq all_cells_length)

theorem mem_all_cells (g : distance_field) (v : vec2i) (h : g.in_bounds v.x v.y = true) :
    v ∈ all_cells := by
  have hb := (in_bounds_iff g v.x v.y).mp h
  have hi := (cell_index_eq_iff (cell_index v.x v.y) v.x v.y hb).mp rfl
  unfold all_cells
  rw [List.mem_map]
  refine ⟨cell_index v.x v.y, List.mem_range.mpr hi.1, ?_⟩
  rw [hi.2.1, hi.2.2]

theorem filter_length_mono {α : Type} (p q : α → Bool) (L : List α)
    (h : ∀ a, p a = true → q a = true) : (L.filter p).length ≤ (L.filter q).length := by
  induction L with
  | nil => exact le_refl _
  | cons a L ih =>
    simp only [List.filter_cons]
    by_cases hp : p a = true
    · rw [if_pos hp, if_pos (h a hp)]
      exact Nat.succ_le_succ ih
    · rw [if_neg hp]
      split
      · exact le_trans ih (Nat.le_succ _)
      · exact ih

theorem filter_length_lt {α : Type} (p q : α → Bool) (L : List α)
    (h : ∀ a, p a = true → q a = true) (a : α) (ha : a ∈ L) (hq : q a = true)
    (hp : p a = false) : (L.filter p).length + 1 ≤ (L.filter q).length := by
  induction L with
  | nil => cases ha
  | cons b L ih =>
    simp only [List.filter_cons]
    rcases List.mem_cons.mp ha with rfl | hL
    · rw [if_pos hq, if_neg (by simp [hp])]
      exact Nat.succ_le_succ (filter_length_mono p q L h)
    · by_cases hpb : p b = true
      · rw [if_pos hpb, if_pos (h b hpb)]
        exact Nat.succ_le_succ (ih hL)
      · rw [if_neg hpb]
        split
        · exact le_trans (ih hL) (Nat.le_succ _)
        · exact ih hL

theorem unvisited_count_mono (s s2 : bfs_state)
    (h : ∀ v, s.visited v = true → s2.visited v = true) :
    unvisited_count s2 ≤ unvisited_count s := by
  unfold unvisited_count
  apply filter_length_mono
  intro v hv
  cases h1 : s.visited v
  · rfl
  · rw [h v h1] at hv
    exact absurd hv (by decide)

theorem unvisited_count_lt (g : distance_field) (s s2 : bfs_state) (v : vec2i)
    (h : ∀ v, s.visited v = true → s2.visited v = true)
    (hb : g.in_bounds v.x v.y = true) (h1 : s.visited v = false) (h2 : s2.visited v = true) :
    unvisited_count s2 + 1 ≤ unvisited_count s := by
  unfold unvisited_count
  apply filter_length_lt _ _ _ _ v (mem_all_cells g v hb)
  · simp [h1]
  · simp [h2]
  · intro w hw
    cases h3 : s.visited w
    · rfl
    · rw [h w h3] at hw
      exact absurd hw (by decide)

theorem trav_in_bounds (g : distance_field) (arg : path_args) (v : vec2i)
    (h : trav g arg v = true) : g.in_bounds v.x v.y = true := by
  unfold trav can_traverse distance_field.cell_at_pos distance_field.cell_at at h
  by_contra hb
  simp [hb] at h

theorem step_ok_trav (g : distance_field) (arg : path_args) (p : vec2i) (dir : direction)
    (h : step_ok g arg p dir = true) : trav g arg (p.add dir.vec2i) = true := by
  unfold step_ok at h
  rw [Bool.and_eq_true] at h
  exact h.2

theorem discovered_mono (g : distance_field) (arg : path_args) (s s2 : bfs_state)
    (h : ∀ v, s.visited v = true → s2.visited v = true) (v : vec2i)
    (hv : discovered g arg s v) : discovered g arg s2 v :=
  ⟨h v hv.1, hv.2⟩

theorem bfs_visit_visited_mono (g : distance_field) (arg : path_args) (cur : vec2i)
    (s : bfs_state) (dir : direction) (v : vec2i) (hv : s.visited v = true) :
    (bfs_visit g arg cur s dir).visited v = true := by
  rcases bfs_visit_cases g arg cur s dir with ⟨h, -⟩ | ⟨-, -, -, h⟩ | ⟨-, -, h⟩
  · rw [h]; exact hv
  · rw [h]
    simp only
    split
    · rfl
    · exact hv
  · rw [h]
    simp only
    split
    · rfl
    · exact hv

theorem bfs_visit_closest (g : distance_field) (arg : path_args) (cur : vec2i)
    (s : bfs_state) (dir : direction) :
    (bfs_visit g arg cur s dir).closest = s.closest ∧
      (bfs_visit g arg cur s dir).closest_distance = s.closest_distance := by
  rcases bfs_visit_cases g arg cur s dir with ⟨h, -⟩ | ⟨-, -, -, h⟩ | ⟨-, -, h⟩ <;>
    rw [h] <;> exact ⟨rfl, rfl⟩

theorem visit_depth_agree (g : distance_field) (arg : path_args) (cur : vec2i)
    (s : bfs_state) (dir : direction) (d : vec2i → Nat) (v : vec2i)
    (hv : s.visited v = true) : visit_depth g arg cur s dir d v = d v := by
  unfold visit_depth
  split
  · rename_i h
    have hne : v ≠ cur.add dir.vec2i := by
      rintro rfl
      rw [h.1] at hv
      cases hv
    simp only [if_neg hne]
  · rfl

theorem bfs_visit_measure (g : distance_field) (arg : path_args) (cur : vec2i)
    (s : bfs_state) (dir : direction) :
    unvisited_count (bfs_visit g arg cur s dir) + (bfs_visit g arg cur s dir).queue.length ≤
      unvisited_count s + s.queue.length := by
  have hmono := bfs_visit_visited_mono g arg cur s dir
  rcases bfs_visit_cases g arg cur s dir with ⟨h, -⟩ | ⟨-, -, -, h⟩ | ⟨h1, h2, h⟩
  · rw [h]
  · have := unvisited_count_mono s _ hmono
    rw [h] at this ⊢
    exact Nat.add_le_add_right this _
  · have hb := trav_in_bounds g arg _ (step_ok_trav g arg cur dir h2)
    have := unvisited_count_lt g s _ _ hmono hb h1 (by rw [h]; simp)
    rw [h] at this ⊢
    simp only [List.length_append, List.length_singleton]
    omega

theorem bfs_visit_inv (g : distance_field) (arg : path_args) (cur : vec2i)
    (s : bfs_state) (dir : direction) (d : vec2i → Nat)
    (hinv : bfs_inv g arg s d) (hcur : discovered g arg s cur) (hdir : dir ∈ path_directions) :
    bfs_inv g arg (bfs_visit g arg cur s dir) (visit_depth g arg cur s dir d) := by
  have hmono := bfs_visit_visited_mono g arg cur s dir
  have hagree := visit_depth_agree g arg cur s dir d
  rcases bfs_visit_cases g arg cur s dir with ⟨h, -⟩ | ⟨h1, h2, h3, h⟩ | ⟨h1, h2, h⟩
  · -- nothing changed
    have hd : ∀ v, discovered g arg s v → visit_depth g arg cur s dir d v = d v :=
      fun v hv => hagree v hv.1
    rw [h]
    refine ⟨hinv.start_visited, hinv.queue_disc, ?_, ?_, ?_, hinv.closest_disc⟩
    · rw [hagree _ hinv.start_visited]
      exact hinv.depth_start
    · intro v hv hne
      obtain ⟨p1, p2, p3⟩ := hinv.prev_ok v hv hne
      exact ⟨p1, p2, by rw [hd v hv, hd _ p1, p3]⟩
    · intro v hv
      rw [hd v hv]
      exact hinv.depth_bound v hv
  · -- the neighbour is marked visited and not enqueued
    have hdisc : ∀ v, discovered g arg (bfs_visit g arg cur s dir) v → discovered g arg s v := by
      intro v hv
      rw [h] at hv
      obtain ⟨hv1, hv2⟩ := hv
      simp only at hv1
      by_cases hvn : v = cur.add dir.vec2i
      · exfalso
        rcases hv2 with hv2 | hv2
        · rw [hvn] at hv2
          rw [hv2, hinv.start_visited] at h1
          cases h1
        · rw [hvn, h3] at hv2
          cases hv2
      · rw [if_neg hvn] at hv1
        exact ⟨hv1, hv2⟩
    have hd : ∀ v, discovered g arg s v → visit_depth g arg cur s dir d v = d v :=
      fun v hv => hagree v hv.1
    have hcount := unvisited_count_mono s _ hmono
    refine ⟨hmono _ hinv.start_visited, ?_, ?_, ?_, ?_, ?_⟩
    · intro v hv
      have : v ∈ s.queue := by rw [h] at hv; exact hv
      exact discovered_mono g arg s _ hmono v (hinv.queue_disc v this)
    · rw [hagree _ hinv.start_visited]
      exact hinv.depth_start
    · intro v hv hne
      have hv0 := hdisc v hv
      obtain ⟨p1, p2, p3⟩ := hinv.prev_ok v hv0 hne
      have hp : (bfs_visit g arg cur s dir).prev = s.prev := by rw [h]
      rw [hp]
      exact ⟨discovered_mono g arg s _ hmono _ p1, p2, by rw [hd v hv0, hd _ p1, p3]⟩
    · intro v hv
      have hv0 := hdisc v hv
      rw [hd v hv0]
      exact le_trans (Nat.add_le_add_left hcount _) (hinv.depth_bound v hv0)
    · intro hc
      have hc1 := bfs_visit_closest g arg cur s dir
      rw [hc1.2] at hc
      rw [hc1.1]
      exact discovered_mono g arg s _ hmono _ (hinv.closest_disc hc)
  · -- the neighbour is enqueued
    have htrav := step_ok_trav g arg cur dir h2
    have hb := trav_in_bounds g arg _ htrav
    have hnext : discovered g arg (bfs_visit g arg cur s dir) (cur.add dir.vec2i) := by
      refine ⟨?_, Or.inr htrav⟩
      rw [h]
      simp
    have hdisc : ∀ v, discovered g arg (bfs_visit g arg cur s dir) v →
        v ≠ cur.add dir.vec2i → discovered g arg s v := by
      intro v hv hvn
      rw [h] at hv
      obtain ⟨hv1, hv2⟩ := hv
      simp only [if_neg hvn] at hv1
      exact ⟨hv1, hv2⟩
    have hvis : ∀ v, discovered g arg s v → v ≠ cur.add dir.vec2i := by
      rintro v hv rfl
      rw [hv.1] at h1
      cases h1
    have hd : ∀ v, discovered g arg s v → visit_depth g arg cur s dir d v = d v :=
      fun v hv => hagree v hv.1
    have hdn : visit_depth g arg cur s dir d (cur.add dir.vec2i) = d cur + 1 := by
      unfold visit_depth
      rw [if_pos ⟨h1, h2⟩]
      simp
    have hcount := unvisited_count_lt g s _ _ hmono hb h1 hnext.1
    have hprev : ∀ v, (bfs_visit g arg cur s dir).prev v =
        if v = cur.add dir.vec2i then cur else s.prev v := by
      intro v
      rw [h]
    have hstart : arg.start ≠ cur.add dir.vec2i := by
      intro he
      rw [← he, hinv.start_visited] at h1
      cases h1
    refine ⟨hmono _ hinv.start_visited, ?_, ?_, ?_, ?_, ?_⟩
    · intro v hv
      have : v ∈ s.queue ++ [cur.add dir.vec2i] := by rw [h] at hv; exact hv
      rcases List.mem_append.mp this with hq | hq
      · exact discovered_mono g arg s _ hmono v (hinv.queue_disc v hq)
      · rw [List.mem_singleton.mp hq]
        exact hnext
    · rw [hagree _ hinv.start_visited]
      exact hinv.depth_start
    · intro v hv hne
      rw [hprev]
      by_cases hvn : v = cur.add dir.vec2i
      · rw [if_pos hvn, hvn]
        exact ⟨discovered_mono g arg s _ hmono _ hcur, ⟨dir, hdir, rfl, h2⟩,
          by rw [hdn, hd cur hcur]⟩
      · rw [if_neg hvn]
        have hv0 := hdisc v hv hvn
        obtain ⟨p1, p2, p3⟩ := hinv.prev_ok v hv0 hne
        exact ⟨discovered_mono g arg s _ hmono _ p1, p2, by rw [hd v hv0, hd _ p1, p3]⟩
    · intro v hv
      by_cases hvn : v = cur.add dir.vec2i
      · rw [hvn, hdn]
        have := hinv.depth_bound cur hcur
        omega
      · have hv0 := hdisc v hv hvn
        rw [hd v hv0]
        have := hinv.depth_bound v hv0
        omega
    · intro hc
      have hc1 := bfs_visit_closest g arg cur s dir
      rw [hc1.2] at hc
      rw [hc1.1]
      exact discovered_mono g arg s _ hmono _ (hinv.closest_disc hc)

/-! ### The direction loop -/

theorem bfs_expand_visited_mono (g : distance_field) (arg : path_args) (cur : vec2i)
    (dirs : List direction) (s : bfs_state) (v : vec2i) (hv : s.visited v = true) :
    (dirs.foldl (bfs_visit g arg cur) s).visited v = true := by
  induction dirs generalizing s with
  | nil => exact hv
  | cons dir dirs ih =>
    simp only [List.foldl_cons]
    exact ih _ (bfs_visit_visited_mono g arg cur s dir v hv)

theorem bfs_expand_closest (g : distance_field) (arg : path_args) (cur : vec2i)
    (dirs : List direction) (s : bfs_state) :
    (dirs.foldl (bfs_visit g arg cur) s).closest = s.closest ∧
      (dirs.foldl (bfs_visit g arg cur) s).closest_distance = s.closest_distance := by
  induction dirs generalizing s with
  | nil => exact ⟨rfl, rfl⟩
  | cons dir dirs ih =>
    simp only [List.foldl_cons]
    have h1 := ih (bfs_visit g arg cur s dir)
    have h2 := bfs_visit_closest g arg cur s dir
    exact ⟨h1.1.trans h2.1, h1.2.trans h2.2⟩

theorem bfs_expand_measure (g : distance_field) (arg : path_args) (cur : vec2i)
    (dirs : List direction) (s : bfs_state) :
    unvisited_count (dirs.foldl (bfs_visit g arg cur) s) +
        (dirs.foldl (bfs_visit g arg cur) s).queue.length ≤
      unvisited_count s + s.queue.length := by
  induction dirs generalizing s with
  | nil => exact le_refl _
  | cons dir dirs ih =>
    simp only [List.foldl_cons]
    exact le_trans (ih _) (bfs_visit_measure g arg cur s dir)

theorem expand_depth_agree (g : distance_field) (arg : path_args) (cur : vec2i)
    (dirs : List direction) (s : bfs_state) (d : vec2i → Nat) (v : vec2i)
    (hv : s.visited v = true) : expand_depth g arg cur dirs s d v = d v := by
  induction dirs generalizing s d with
  | nil => rfl
  | cons dir dirs ih =>
    simp only [expand_depth]
    rw [ih _ _ (bfs_visit_visited_mono g arg cur s dir v hv)]
    exact visit_depth_agree g arg cur s dir d v hv

theorem bfs_expand_inv (g : distance_field) (arg : path_args) (cur : vec2i)
    (dirs : List direction) (hsub : ∀ dir ∈ dirs, dir ∈ path_directions)
    (s : bfs_state) (d : vec2i → Nat)
    (hinv : bfs_inv g arg s d) (hcur : discovered g arg s cur) :
    bfs_inv g arg (dirs.foldl (bfs_visit g arg cur) s) (expand_depth g arg cur dirs s d) := by
  induction dirs generalizing s d with
  | nil => exact hinv
  | cons dir dirs ih =>
    simp only [List.foldl_cons, expand_depth]
    refine ih (fun x hx => hsub x (List.mem_cons_of_mem _ hx)) _ _
      (bfs_visit_inv g arg cur s dir d hinv hcur (hsub dir (List.mem_cons_self _ _))) ?_
    exact discovered_mono g arg s _ (bfs_visit_visited_mono g arg cur s dir) _ hcur

/-! ### Recording the fallback candidate, skipping a node -/

theorem bfs_record_fields (arg : path_args) (cur : vec2i) (rest : List vec2i) (s : bfs_state) :
    (bfs_record arg cur rest s).visited = s.visited ∧
    (bfs_record arg cur rest s).prev = s.prev ∧
    (bfs_record arg cur rest s).queue = rest := by
  unfold bfs_record
  dsimp only
  split <;> exact ⟨rfl, rfl, rfl⟩

theorem bfs_record_closest (arg : path_args) (cur : vec2i) (rest : List vec2i) (s : bfs_state) :
    ((bfs_record arg cur rest s).closest = s.closest ∧
      (bfs_record arg cur rest s).closest_distance = s.closest_distance) ∨
    ((bfs_record arg cur rest s).closest = cur ∧
      (bfs_record arg cur rest s).closest_distance = cur.distance_sq arg.goal) := by
  unfold bfs_record
  dsimp only
  split
  · exact Or.inr ⟨rfl, rfl⟩
  · exact Or.inl ⟨rfl, rfl⟩

theorem discovered_congr (g : distance_field) (arg : path_args) (s s2 : bfs_state)
    (h : s2.visited = s.visited) (v : vec2i) :
    discovered g arg s2 v ↔ discovered g arg s v := by
  unfold discovered
  rw [h]

theorem unvisited_count_congr (s s2 : bfs_state) (h : s2.visited = s.visited) :
    unvisited_count s2 = unvisited_count s := by
  unfold unvisited_count
  rw [h]

theorem bfs_record_inv (g : distance_field) (arg : path_args) (cur : vec2i)
    (rest : List vec2i) (s : bfs_state) (d : vec2i → Nat)
    (hinv : bfs_inv g arg s d) (hq : s.queue = cur :: rest) :
    bfs_inv g arg (bfs_record arg cur rest s) d ∧
      discovered g arg (bfs_record arg cur rest s) cur := by
  obtain ⟨f1, f2, f3⟩ := bfs_record_fields arg cur rest s
  have hd := discovered_congr g arg s _ f1
  have hcur : discovered g arg s cur := hinv.queue_disc cur (by rw [hq]; exact List.mem_cons_self _ _)
  refine ⟨⟨?_, ?_, hinv.depth_start, ?_, ?_, ?_⟩, (hd cur).mpr hcur⟩
  · rw [f1]; exact hinv.start_visited
  · intro v hv
    rw [f3] at hv
    exact (hd v).mpr (hinv.queue_disc v (by rw [hq]; exact List.mem_cons_of_mem _ hv))
  · intro v hv hne
    obtain ⟨p1, p2, p3⟩ := hinv.prev_ok v ((hd v).mp hv) hne
    rw [f2]
    exact ⟨(hd _).mpr p1, p2, p3⟩
  · intro v hv
    rw [unvisited_count_congr s _ f1]
    exact hinv.depth_bound v ((hd v).mp hv)
  · intro hc
    rcases bfs_record_closest arg cur rest s with ⟨h1, h2⟩ | ⟨h1, -⟩
    · rw [h1]
      rw [h2] at hc
      exact (hd _).mpr (hinv.closest_disc hc)
    · rw [h1]
      exact (hd cur).mpr hcur

theorem bfs_skip_inv (g : distance_field) (arg : path_args) (cur : vec2i)
    (rest : List vec2i) (s : bfs_state) (d : vec2i → Nat)
    (hinv : bfs_inv g arg s d) (hq : s.queue = cur :: rest) :
    bfs_inv g arg { s with queue := rest } d := by
  refine ⟨hinv.start_visited, ?_, hinv.depth_start, hinv.prev_ok, hinv.depth_bound,
    hinv.closest_disc⟩
  intro v hv
  exact hinv.queue_disc v (by rw [hq]; exact List.mem_cons_of_mem _ hv)

theorem bfs_init_inv (g : distance_field) (arg : path_args) :
    bfs_inv g arg (bfs_init arg) (fun _ => 0) := by
  refine ⟨by simp [bfs_init], ?_, rfl, ?_, ?_, ?_⟩
  · intro v hv
    have : v = arg.start := by simpa [bfs_init] using hv
    rw [this]
    exact ⟨by simp [bfs_init], Or.inl rfl⟩
  · intro v hv hne
    exfalso
    have h1 := hv.1
    simp only [bfs_init, decide_eq_true_eq] at h1
    exact hne h1
  · intro v _
    simp only [Nat.zero_add]
    exact unvisited_count_le _
  · intro hc
    exact absurd rfl hc

/-! ### Path reconstruction -/

theorem construct_path_loop_spec (g : distance_field) (arg : path_args) (s : bfs_state)
    (d : vec2i → Nat) (hinv : bfs_inv g arg s d) :
    ∀ (n : Nat) (e : vec2i) (acc : List vec2i) (fuel : Nat),
      discovered g arg s e → d e = n → n < fuel →
      ∃ p, construct_path_loop s.prev arg.start fuel e acc = some (p ++ acc.reverse) ∧
        p.head? = some arg.start ∧ p.getLast? = some e ∧ p.Chain' (bfs_step g arg) ∧
        p.length = n + 1 := by
  intro n
  induction n with
  | zero =>
    intro e acc fuel he hd hf
    obtain ⟨fuel, rfl⟩ : ∃ f, fuel = f + 1 := ⟨fuel - 1, by omega⟩
    have hes : e = arg.start := by
      by_contra hne
      have := (hinv.prev_ok e he hne).2.2
      omega
    refine ⟨[arg.start], ?_, rfl, by rw [hes]; rfl, List.chain'_singleton _, rfl⟩
    unfold construct_path_loop
    rw [if_neg (by simp [hes])]
    simp
  | succ n ih =>
    intro e acc fuel he hd hf
    obtain ⟨fuel, rfl⟩ : ∃ f, fuel = f + 1 := ⟨fuel - 1, by omega⟩
    have hne : e ≠ arg.start := by
      intro hes
      rw [hes, hinv.depth_start] at hd
      omega
    obtain ⟨p1, p2, p3⟩ := hinv.prev_ok e he hne
    obtain ⟨p, hp, hh, hl, hc, hlen⟩ := ih (s.prev e) (acc ++ [e]) fuel p1 (by omega) (by omega)
    refine ⟨p ++ [e], ?_, ?_, ?_, ?_, ?_⟩
    · unfold construct_path_loop
      rw [if_pos hne, hp]
      simp
    · cases p with
      | nil => simp at hlen
      | cons a p => simpa using hh
    · simp
    · rw [List.chain'_append]
      refine ⟨hc, List.chain'_singleton _, ?_⟩
      intro x hx y hy
      rw [hl] at hx
      simp only [Option.mem_def, Option.some.injEq] at hx
      simp only [List.head?_cons, Option.mem_def, Option.some.injEq] at hy
      rw [← hx, ← hy]
      exact p2
    · simp [hlen]

theorem construct_path_spec (g : distance_field) (arg : path_args) (s : bfs_state)
    (d : vec2i → Nat) (hinv : bfs_inv g arg s d) (e : vec2i) (he : discovered g arg s e) :
    ∃ p, construct_path s.prev arg.start e = some p ∧
      p.head? = some arg.start ∧ p.getLast? = some e ∧ p.Chain' (bfs_step g arg) ∧
      p.length = d e + 1 := by
  have hb := hinv.depth_bound e he
  obtain ⟨p, hp, h⟩ := construct_path_loop_spec g arg s d hinv (d e) e [] 16385 he rfl (by omega)
  refine ⟨p, ?_, h⟩
  unfold construct_path
  rw [hp]
  simp

/-! ### The search loop -/

/-- Induction over the iterations of the search loop: a property that
holds when the loop is entered, and is kept by skipping a node and by
expanding a node, holds where the search returns. -/
theorem bfs_loop_induct (g : distance_field) (arg : path_args) (P : bfs_state → Prop)
    (hskip : ∀ s cur rest, P s → s.queue = cur :: rest →
      (max_distance_sq arg > 0 ∧ cur.distance_sq arg.goal > max_distance_sq arg) →
      P { s with queue := rest })
    (hexp : ∀ s cur rest, P s → s.queue = cur :: rest →
      ¬(max_distance_sq arg > 0 ∧ cur.distance_sq arg.goal > max_distance_sq arg) →
      cur ≠ arg.goal →
      P (path_directions.foldl (bfs_visit g arg cur) (bfs_record arg cur rest s))) :
    ∀ (fuel : Nat) (s : bfs_state) (r : List vec2i × Bool), P s →
      bfs_loop g arg fuel s = some r → ∃ s2, P s2 ∧ bfs_return arg s2 r := by
  intro fuel
  induction fuel with
  | zero =>
    intro s r _ h
    simp [bfs_loop] at h
  | succ fuel ih =>
    intro s r hP h
    unfold bfs_loop at h
    cases hq : s.queue with
    | nil =>
      rw [hq] at h
      exact ⟨s, hP, Or.inl ⟨hq, h⟩⟩
    | cons cur rest =>
      rw [hq] at h
      simp only at h
      by_cases hcut : max_distance_sq arg > 0 ∧ cur.distance_sq arg.goal > max_distance_sq arg
      · rw [if_pos hcut] at h
        exact ih _ r (hskip s cur rest hP hq hcut) h
      · rw [if_neg hcut] at h
        by_cases hgoal : cur = arg.goal
        · rw [if_pos hgoal] at h
          rw [hgoal] at hq hcut
          exact ⟨s, hP, Or.inr ⟨rest, hq, hcut, h⟩⟩
        · rw [if_neg hgoal] at h
          exact ih _ r (hexp s cur rest hP hq hcut hgoal) h

theorem bfs_loop_total (g : distance_field) (arg : path_args) :
    ∀ (fuel : Nat) (s : bfs_state) (d : vec2i → Nat), bfs_inv g arg s d →
      unvisited_count s + s.queue.length < fuel → ∃ r, bfs_loop g arg fuel s = some r := by
  intro fuel
  induction fuel with
  | zero =>
    intro s d _ h
    omega
  | succ fuel ih =>
    intro s d hinv hm
    unfold bfs_loop
    cases hq : s.queue with
    | nil =>
      simp only
      unfold bfs_exhausted
      split
      · rename_i hc
        obtain ⟨p, hp, -⟩ := construct_path_spec g arg s d hinv _ (hinv.closest_disc hc.2)
        exact ⟨(p, false), by rw [hp]; rfl⟩
      · exact ⟨_, rfl⟩
    | cons cur rest =>
      simp only
      rw [hq] at hm
      simp only [List.length_cons] at hm
      by_cases hcut : max_distance_sq arg > 0 ∧ cur.distance_sq arg.goal > max_distance_sq arg
      · rw [if_pos hcut]
        exact ih _ d (bfs_skip_inv g arg cur rest s d hinv hq) (by
          have : unvisited_count { s with queue := rest } = unvisited_count s := rfl
          rw [this]
          simp only
          omega)
      · rw [if_neg hcut]
        by_cases hgoal : cur = arg.goal
        · rw [if_pos hgoal]
          have hd : discovered g arg s arg.goal := by
            rw [← hgoal]
            exact hinv.queue_disc cur (by rw [hq]; exact List.mem_cons_self _ _)
          obtain ⟨p, hp, -⟩ := construct_path_spec g arg s d hinv _ hd
          exact ⟨(p, true), by rw [hp]; rfl⟩
        · rw [if_neg hgoal]
          obtain ⟨hrec, hcur⟩ := bfs_record_inv g arg cur rest s d hinv hq
          obtain ⟨f1, -, f3⟩ := bfs_record_fields arg cur rest s
          refine ih _ _ (bfs_expand_inv g arg cur path_directions (fun _ h => h) _ d hrec hcur) ?_
          refine lt_of_le_of_lt (bfs_expand_measure g arg cur path_directions _) ?_
          rw [unvisited_count_congr s _ f1, f3]
          omega

/-- The search always returns: the fuel of `bfs` never runs out. -/
theorem bfs_total (g : distance_field) (arg : path_args) : ∃ r, g.bfs arg = some r := by
  unfold distance_field.bfs
  refine bfs_loop_total g arg 16386 (bfs_init arg) _ (bfs_init_inv g arg) ?_
  have := unvisited_count_le (bfs_init arg)
  have h : (bfs_init arg).queue.length = 1 := rfl
  omega

/-- Where the search returns, it is in a state the loop reaches. -/
theorem bfs_returns_reaches (g : distance_field) (arg : path_args) (r : List vec2i × Bool)
    (h : g.bfs arg = some r) : ∃ s, bfs_reaches g arg s ∧ bfs_return arg s r := by
  unfold distance_field.bfs at h
  exact bfs_loop_induct g arg (bfs_reaches g arg)
    (fun s cur rest hs hq hc => bfs_reaches.skip s cur rest hs hq hc)
    (fun s cur rest hs hq hc hg => bfs_reaches.expand s cur rest hs hq hc hg)
    16386 (bfs_init arg) r bfs_reaches.init h

theorem bfs_reaches_inv (g : distance_field) (arg : path_args) (s : bfs_state)
    (h : bfs_reaches g arg s) : ∃ d, bfs_inv g arg s d := by
  induction h with
  | init => exact ⟨_, bfs_init_inv g arg⟩
  | skip s cur rest _ hq _ ih =>
    obtain ⟨d, hd⟩ := ih
    exact ⟨d, bfs_skip_inv g arg cur rest s d hd hq⟩
  | expand s cur rest _ hq _ _ ih =>
    obtain ⟨d, hd⟩ := ih
    obtain ⟨hrec, hcur⟩ := bfs_record_inv g arg cur rest s d hd hq
    exact ⟨_, bfs_expand_inv g arg cur path_directions (fun _ h => h) _ d hrec hcur⟩

/-! ### Legal moves and the tests of the search -/

theorem trav_iff (g : distance_field) (arg : path_args) (v : vec2i) :
    trav g arg v = true ↔ is_traversable g arg.min_space v := by
  unfold trav is_traversable can_traverse distance_field.cell_at_pos distance_field.closed_at
    distance_field.space_at is_obstacle distance_field.cell_at
  by_cases hb : g.in_bounds v.x v.y = true
  · simp only [hb, if_true, true_and]
    cases hc : (g.cells (cell_index v.x v.y)).closed
    · simp
    · simp
  · simp [hb]

theorem dir_table : ∀ dir ∈ path_directions,
    (dir.diagonal = false ∨
      (dir.rotate_cw.vec2i = { x := dir.vec2i.x, y := 0 } ∧
        dir.rotate_ccw.vec2i = { x := 0, y := dir.vec2i.y }) ∨
      (dir.rotate_cw.vec2i = { x := 0, y := dir.vec2i.y } ∧
        dir.rotate_ccw.vec2i = { x := dir.vec2i.x, y := 0 })) ∧
    (dir.diagonal = true ↔ dir.vec2i.x ≠ 0 ∧ dir.vec2i.y ≠ 0) ∧
    (-1 ≤ dir.vec2i.x ∧ dir.vec2i.x ≤ 1) ∧ (-1 ≤ dir.vec2i.y ∧ dir.vec2i.y ≤ 1) ∧
    ¬(dir.vec2i.x = 0 ∧ dir.vec2i.y = 0) := by
  decide

theorem dir_of_offset : ∀ dx ∈ ([-1, 0, 1] : List Int), ∀ dy ∈ ([-1, 0, 1] : List Int),
    ¬(dx = 0 ∧ dy = 0) → ∃ dir ∈ path_directions, dir.vec2i = { x := dx, y := dy } := by
  decide

/-- The tests of `bfs` for the step in direction `dir`, in coordinates. -/
theorem step_ok_iff (g : distance_field) (arg : path_args) (p : vec2i) (dir : direction)
    (hdir : dir ∈ path_directions) :
    step_ok g arg p dir = true ↔
      trav g arg { x := p.x + dir.vec2i.x, y := p.y + dir.vec2i.y } = true ∧
      (dir.vec2i.x ≠ 0 ∧ dir.vec2i.y ≠ 0 →
        trav g arg { x := p.x + dir.vec2i.x, y := p.y } = true ∧
        trav g arg { x := p.x, y := p.y + dir.vec2i.y } = true) := by
  obtain ⟨h1, h2, -⟩ := dir_table dir hdir
  unfold step_ok
  rw [Bool.and_eq_true, Bool.or_eq_true, Bool.and_eq_true]
  have hadd : ∀ o : vec2i, p.add o = { x := p.x + o.x, y := p.y + o.y } := fun _ => rfl
  rw [hadd, hadd, hadd]
  cases hd : dir.diagonal
  · have hnd : ¬(dir.vec2i.x ≠ 0 ∧ dir.vec2i.y ≠ 0) := by
      rw [← h2, hd]
      decide
    constructor
    · rintro ⟨-, h⟩
      exact ⟨h, fun hc => absurd hc hnd⟩
    · rintro ⟨h, -⟩
      exact ⟨Or.inl rfl, h⟩
  · have hdg : dir.vec2i.x ≠ 0 ∧ dir.vec2i.y ≠ 0 := h2.mp hd
    rcases h1 with h1 | ⟨h3, h4⟩ | ⟨h3, h4⟩
    · rw [hd] at h1
      cases h1
    · rw [h3, h4]
      simp only [add_zero]
      constructor
      · rintro ⟨h5 | h5, h⟩
        · cases h5
        · exact ⟨h, fun _ => h5⟩
      · rintro ⟨h, h5⟩
        exact ⟨Or.inr (h5 hdg), h⟩
    · rw [h3, h4]
      simp only [add_zero]
      constructor
      · rintro ⟨h5 | h5, h⟩
        · cases h5
        · exact ⟨h, fun _ => ⟨h5.2, h5.1⟩⟩
      · rintro ⟨h, h5⟩
        exact ⟨Or.inr ⟨(h5 hdg).2, (h5 hdg).1⟩, h⟩

theorem bfs_step_iff_legal_move (g : distance_field) (arg : path_args) (p q : vec2i) :
    bfs_step g arg p q ↔ legal_move g arg.min_space p q := by
  unfold bfs_step legal_move is_neighbour
  constructor
  · rintro ⟨dir, hdir, rfl, hok⟩
    obtain ⟨-, -, hx, hy, h0⟩ := dir_table dir hdir
    rw [step_ok_iff g arg p dir hdir] at hok
    have hadd : p.add dir.vec2i = { x := p.x + dir.vec2i.x, y := p.y + dir.vec2i.y } := rfl
    rw [hadd]
    simp only
    refine ⟨⟨?_, ?_, ?_⟩, (trav_iff g arg _).mp hok.1, ?_⟩
    · rw [abs_le]; constructor <;> omega
    · rw [abs_le]; constructor <;> omega
    · intro he
      have h1 := congrArg vec2i.x he
      have h2 := congrArg vec2i.y he
      simp only at h1 h2
      exact h0 ⟨by omega, by omega⟩
    · intro hd
      have := hok.2 ⟨by omega, by omega⟩
      exact ⟨(trav_iff g arg _).mp this.1, (trav_iff g arg _).mp this.2⟩
  · rintro ⟨⟨hx, hy, hne⟩, htq, hdiag⟩
    rw [abs_le] at hx hy
    have h0 : ¬(q.x - p.x = 0 ∧ q.y - p.y = 0) := by
      rintro ⟨h1, h2⟩
      apply hne
      cases p
      cases q
      simp only [vec2i.mk.injEq] at *
      omega
    have hmx : q.x - p.x ∈ ([-1, 0, 1] : List Int) := by
      simp only [List.mem_cons, List.mem_singleton, List.not_mem_nil, or_false]
      omega
    have hmy : q.y - p.y ∈ ([-1, 0, 1] : List Int) := by
      simp only [List.mem_cons, List.mem_singleton, List.not_mem_nil, or_false]
      omega
    obtain ⟨dir, hdir, hv⟩ := dir_of_offset _ hmx _ hmy h0
    have hvx : dir.vec2i.x = q.x - p.x := by rw [hv]
    have hvy : dir.vec2i.y = q.y - p.y := by rw [hv]
    have hq : q = { x := p.x + dir.vec2i.x, y := p.y + dir.vec2i.y } := by
      cases q
      simp only [vec2i.mk.injEq] at *
      omega
    refine ⟨dir, hdir, hq, ?_⟩
    rw [step_ok_iff g arg p dir hdir]
    have e1 : p.x + dir.vec2i.x = q.x := by omega
    have e2 : p.y + dir.vec2i.y = q.y := by omega
    rw [e1, e2]
    refine ⟨(trav_iff g arg _).mpr htq, fun hd => ?_⟩
    have := hdiag ⟨by omega, by omega⟩
    exact ⟨(trav_iff g arg _).mpr this.1, (trav_iff g arg _).mpr this.2⟩

theorem chain_bfs_step_iff (g : distance_field) (arg : path_args) (p : List vec2i) :
    p.Chain' (bfs_step g arg) ↔ p.Chain' (legal_move g arg.min_space) := by
  constructor
  · exact List.Chain'.imp fun a b h => (bfs_step_iff_legal_move g arg a b).mp h
  · exact List.Chain'.imp fun a b h => (bfs_step_iff_legal_move g arg a b).mpr h

/-! ### What the search returns -/

/-- The three ways `bfs` returns: nothing, the fallback path, the exact path. -/
theorem bfs_return_cases (g : distance_field) (arg : path_args) (s : bfs_state)
    (d : vec2i → Nat) (hd : bfs_inv g arg s d) (path : List vec2i) (ok : Bool)
    (hr : bfs_return arg s (path, ok)) :
    (s.queue = [] ∧ ok = false ∧ path = [] ∧
        ¬(max_reach_sq arg > 0 ∧ s.closest_distance ≠ MaxInt)) ∨
      (s.queue = [] ∧ ok = false ∧ max_reach_sq arg > 0 ∧ s.closest_distance ≠ MaxInt ∧
        discovered g arg s s.closest ∧
        path.head? = some arg.start ∧ path.getLast? = some s.closest ∧
        path.Chain' (bfs_step g arg) ∧ path.length = d s.closest + 1) ∨
      ((∃ rest, s.queue = arg.goal :: rest) ∧ ok = true ∧
        discovered g arg s arg.goal ∧
        path.head? = some arg.start ∧ path.getLast? = some arg.goal ∧
        path.Chain' (bfs_step g arg) ∧ path.length = d arg.goal + 1) := by
  rcases hr with ⟨hq, hr⟩ | ⟨rest, hq, -, hr⟩
  · unfold bfs_exhausted at hr
    by_cases hc : max_reach_sq arg > 0 ∧ s.closest_distance ≠ MaxInt
    · rw [if_pos hc] at hr
      have hdc := hd.closest_disc hc.2
      obtain ⟨p, hp, h1, h2, h3, h4⟩ := construct_path_spec g arg s d hd _ hdc
      rw [hp] at hr
      simp only [Option.map_some', Option.some.injEq, Prod.mk.injEq] at hr
      obtain ⟨rfl, rfl⟩ := hr
      exact Or.inr (Or.inl ⟨hq, rfl, hc.1, hc.2, hdc, h1, h2, h3, h4⟩)
    · rw [if_neg hc] at hr
      simp only [Option.some.injEq, Prod.mk.injEq] at hr
      obtain ⟨rfl, rfl⟩ := hr
      exact Or.inl ⟨hq, rfl, rfl, hc⟩
  · have hdg : discovered g arg s arg.goal :=
      hd.queue_disc _ (by rw [hq]; exact List.mem_cons_self _ _)
    obtain ⟨p, hp, h1, h2, h3, h4⟩ := construct_path_spec g arg s d hd _ hdg
    rw [hp] at hr
    simp only [Option.map_some', Option.some.injEq, Prod.mk.injEq] at hr
    obtain ⟨rfl, rfl⟩ := hr
    exact Or.inr (Or.inr ⟨⟨rest, hq⟩, rfl, hdg, h1, h2, h3, h4⟩)

theorem bfs_result_cases (g : distance_field) (arg : path_args) (path : List vec2i) (ok : Bool)
    (h : g.bfs arg = some (path, ok)) :
    ∃ s d, bfs_reaches g arg s ∧ bfs_inv g arg s d ∧
      ((s.queue = [] ∧ ok = false ∧ path = [] ∧
          ¬(max_reach_sq arg > 0 ∧ s.closest_distance ≠ MaxInt)) ∨
        (s.queue = [] ∧ ok = false ∧ max_reach_sq arg > 0 ∧ s.closest_distance ≠ MaxInt ∧
          discovered g arg s s.closest ∧
          path.head? = some arg.start ∧ path.getLast? = some s.closest ∧
          path.Chain' (bfs_step g arg) ∧ path.length = d s.closest + 1) ∨
        ((∃ rest, s.queue = arg.goal :: rest) ∧ ok = true ∧
          discovered g arg s arg.goal ∧
          path.head? = some arg.start ∧ path.getLast? = some arg.goal ∧
          path.Chain' (bfs_step g arg) ∧ path.length = d arg.goal + 1)) := by
  obtain ⟨s, hs, hr⟩ := bfs_returns_reaches g arg _ h
  obtain ⟨d, hd⟩ := bfs_reaches_inv g arg s hs
  exact ⟨s, d, hs, hd, bfs_return_cases g arg s d hd path ok hr⟩

theorem chain_zip_tail {α : Type} (R : α → α → Prop) (l : List α) (h : l.Chain' R) :
    ∀ pq ∈ l.zip l.tail, R pq.1 pq.2 := by
  induction l with
  | nil => simp
  | cons a l ih =>
    cases l with
    | nil => simp
    | cons b t =>
      rw [List.chain'_cons] at h
      intro pq hpq
      simp only [List.tail_cons, List.zip_cons_cons, List.mem_cons] at hpq
      rcases hpq with rfl | hpq
      · exact h.1
      · exact ih h.2 pq hpq

/-- Every sequence `bfs` returns is a chain of legal moves. -/
theorem bfs_path_chain (g : distance_field) (arg : path_args) (path : List vec2i) (ok : Bool)
    (h : g.bfs arg = some (path, ok)) : path.Chain' (legal_move g arg.min_space) := by
  obtain ⟨s, d, -, -, hc⟩ := bfs_result_cases g arg path ok h
  rcases hc with ⟨-, -, rfl, -⟩ | ⟨-, -, -, -, -, -, -, hch, -⟩ | ⟨-, -, -, -, -, hch, -⟩
  · exact List.chain'_nil
  · exact (chain_bfs_step_iff g arg path).mp hch
  · exact (chain_bfs_step_iff g arg path).mp hch

theorem closed_not_traversable (g : distance_field) (ms : Int) (v : vec2i)
    (h : g.closed_at v.x v.y = true) : ¬is_traversable g ms v := by
  intro ht
  rw [ht.2.1] at h
  cases h

/-- With a closed goal other than `start` and no fallback reach, the search
returns nothing. -/
theorem bfs_closed_goal (g : distance_field) (arg : path_args)
    (hclosed : g.closed_at arg.goal.x arg.goal.y = true) (hreach : arg.max_reach = 0)
    (hne : arg.start ≠ arg.goal) : g.bfs arg = some ([], false) := by
  obtain ⟨⟨path, ok⟩, h⟩ := bfs_total g arg
  rw [h]
  obtain ⟨s, d, -, -, hc⟩ := bfs_result_cases g arg path ok h
  have hmr : max_reach_sq arg = 0 := by
    unfold max_reach_sq wrap64
    rw [hreach]
    decide
  rcases hc with ⟨-, rfl, rfl, -⟩ | ⟨-, -, hpos, -⟩ | ⟨-, -, hdg, -⟩
  · rfl
  · rw [hmr] at hpos
    exact absurd hpos (by decide)
  · exfalso
    rcases hdg.2 with h1 | h1
    · exact hne h1.symm
    · exact closed_not_traversable g arg.min_space arg.goal hclosed ((trav_iff g arg _).mp h1)

/-! ### Breadth-first order (no distance cut-off) -/

theorem bfs_visit_queue (g : distance_field) (arg : path_args) (cur : vec2i)
    (s : bfs_state) (dir : direction) :
    (bfs_visit g arg cur s dir).queue = s.queue ∨
    (s.visited (cur.add dir.vec2i) = false ∧ step_ok g arg cur dir = true ∧
      (bfs_visit g arg cur s dir).queue = s.queue ++ [cur.add dir.vec2i]) := by
  rcases bfs_visit_cases g arg cur s dir with ⟨h, -⟩ | ⟨-, -, -, h⟩ | ⟨h1, h2, h⟩
  · rw [h]; exact Or.inl rfl
  · rw [h]; exact Or.inl rfl
  · rw [h]; exact Or.inr ⟨h1, h2, rfl⟩

/-- A coordinate discovered by a visit was discovered before, or is the
neighbour that was just enqueued. -/
theorem bfs_visit_discovered (g : distance_field) (arg : path_args) (cur : vec2i)
    (s : bfs_state) (dir : direction) (d : vec2i → Nat) (hinv : bfs_inv g arg s d)
    (v : vec2i) (hv : discovered g arg (bfs_visit g arg cur s dir) v) :
    discovered g arg s v ∨
      (v = cur.add dir.vec2i ∧ s.visited v = false ∧ step_ok g arg cur dir = true ∧
        (bfs_visit g arg cur s dir).queue = s.queue ++ [v]) := by
  rcases bfs_visit_cases g arg cur s dir with ⟨h, -⟩ | ⟨h1, -, h3, h⟩ | ⟨h1, h2, h⟩
  · rw [h] at hv
    exact Or.inl hv
  · left
    rw [h] at hv
    obtain ⟨hv1, hv2⟩ := hv
    simp only at hv1
    by_cases hvn : v = cur.add dir.vec2i
    · exfalso
      rcases hv2 with hv2 | hv2
      · rw [hvn] at hv2
        rw [hv2, hinv.start_visited] at h1
        cases h1
      · rw [hvn, h3] at hv2
        cases hv2
    · rw [if_neg hvn] at hv1
      exact ⟨hv1, hv2⟩
  · by_cases hvn : v = cur.add dir.vec2i
    · right
      rw [hvn]
      exact ⟨rfl, h1, h2, by rw [h]⟩
    · left
      rw [h] at hv
      obtain ⟨hv1, hv2⟩ := hv
      simp only [if_neg hvn] at hv1
      exact ⟨hv1, hv2⟩

theorem bfs_visit_processed_iff (g : distance_field) (arg : path_args) (cur : vec2i)
    (s : bfs_state) (dir : direction) (d : vec2i → Nat) (hinv : bfs_inv g arg s d)
    (v : vec2i) :
    processed g arg (bfs_visit g arg cur s dir) v ↔ processed g arg s v := by
  constructor
  · rintro ⟨h1, h2⟩
    rcases bfs_visit_discovered g arg cur s dir d hinv v h1 with h | ⟨-, -, -, hq⟩
    · refine ⟨h, fun hm => h2 ?_⟩
      rcases bfs_visit_queue g arg cur s dir with hq | ⟨-, -, hq⟩
      · rw [hq]; exact hm
      · rw [hq]; exact List.mem_append_left _ hm
    · exfalso
      apply h2
      rw [hq]
      simp
  · rintro ⟨h1, h2⟩
    refine ⟨discovered_mono g arg s _ (bfs_visit_visited_mono g arg cur s dir) v h1, ?_⟩
    rcases bfs_visit_queue g arg cur s dir with hq | ⟨hv, -, hq⟩
    · rw [hq]; exact h2
    · rw [hq]
      intro hm
      rcases List.mem_append.mp hm with hm | hm
      · exact h2 hm
      · rw [List.mem_singleton.mp hm] at h1
        have := h1.1
        rw [hv] at this
        cases this

theorem bfs_visit_mid (g : distance_field) (arg : path_args) (cur : vec2i)
    (done : direction → Prop) (s : bfs_state) (dir : direction) (d : vec2i → Nat)
    (hinv : bfs_inv g arg s d) (hmid : bfs_mid g arg cur done s d) :
    bfs_mid g arg cur (fun x => x = dir ∨ done x) (bfs_visit g arg cur s dir)
      (visit_depth g arg cur s dir d) := by
  have hmono := bfs_visit_visited_mono g arg cur s dir
  have hdmono := discovered_mono g arg s _ hmono
  have hproc := bfs_visit_processed_iff g arg cur s dir d hinv
  have hagree : ∀ v, discovered g arg s v → visit_depth g arg cur s dir d v = d v :=
    fun v hv => visit_depth_agree g arg cur s dir d v hv.1
  have hcur := hmid.cur_proc
  -- depth of a discovered coordinate relative to `cur`
  have hdepth : ∀ v, discovered g arg s v → d v ≤ d cur + 1 := by
    intro v hv
    by_cases hq : v ∈ s.queue
    · exact (hmid.queue_depth v hq).2
    · exact le_trans (hmid.proc_depth v ⟨hv, hq⟩) (Nat.le_succ _)
  rcases bfs_visit_queue g arg cur s dir with hq | ⟨hv1, hv2, hq⟩
  · -- the queue is unchanged
    have hdisc : ∀ v, discovered g arg (bfs_visit g arg cur s dir) v → discovered g arg s v := by
      intro v hv
      rcases bfs_visit_discovered g arg cur s dir d hinv v hv with h | ⟨-, -, -, hq2⟩
      · exact h
      · exfalso
        rw [hq] at hq2
        have := congrArg List.length hq2
        simp at this
    refine ⟨by rw [hq]; exact hmid.nodup, (hproc cur).mpr hcur, ?_, ?_, ?_, ?_, ?_⟩
    · intro u hu dir2 hdir2 hdone hok
      have hu0 := (hproc u).mp hu
      rw [hagree u hu0.1]
      by_cases hc : u = cur ∧ dir2 = dir
      · obtain ⟨rfl, rfl⟩ := hc
        have htgt : discovered g arg s (u.add dir2.vec2i) := by
          rcases bfs_visit_cases g arg u s dir2 with ⟨-, h | h⟩ | ⟨-, h, -⟩ | ⟨h1, -, h⟩
          · exact ⟨h, Or.inr (step_ok_trav g arg u dir2 hok)⟩
          · rw [hok] at h; cases h
          · rw [hok] at h; cases h
          · exfalso
            rw [h] at hq
            have := congrArg List.length hq
            simp at this
        rw [hagree _ htgt]
        exact ⟨hdmono _ htgt, hdepth _ htgt⟩
      · have hdone2 : u = cur → done dir2 := by
          intro hu2
          rcases hdone hu2 with h | h
          · exact absurd ⟨hu2, h⟩ hc
          · exact h
        obtain ⟨p1, p2⟩ := hmid.expanded u hu0 dir2 hdir2 hdone2 hok
        rw [hagree _ p1]
        exact ⟨hdmono _ p1, p2⟩
    · rw [hq]
      refine hmid.sorted.imp_of_mem ?_
      intro a b ha hb hab
      rw [hagree a (hinv.queue_disc a ha), hagree b (hinv.queue_disc b hb)]
      exact hab
    · intro q hqm
      rw [hq] at hqm
      rw [hagree q (hinv.queue_disc q hqm), hagree cur hcur.1]
      exact hmid.queue_depth q hqm
    · intro u hu
      have hu0 := (hproc u).mp hu
      rw [hagree u hu0.1, hagree cur hcur.1]
      exact hmid.proc_depth u hu0
    · intro u hu
      exact hmid.not_goal u ((hproc u).mp hu)
  · -- the neighbour is enqueued
    have hnextd : visit_depth g arg cur s dir d (cur.add dir.vec2i) = d cur + 1 := by
      unfold visit_depth
      rw [if_pos ⟨hv1, hv2⟩]
      simp
    have hnext : discovered g arg (bfs_visit g arg cur s dir) (cur.add dir.vec2i) := by
      refine ⟨?_, Or.inr (step_ok_trav g arg cur dir hv2)⟩
      rcases bfs_visit_cases g arg cur s dir with ⟨h, h2 | h2⟩ | ⟨-, h2, -⟩ | ⟨-, -, h⟩
      · rw [h2] at hv1; cases hv1
      · rw [h2] at hv2; cases hv2
      · rw [h2] at hv2; cases hv2
      · rw [h]; simp
    have hnq : cur.add dir.vec2i ∉ s.queue := by
      intro hm
      rw [(hinv.queue_disc _ hm).1] at hv1
      cases hv1
    refine ⟨?_, (hproc cur).mpr hcur, ?_, ?_, ?_, ?_, ?_⟩
    · rw [hq]
      exact List.Nodup.append hmid.nodup (List.nodup_singleton _) (by
        intro a ha hb
        rw [List.mem_singleton.mp hb] at ha
        exact hnq ha)
    · intro u hu dir2 hdir2 hdone hok
      have hu0 := (hproc u).mp hu
      rw [hagree u hu0.1]
      by_cases hc : u = cur ∧ dir2 = dir
      · obtain ⟨rfl, rfl⟩ := hc
        rw [hnextd]
        exact ⟨hnext, le_refl _⟩
      · have hdone2 : u = cur → done dir2 := by
          intro hu2
          rcases hdone hu2 with h | h
          · exact absurd ⟨hu2, h⟩ hc
          · exact h
        obtain ⟨p1, p2⟩ := hmid.expanded u hu0 dir2 hdir2 hdone2 hok
        rw [hagree _ p1]
        exact ⟨hdmono _ p1, p2⟩
    · rw [hq, List.pairwise_append]
      refine ⟨?_, List.pairwise_singleton _ _, ?_⟩
      · refine hmid.sorted.imp_of_mem ?_
        intro a b ha hb hab
        rw [hagree a (hinv.queue_disc a ha), hagree b (hinv.queue_disc b hb)]
        exact hab
      · intro a ha b hb
        rw [List.mem_singleton.mp hb, hnextd, hagree a (hinv.queue_disc a ha)]
        exact (hmid.queue_depth a ha).2
    · intro q hqm
      rw [hq] at hqm
      rw [hagree cur hcur.1]
      rcases List.mem_append.mp hqm with hqm | hqm
      · rw [hagree q (hinv.queue_disc q hqm)]
        exact hmid.queue_depth q hqm
      · rw [List.mem_singleton.mp hqm, hnextd]
        exact ⟨Nat.le_succ _, le_refl _⟩
    · intro u hu
      have hu0 := (hproc u).mp hu
      rw [hagree u hu0.1, hagree cur hcur.1]
      exact hmid.proc_depth u hu0
    · intro u hu
      exact hmid.not_goal u ((hproc u).mp hu)

theorem bfs_mid_weaken (g : distance_field) (arg : path_args) (cur : vec2i)
    (done done2 : direction → Prop) (s : bfs_state) (d : vec2i → Nat)
    (h : ∀ x, done2 x → done x) (hmid : bfs_mid g arg cur done s d) :
    bfs_mid g arg cur done2 s d :=
  ⟨hmid.nodup, hmid.cur_proc,
    fun u hu dir hdir hd hok => hmid.expanded u hu dir hdir (fun hc => h _ (hd hc)) hok,
    hmid.sorted, hmid.queue_depth, hmid.proc_depth, hmid.not_goal⟩

theorem bfs_expand_mid (g : distance_field) (arg : path_args) (cur : vec2i)
    (dirs : List direction) (hsub : ∀ dir ∈ dirs, dir ∈ path_directions)
    (done : direction → Prop) (s : bfs_state) (d : vec2i → Nat)
    (hinv : bfs_inv g arg s d) (hmid : bfs_mid g arg cur done s d) :
    bfs_mid g arg cur (fun x => x ∈ dirs ∨ done x) (dirs.foldl (bfs_visit g arg cur) s)
      (expand_depth g arg cur dirs s d) := by
  induction dirs generalizing s d done with
  | nil =>
    refine bfs_mid_weaken g arg cur done _ s d ?_ hmid
    intro x hx
    rcases hx with hx | hx
    · cases hx
    · exact hx
  | cons dir dirs ih =>
    simp only [List.foldl_cons, expand_depth]
    have h1 := bfs_visit_inv g arg cur s dir d hinv hmid.cur_proc.1
      (hsub dir (List.mem_cons_self _ _))
    have h2 := bfs_visit_mid g arg cur done s dir d hinv hmid
    refine bfs_mid_weaken g arg cur _ _ _ _ ?_
      (ih (fun x hx => hsub x (List.mem_cons_of_mem _ hx)) _ _ _ h1 h2)
    intro x hx
    rcases hx with hx | hx
    · rcases List.mem_cons.mp hx with hx | hx
      · exact Or.inr (Or.inl hx)
      · exact Or.inl hx
    · exact Or.inr (Or.inr hx)

theorem bfs_expand_processed_iff (g : distance_field) (arg : path_args) (cur : vec2i)
    (dirs : List direction) (hsub : ∀ dir ∈ dirs, dir ∈ path_directions)
    (s : bfs_state) (d : vec2i → Nat) (hinv : bfs_inv g arg s d)
    (hcur : discovered g arg s cur) (v : vec2i) :
    processed g arg (dirs.foldl (bfs_visit g arg cur) s) v ↔ processed g arg s v := by
  induction dirs generalizing s d with
  | nil => exact Iff.rfl
  | cons dir dirs ih =>
    simp only [List.foldl_cons]
    have h1 := bfs_visit_inv g arg cur s dir d hinv hcur (hsub dir (List.mem_cons_self _ _))
    rw [ih (fun x hx => hsub x (List.mem_cons_of_mem _ hx)) _ _ h1
      (discovered_mono g arg s _ (bfs_visit_visited_mono g arg cur s dir) _ hcur)]
    exact bfs_visit_processed_iff g arg cur s dir d hinv v

theorem bfs_record_processed_iff (g : distance_field) (arg : path_args) (cur : vec2i)
    (rest : List vec2i) (s : bfs_state) (d : vec2i → Nat) (hinv : bfs_inv g arg s d)
    (hnd : s.queue.Nodup) (hq : s.queue = cur :: rest) (v : vec2i) :
    processed g arg (bfs_record arg cur rest s) v ↔ (processed g arg s v ∨ v = cur) := by
  obtain ⟨f1, -, f3⟩ := bfs_record_fields arg cur rest s
  unfold processed
  rw [discovered_congr g arg s _ f1, f3, hq]
  rw [hq] at hnd
  have hcur : discovered g arg s cur := hinv.queue_disc cur (by rw [hq]; exact List.mem_cons_self _ _)
  constructor
  · rintro ⟨h1, h2⟩
    by_cases hv : v = cur
    · exact Or.inr hv
    · exact Or.inl ⟨h1, fun hm => by
        rcases List.mem_cons.mp hm with hm | hm
        · exact hv hm
        · exact h2 hm⟩
  · rintro (⟨h1, h2⟩ | rfl)
    · exact ⟨h1, fun hm => h2 (List.mem_cons_of_mem _ hm)⟩
    · exact ⟨hcur, (List.nodup_cons.mp hnd).1⟩

theorem bfs_head_to_mid (g : distance_field) (arg : path_args) (cur : vec2i)
    (rest : List vec2i) (s : bfs_state) (d : vec2i → Nat) (hinv : bfs_inv g arg s d)
    (hhead : bfs_head g arg s d) (hq : s.queue = cur :: rest) (hg : cur ≠ arg.goal) :
    bfs_mid g arg cur (fun _ => False) (bfs_record arg cur rest s) d := by
  have hproc := bfs_record_processed_iff g arg cur rest s d hinv hhead.nodup hq
  obtain ⟨f1, -, f3⟩ := bfs_record_fields arg cur rest s
  have hd := discovered_congr g arg s _ f1
  have hnd := hhead.nodup
  have hsorted := hhead.sorted
  rw [hq] at hnd hsorted
  have hcm : cur ∈ s.queue := by rw [hq]; exact List.mem_cons_self _ _
  have hrm : ∀ q ∈ rest, q ∈ s.queue := fun q hm => by rw [hq]; exact List.mem_cons_of_mem _ hm
  refine ⟨by rw [f3]; exact (List.nodup_cons.mp hnd).2, (hproc cur).mpr (Or.inr rfl),
    ?_, by rw [f3]; exact (List.pairwise_cons.mp hsorted).2, ?_, ?_, ?_⟩
  · intro u hu dir hdir hdone hok
    rcases (hproc u).mp hu with hu0 | hu0
    · obtain ⟨p1, p2⟩ := hhead.expanded u hu0 dir hdir hok
      exact ⟨(hd _).mpr p1, p2⟩
    · exact absurd (hdone hu0) id
  · intro q hm
    rw [f3] at hm
    exact ⟨(List.pairwise_cons.mp hsorted).1 q hm, hhead.queue_gap cur hcm q (hrm q hm)⟩
  · intro u hu
    rcases (hproc u).mp hu with hu0 | hu0
    · exact hhead.proc_depth u hu0 cur hcm
    · rw [hu0]
  · intro u hu
    rcases (hproc u).mp hu with hu0 | hu0
    · exact hhead.not_goal u hu0
    · rw [hu0]; exact hg

theorem bfs_mid_to_head (g : distance_field) (arg : path_args) (cur : vec2i)
    (done : direction → Prop) (s : bfs_state) (d : vec2i → Nat)
    (hmid : bfs_mid g arg cur done s d) (hall : ∀ dir ∈ path_directions, done dir) :
    bfs_head g arg s d :=
  ⟨hmid.nodup,
    fun u hu dir hdir hok => hmid.expanded u hu dir hdir (fun _ => hall dir hdir) hok,
    hmid.sorted,
    fun a ha b hb => le_trans (hmid.queue_depth b hb).2
      (Nat.succ_le_succ (hmid.queue_depth a ha).1),
    fun u hu q hq => le_trans (hmid.proc_depth u hu) (hmid.queue_depth q hq).1,
    hmid.not_goal⟩

theorem bfs_init_not_processed (g : distance_field) (arg : path_args) (u : vec2i) :
    ¬processed g arg (bfs_init arg) u := by
  rintro ⟨h1, h2⟩
  have h3 := h1.1
  simp only [bfs_init, decide_eq_true_eq] at h3 h2
  exact h2 (by rw [h3]; exact List.mem_singleton.mpr rfl)

theorem bfs_init_head (g : distance_field) (arg : path_args) :
    bfs_head g arg (bfs_init arg) (fun _ => 0) :=
  ⟨List.nodup_singleton _,
    fun u hu => absurd hu (bfs_init_not_processed g arg u),
    List.pairwise_singleton _ _,
    fun _ _ _ _ => Nat.zero_le _,
    fun u hu => absurd hu (bfs_init_not_processed g arg u),
    fun u hu => absurd hu (bfs_init_not_processed g arg u)⟩

/-- Without distance cut-off the search is a breadth-first search. -/
theorem bfs_reaches_head (g : distance_field) (arg : path_args)
    (hnc : ¬max_distance_sq arg > 0) (s : bfs_state) (h : bfs_reaches g arg s) :
    ∃ d, bfs_inv g arg s d ∧ bfs_head g arg s d := by
  induction h with
  | init => exact ⟨_, bfs_init_inv g arg, bfs_init_head g arg⟩
  | skip s cur rest _ _ hc _ => exact absurd hc.1 hnc
  | expand s cur rest _ hq _ hg ih =>
    obtain ⟨d, hd, hh⟩ := ih
    obtain ⟨hrec, hcur⟩ := bfs_record_inv g arg cur rest s d hd hq
    have hmid := bfs_head_to_mid g arg cur rest s d hd hh hq hg
    refine ⟨_, bfs_expand_inv g arg cur path_directions (fun _ h => h) _ d hrec hcur, ?_⟩
    exact bfs_mid_to_head g arg cur _ _ _
      (bfs_expand_mid g arg cur path_directions (fun _ h => h) _ _ d hrec hmid)
      (fun dir hdir => Or.inl hdir)

theorem max_distance_sq_zero (arg : path_args) (h : arg.max_distance = 0) :
    ¬max_distance_sq arg > 0 := by
  unfold max_distance_sq wrap64
  rw [h]
  decide

/-! ### Routes and the breadth-first order -/

theorem queue_head_le (g : distance_field) (arg : path_args) (s : bfs_state)
    (d : vec2i → Nat) (hh : bfs_head g arg s d) (h q : vec2i)
    (hhd : s.queue.head? = some h) (hq : q ∈ s.queue) : d h ≤ d q := by
  have hs := hh.sorted
  cases hqq : s.queue with
  | nil => rw [hqq] at hq; cases hq
  | cons a rest =>
    rw [hqq] at hs hq hhd
    simp only [List.head?_cons, Option.some.injEq] at hhd
    subst hhd
    rcases List.mem_cons.mp hq with rfl | hq
    · exact le_refl _
    · exact (List.pairwise_cons.mp hs).1 q hq

/-- A route shorter than the depth of the queue head ends at a dequeued
coordinate whose depth is at most the number of moves. -/
theorem route_processed (g : distance_field) (arg : path_args) (s : bfs_state)
    (d : vec2i → Nat) (hinv : bfs_inv g arg s d) (hh : bfs_head g arg s d)
    (p : List vec2i) :
    ∀ v, p.Chain' (bfs_step g arg) → p.head? = some arg.start → p.getLast? = some v →
      (∀ h, s.queue.head? = some h → p.length ≤ d h) →
      processed g arg s v ∧ d v + 1 ≤ p.length := by
  induction p using List.reverseRecOn with
  | nil =>
    intro v _ hhd
    cases hhd
  | append_singleton l w ih =>
    intro v hch hhd hlast hbound
    rw [List.getLast?_append, List.getLast?_singleton] at hlast
    change some w = some v at hlast
    rw [Option.some.injEq] at hlast
    subst hlast
    have key : discovered g arg s w ∧ d w + 1 ≤ (l ++ [w]).length := by
      cases hl : l.getLast? with
      | none =>
        rw [List.getLast?_eq_none_iff] at hl
        subst hl
        simp only [List.nil_append, List.head?_cons, Option.some.injEq] at hhd
        subst hhd
        refine ⟨⟨hinv.start_visited, Or.inl rfl⟩, ?_⟩
        rw [hinv.depth_start]
        simp
      | some u =>
        rw [List.chain'_append] at hch
        have hlne : l ≠ [] := by
          rintro rfl
          cases hl
        have hhd2 : l.head? = some arg.start := by
          cases l with
          | nil => exact absurd rfl hlne
          | cons a t => simpa using hhd
        have hb2 : ∀ h, s.queue.head? = some h → l.length ≤ d h := by
          intro h hq
          have := hbound h hq
          simp only [List.length_append, List.length_singleton] at this
          omega
        obtain ⟨hu, hdu⟩ := ih u hch.1 hhd2 hl hb2
        obtain ⟨dir, hdir, rfl, hok⟩ := hch.2.2 u hl w (by simp)
        obtain ⟨p1, p2⟩ := hh.expanded u hu dir hdir hok
        refine ⟨p1, ?_⟩
        simp only [List.length_append, List.length_singleton]
        omega
    refine ⟨⟨key.1, ?_⟩, key.2⟩
    intro hm
    cases hq : s.queue.head? with
    | none =>
      rw [List.head?_eq_none_iff] at hq
      rw [hq] at hm
      cases hm
    | some h =>
      have h1 := queue_head_le g arg s d hh h w hq hm
      have h2 := hbound h hq
      have h3 := key.2
      omega

theorem reachable_of_chain (g : distance_field) (arg : path_args) (p : List vec2i) (v : vec2i)
    (hh : p.head? = some arg.start) (hl : p.getLast? = some v)
    (hc : p.Chain' (bfs_step g arg)) : reachable g arg.min_space arg.start v :=
  ⟨p, hh, hl, (chain_bfs_step_iff g arg p).mp hc⟩

theorem reachable_of_discovered (g : distance_field) (arg : path_args) (s : bfs_state)
    (d : vec2i → Nat) (hinv : bfs_inv g arg s d) (v : vec2i) (hv : discovered g arg s v) :
    reachable g arg.min_space arg.start v := by
  obtain ⟨p, -, h1, h2, h3, -⟩ := construct_path_spec g arg s d hinv v hv
  exact reachable_of_chain g arg p v h1 h2 h3

/-- When the queue is empty, the dequeued coordinates are the reachable ones. -/
theorem processed_iff_reachable (g : distance_field) (arg : path_args) (s : bfs_state)
    (d : vec2i → Nat) (hinv : bfs_inv g arg s d) (hh : bfs_head g arg s d)
    (hq : s.queue = []) (v : vec2i) :
    processed g arg s v ↔ reachable g arg.min_space arg.start v := by
  constructor
  · intro hv
    exact reachable_of_discovered g arg s d hinv v hv.1
  · rintro ⟨p, h1, h2, h3⟩
    refine (route_processed g arg s d hinv hh p v ((chain_bfs_step_iff g arg p).mpr h3) h1 h2
      ?_).1
    intro h hhd
    rw [hq] at hhd
    cases hhd

/-- The search without cut-off finds the goal exactly when it is reachable,
and then by a route with the fewest moves. -/
theorem bfs_exact (g : distance_field) (arg : path_args) (hmd : arg.max_distance = 0)
    (path : List vec2i) (ok : Bool) (h : g.bfs arg = some (path, ok)) :
    (ok = true ↔ reachable g arg.min_space arg.start arg.goal) ∧
    (ok = true → is_route g arg.min_space arg.start arg.goal path ∧
      ∀ q, is_route g arg.min_space arg.start arg.goal q → path.length ≤ q.length) := by
  obtain ⟨s, hs, hr⟩ := bfs_returns_reaches g arg _ h
  obtain ⟨d, hd, hh⟩ := bfs_reaches_head g arg (max_distance_sq_zero arg hmd) s hs
  have hunreach : s.queue = [] → ¬reachable g arg.min_space arg.start arg.goal := by
    intro hq hre
    have := (processed_iff_reachable g arg s d hd hh hq arg.goal).mpr hre
    exact hh.not_goal _ this rfl
  rcases bfs_return_cases g arg s d hd path ok hr with
    ⟨hq, rfl, -, -⟩ | ⟨hq, rfl, -⟩ | ⟨⟨rest, hq⟩, rfl, hdg, h1, h2, h3, h4⟩
  · exact ⟨⟨fun hc => Bool.noConfusion hc, fun hre => absurd hre (hunreach hq)⟩,
      fun hc => Bool.noConfusion hc⟩
  · exact ⟨⟨fun hc => Bool.noConfusion hc, fun hre => absurd hre (hunreach hq)⟩,
      fun hc => Bool.noConfusion hc⟩
  · refine ⟨⟨fun _ => reachable_of_chain g arg path _ h1 h2 h3, fun _ => rfl⟩, fun _ => ?_⟩
    refine ⟨⟨h1, h2, (chain_bfs_step_iff g arg path).mp h3⟩, ?_⟩
    rintro q ⟨q1, q2, q3⟩
    by_contra hlt
    have hb : ∀ h, s.queue.head? = some h → q.length ≤ d h := by
      intro h hhd
      rw [hq] at hhd
      simp only [List.head?_cons, Option.some.injEq] at hhd
      subst hhd
      omega
    have := (route_processed g arg s d hd hh q arg.goal
      ((chain_bfs_step_iff g arg q).mpr q3) q1 q2 hb).2
    omega

/-! ### The fallback candidate -/

theorem bfs_record_fallback (g : distance_field) (arg : path_args) (cur : vec2i)
    (rest : List vec2i) (s : bfs_state) (d : vec2i → Nat) (hinv : bfs_inv g arg s d)
    (hnd : s.queue.Nodup) (hq : s.queue = cur :: rest) (hmr : max_reach_sq arg > 0)
    (hf : bfs_fallback g arg s) : bfs_fallback g arg (bfs_record arg cur rest s) := by
  have hproc := bfs_record_processed_iff g arg cur rest s d hinv hnd hq
  by_cases hc : max_reach_sq arg > 0 ∧ cur.distance_sq arg.goal < s.closest_distance ∧
      cur.distance_sq arg.goal ≤ max_reach_sq arg
  · have hcl : (bfs_record arg cur rest s).closest = cur := by
      unfold bfs_record
      dsimp only
      rw [if_pos hc]
    have hcd : (bfs_record arg cur rest s).closest_distance = cur.distance_sq arg.goal := by
      unfold bfs_record
      dsimp only
      rw [if_pos hc]
    have h1 := hf.cd_le
    refine ⟨by rw [hcd]; omega, ?_, ?_⟩
    · intro u hu h2 h3
      rw [hcd]
      rcases (hproc u).mp hu with hu0 | rfl
      · have := hf.recorded u hu0 h2 h3
        omega
      · exact le_refl _
    · intro _
      rw [hcl, hcd]
      exact ⟨(hproc cur).mpr (Or.inr rfl), rfl, hc.2.2⟩
  · have hcl : (bfs_record arg cur rest s).closest = s.closest := by
      unfold bfs_record
      dsimp only
      rw [if_neg hc]
    have hcd : (bfs_record arg cur rest s).closest_distance = s.closest_distance := by
      unfold bfs_record
      dsimp only
      rw [if_neg hc]
    refine ⟨by rw [hcd]; exact hf.cd_le, ?_, ?_⟩
    · intro u hu h2 h3
      rw [hcd]
      rcases (hproc u).mp hu with hu0 | rfl
      · exact hf.recorded u hu0 h2 h3
      · by_contra hlt
        exact hc ⟨hmr, by omega, h2⟩
    · intro hne
      rw [hcd] at hne
      rw [hcl, hcd]
      obtain ⟨p1, p2, p3⟩ := hf.closest_ok hne
      exact ⟨(hproc _).mpr (Or.inl p1), p2, p3⟩

theorem bfs_expand_fallback (g : distance_field) (arg : path_args) (cur : vec2i)
    (s : bfs_state) (d : vec2i → Nat) (hinv : bfs_inv g arg s d)
    (hcur : discovered g arg s cur) (hf : bfs_fallback g arg s) :
    bfs_fallback g arg (path_directions.foldl (bfs_visit g arg cur) s) := by
  have hproc := bfs_expand_processed_iff g arg cur path_directions (fun _ h => h) s d hinv hcur
  obtain ⟨hcl, hcd⟩ := bfs_expand_closest g arg cur path_directions s
  refine ⟨by rw [hcd]; exact hf.cd_le, ?_, ?_⟩
  · intro u hu h2 h3
    rw [hcd]
    exact hf.recorded u ((hproc u).mp hu) h2 h3
  · intro hne
    rw [hcd] at hne
    rw [hcl, hcd]
    obtain ⟨p1, p2, p3⟩ := hf.closest_ok hne
    exact ⟨(hproc _).mpr p1, p2, p3⟩

theorem bfs_init_fallback (g : distance_field) (arg : path_args) :
    bfs_fallback g arg (bfs_init arg) :=
  ⟨le_refl _, fun u hu => absurd hu (bfs_init_not_processed g arg u),
    fun hne => absurd rfl hne⟩

theorem bfs_reaches_fallback (g : distance_field) (arg : path_args)
    (hnc : ¬max_distance_sq arg > 0) (hmr : max_reach_sq arg > 0) (s : bfs_state)
    (h : bfs_reaches g arg s) : bfs_fallback g arg s := by
  induction h with
  | init => exact bfs_init_fallback g arg
  | skip s cur rest _ _ hc _ => exact absurd hc.1 hnc
  | expand s cur rest hs hq _ _ ih =>
    obtain ⟨d, hd, hh⟩ := bfs_reaches_head g arg hnc s hs
    obtain ⟨hrec, hcur⟩ := bfs_record_inv g arg cur rest s d hd hq
    exact bfs_expand_fallback g arg cur _ d hrec hcur
      (bfs_record_fallback g arg cur rest s d hd hh.nodup hq hmr ih)

/-! ### Squares that fit in 64 bits -/

theorem wrap64_eq (i : Int) (h1 : -9223372036854775808 ≤ i) (h2 : i ≤ 9223372036854775807) :
    wrap64 i = i := by
  unfold wrap64
  omega

theorem sq_le_of_abs_le (a B : Int) (h : |a| ≤ B) : a * a ≤ B * B := by
  rw [← abs_mul_abs_self a]
  exact mul_self_le_mul_self (abs_nonneg a) h

theorem distance_sq_eq (p q : vec2i)
    (hx : |q.x - p.x| ≤ 2147483646) (hy : |q.y - p.y| ≤ 2147483646) :
    p.distance_sq q = sq_dist p q ∧ sq_dist p q < MaxInt := by
  have h1 := sq_le_of_abs_le _ _ hx
  have h2 := sq_le_of_abs_le _ _ hy
  have h3 : 0 ≤ (q.x - p.x) * (q.x - p.x) := mul_self_nonneg _
  have h4 : 0 ≤ (q.y - p.y) * (q.y - p.y) := mul_self_nonneg _
  rw [abs_le] at hx hy
  unfold vec2i.distance_sq sq_dist MaxInt
  norm_num at h1 h2
  constructor
  · dsimp only
    rw [wrap64_eq (q.x - p.x) (by omega) (by omega), wrap64_eq (q.y - p.y) (by omega) (by omega),
      wrap64_eq ((q.x - p.x) * (q.x - p.x)) (by omega) (by omega),
      wrap64_eq ((q.y - p.y) * (q.y - p.y)) (by omega) (by omega),
      wrap64_eq _ (by omega) (by omega)]
  · omega

/-- The squared distance the search computes from a coordinate it dequeues
is the true one, when `start` and `goal` are small. -/
theorem discovered_distance_sq (g : distance_field) (arg : path_args) (s : bfs_state)
    (hs : coord_small arg.start) (hg : coord_small arg.goal) (v : vec2i)
    (hv : discovered g arg s v) :
    v.distance_sq arg.goal = sq_dist v arg.goal ∧ sq_dist v arg.goal < MaxInt := by
  unfold coord_small at hs hg
  obtain ⟨hs1, hs2⟩ := hs
  obtain ⟨hg1, hg2⟩ := hg
  rw [abs_lt] at hs1 hs2 hg1 hg2
  apply distance_sq_eq
  · rcases hv.2 with rfl | ht
    · rw [abs_le]; constructor <;> omega
    · have := (in_bounds_iff g _ _).mp (trav_in_bounds g arg v ht)
      rw [abs_le]; constructor <;> omega
  · rcases hv.2 with rfl | ht
    · rw [abs_le]; constructor <;> omega
    · have := (in_bounds_iff g _ _).mp (trav_in_bounds g arg v ht)
      rw [abs_le]; constructor <;> omega

theorem max_reach_sq_eq (arg : path_args) (h : arg.max_reach * arg.max_reach ≤ MaxInt) :
    max_reach_sq arg = arg.max_reach * arg.max_reach := by
  have h1 : 0 ≤ arg.max_reach * arg.max_reach := mul_self_nonneg _
  unfold MaxInt at h
  unfold max_reach_sq
  exact wrap64_eq _ (by omega) h

/-- Fallback of the search without cut-off, for squares that fit in 64
bits: the path ends at a reachable cell within reach that is nearest to
`goal`, and is empty when there is no such cell. -/
theorem bfs_fallback_result (g : distance_field) (arg : path_args)
    (hmd : arg.max_distance = 0) (hmr : 0 < arg.max_reach)
    (hsq : arg.max_reach * arg.max_reach ≤ MaxInt)
    (hs : coord_small arg.start) (hg : coord_small arg.goal)
    (hun : ¬reachable g arg.min_space arg.start arg.goal) :
    ∃ path, g.bfs arg = some (path, false) ∧
      ((∃ c, reachable g arg.min_space arg.start c ∧
          sq_dist c arg.goal ≤ arg.max_reach * arg.max_reach) →
        ∃ e, path.getLast? = some e ∧ path.head? = some arg.start ∧
          reachable g arg.min_space arg.start e ∧
          sq_dist e arg.goal ≤ arg.max_reach * arg.max_reach ∧
          ∀ c, reachable g arg.min_space arg.start c →
            sq_dist c arg.goal ≤ arg.max_reach * arg.max_reach →
            sq_dist e arg.goal ≤ sq_dist c arg.goal) ∧
      ((¬∃ c, reachable g arg.min_space arg.start c ∧
          sq_dist c arg.goal ≤ arg.max_reach * arg.max_reach) → path = []) := by
  obtain ⟨⟨path, ok⟩, h⟩ := bfs_total g arg
  have hnc := max_distance_sq_zero arg hmd
  have hmrs := max_reach_sq_eq arg hsq
  have hpos : max_reach_sq arg > 0 := by
    rw [hmrs]
    exact mul_pos hmr hmr
  obtain ⟨s, hreach, hr⟩ := bfs_returns_reaches g arg _ h
  obtain ⟨d, hd, hh⟩ := bfs_reaches_head g arg hnc s hreach
  have hf := bfs_reaches_fallback g arg hnc hpos s hreach
  have hdist := discovered_distance_sq g arg s hs hg
  rcases bfs_return_cases g arg s d hd path ok hr with
    ⟨hq, rfl, rfl, hc⟩ | ⟨hq, rfl, -, hcd, -, h1, h2, -, -⟩ | ⟨-, -, -, h1, h2, h3, -⟩
  · have hcd : s.closest_distance = MaxInt := by
      by_contra hne
      exact hc ⟨hpos, hne⟩
    have hempty : ¬∃ c, reachable g arg.min_space arg.start c ∧
        sq_dist c arg.goal ≤ arg.max_reach * arg.max_reach := by
      rintro ⟨c, hc1, hc2⟩
      have hpc := (processed_iff_reachable g arg s d hd hh hq c).mpr hc1
      obtain ⟨e1, e2⟩ := hdist c hpc.1
      have := hf.recorded c hpc (by rw [e1, hmrs]; exact hc2) (by rw [e1]; exact e2)
      rw [hcd, e1] at this
      omega
    exact ⟨[], h, fun hex => absurd hex hempty, fun _ => rfl⟩
  · obtain ⟨p1, p2, p3⟩ := hf.closest_ok hcd
    obtain ⟨e1, -⟩ := hdist _ p1.1
    have hre := (processed_iff_reachable g arg s d hd hh hq _).mp p1
    have hin : sq_dist s.closest arg.goal ≤ arg.max_reach * arg.max_reach := by
      rw [← e1, p2, ← hmrs]
      exact p3
    refine ⟨path, h, fun _ => ⟨s.closest, h2, h1, hre, hin, ?_⟩, fun hne => absurd ⟨_, hre, hin⟩ hne⟩
    intro c hc1 hc2
    have hpc := (processed_iff_reachable g arg s d hd hh hq c).mpr hc1
    obtain ⟨c1, c2⟩ := hdist c hpc.1
    have := hf.recorded c hpc (by rw [c1, hmrs]; exact hc2) (by rw [c1]; exact c2)
    rw [← e1, p2, ← c1]
    exact this
  · exact absurd (reachable_of_chain g arg path _ h1 h2 h3) hun

/-! ### The empty-grid scenario -/

theorem grid_loaded_obstacle (a b : Int) (h : 0 ≤ a ∧ a < 128 ∧ 0 ≤ b ∧ b < 128) :
    is_obstacle grid_loaded a b = false := by
  unfold grid_loaded distance_field.update_all_cells
  rw [update_cells_obstacle, is_obstacle_eq, if_pos ((in_bounds_iff _ a b).mpr h)]
  rfl

theorem grid_loaded_traversable (v : vec2i) (h : 0 ≤ v.x ∧ v.x < 128 ∧ 0 ≤ v.y ∧ v.y < 128) :
    is_traversable grid_loaded 1 v := by
  have hb : grid_empty.in_bounds v.x v.y = true := (in_bounds_iff _ _ _).mpr h
  refine ⟨(in_bounds_iff _ _ _).mpr h, grid_loaded_obstacle _ _ h, ?_⟩
  unfold grid_loaded distance_field.update_all_cells
  rw [update_cells_space_at grid_empty 0 0 grid_size grid_size v.x v.y hb
    (by unfold grid_size; omega) (by unfold grid_size; omega)]
  have hopen : is_obstacle grid_empty v.x v.y = false := by
    rw [is_obstacle_eq, if_pos hb]
    rfl
  unfold recomputed_space
  rw [if_neg (by simp [hopen])]
  rcases (scan_space_isLeast grid_empty v.x v.y).1 with h1 | ⟨dx, dy, h0, -, -, -, h1⟩
  · rw [h1]
    decide
  · rw [h1]
    exact sqrt_int_pos _ (offset_sq_pos dx dy h0)

theorem diagonal_route_is_route (n : Nat) (hn : n < 128) :
    is_route grid_loaded 1 { x := 0, y := 0 } { x := (n : Int), y := (n : Int) }
      (diagonal_route n) := by
  unfold is_route diagonal_route
  refine ⟨?_, ?_, ?_⟩
  · rw [List.range_succ_eq_map]
    rfl
  · rw [List.getLast?_map, List.getLast?_range]
    simp
  · rw [List.chain'_map, List.chain'_range_succ]
    intro m hm
    refine ⟨⟨?_, ?_, ?_⟩, grid_loaded_traversable _ ?_, fun _ =>
      ⟨grid_loaded_traversable _ ?_, grid_loaded_traversable _ ?_⟩⟩
    · simp
    · simp
    · intro he
      have := congrArg vec2i.x he
      simp at this
    · simp only [Nat.succ_eq_add_one, Nat.cast_add, Nat.cast_one]
      omega
    · simp only [Nat.succ_eq_add_one, Nat.cast_add, Nat.cast_one]
      omega
    · simp only [Nat.succ_eq_add_one, Nat.cast_add, Nat.cast_one]
      omega

/-- A chain of neighbour steps advances each coordinate by at most one per step. -/
theorem chain_reach_bound (p : List vec2i) :
    ∀ a e : vec2i, p.Chain' is_neighbour → p.head? = some a → p.getLast? = some e →
      e.x - a.x + 1 ≤ (p.length : Int) ∧ e.y - a.y + 1 ≤ (p.length : Int) := by
  induction p with
  | nil =>
    intro a e _ h
    cases h
  | cons a0 t ih =>
    intro a e hc hh hl
    simp only [List.head?_cons, Option.some.injEq] at hh
    subst hh
    cases t with
    | nil =>
      simp only [List.getLast?_singleton, Option.some.injEq] at hl
      subst hl
      simp
    | cons b t =>
      rw [List.chain'_cons] at hc
      rw [List.getLast?_cons_cons] at hl
      obtain ⟨h1, h2⟩ := ih b e hc.2 rfl hl
      obtain ⟨n1, n2, -⟩ := hc.1
      rw [abs_le] at n1 n2
      simp only [List.length_cons, Nat.cast_add, Nat.cast_one] at h1 h2 ⊢
      constructor <;> omega

/-- The only chain of neighbour steps from `a` to `a + (n, n)` with at most
`n + 1` coordinates is the diagonal. -/
theorem diagonal_unique (n : Nat) :
    ∀ (p : List vec2i) (a : vec2i), p.Chain' is_neighbour → p.head? = some a →
      p.getLast? = some { x := a.x + n, y := a.y + n } → p.length ≤ n + 1 →
      p = (List.range (n + 1)).map
        fun (i : Nat) => { x := a.x + (i : Int), y := a.y + (i : Int) } := by
  induction n with
  | zero =>
    intro p a _ hh _ hlen
    cases p with
    | nil => cases hh
    | cons a0 t =>
      simp only [List.head?_cons, Option.some.injEq] at hh
      subst hh
      cases t with
      | nil =>
        cases a0
        simp [List.range_succ_eq_map]
      | cons b t => simp at hlen
  | succ m ih =>
    intro p a hc hh hl hlen
    cases p with
    | nil => cases hh
    | cons a0 t =>
      simp only [List.head?_cons, Option.some.injEq] at hh
      subst hh
      cases t with
      | nil =>
        exfalso
        simp only [List.getLast?_singleton, Option.some.injEq] at hl
        have := congrArg vec2i.x hl
        simp only [Nat.cast_add, Nat.cast_one] at this
        omega
      | cons b t =>
        rw [List.chain'_cons] at hc
        rw [List.getLast?_cons_cons] at hl
        obtain ⟨h1, h2⟩ := chain_reach_bound (b :: t) b _ hc.2 rfl hl
        obtain ⟨n1, n2, -⟩ := hc.1
        rw [abs_le] at n1 n2
        simp only [List.length_cons, Nat.cast_add, Nat.cast_one] at h1 h2 hlen
        have hbx : b.x = a0.x + 1 := by omega
        have hby : b.y = a0.y + 1 := by omega
        have hl2 : (b :: t).getLast? = some { x := b.x + (m : Int), y := b.y + (m : Int) } := by
          rw [hl, hbx, hby]
          simp only [Nat.cast_add, Nat.cast_one, Option.some.injEq, vec2i.mk.injEq]
          constructor <;> omega
        have := ih (b :: t) b hc.2 rfl hl2 (by simp only [List.length_cons]; omega)
        rw [this, List.range_succ_eq_map (m + 1), List.map_cons, List.map_map]
        congr 1
        · cases a0
          simp
        · apply List.map_congr_left
          intro i _
          simp only [Function.comp_apply, Nat.succ_eq_add_one, Nat.cast_add, Nat.cast_one,
            vec2i.mk.injEq]
          constructor <;> omega

theorem chain_legal_neighbour (g : distance_field) (ms : Int) (p : List vec2i)
    (h : p.Chain' (legal_move g ms)) : p.Chain' is_neighbour :=
  List.Chain'.imp (fun _ _ hab => hab.1) h

/-- On the grid after `Load` the search from `(0,0)` to `(n,n)` returns the diagonal. -/
theorem bfs_loaded_diagonal (n : Nat) (hn : n < 128) (ms mr : Int) (hms : ms = 1) :
    grid_loaded.bfs
        { start := { x := 0, y := 0 }
          goal := { x := (n : Int), y := (n : Int) }
          min_space := ms
          max_distance := 0
          max_reach := mr } = some (diagonal_route n, true) := by
  subst hms
  obtain ⟨⟨path, ok⟩, h⟩ := bfs_total grid_loaded
    { start := { x := 0, y := 0 }
      goal := { x := (n : Int), y := (n : Int) }
      min_space := 1
      max_distance := 0
      max_reach := mr }
  have hex := bfs_exact grid_loaded _ rfl path ok h
  have hroute := diagonal_route_is_route n hn
  have hok : ok = true := hex.1.mpr ⟨_, hroute⟩
  subst hok
  obtain ⟨⟨r1, r2, r3⟩, hmin⟩ := hex.2 rfl
  have hlen := hmin _ hroute
  have hdl : (diagonal_route n).length = n + 1 := by
    unfold diagonal_route
    rw [List.length_map, List.length_range]
  rw [hdl] at hlen
  have := diagonal_unique n path { x := 0, y := 0 } (chain_legal_neighbour _ _ _ r3) r1
    (by rw [r2]; simp) hlen
  rw [h, this]
  unfold diagonal_route
  simp

/-! ## Save and Load: proofs -/

theorem pack_step_eq (cc : Nat) (b : Bool) (h : cc < 9223372036854775808) :
    pack_step cc b = 2 * cc + (if b then 1 else 0) := by
  unfold pack_step
  rw [Nat.shiftLeft_eq, pow_one, Nat.mod_eq_of_lt (by omega), Nat.mul_comm cc 2]
  have h2 : (if b then 1 else 0) < 2 ^ 1 := by
    cases b <;> simp
  have := Nat.mul_add_lt_is_or h2 cc
  rw [pow_one] at this
  exact this.symm

theorem save_cell_eq (g : distance_field) (gx gy y0 : Int) (cc : Nat) (x0 : Int) :
    save_cell g gx gy y0 cc x0 = pack_step cc (is_obstacle g (gx + x0) (gy + y0)) := by
  unfold save_cell pack_step is_obstacle
  dsimp only
  cases g.cell_at (gx + x0) (gy + y0) with
  | none => rfl
  | some c =>
    cases hcl : c.closed
    · simp [hcl]
    · simp [hcl]

theorem pack_cells_snoc (g : distance_field) (L : List (Int × Int)) (c : Int × Int) :
    pack_cells g (L ++ [c]) = pack_step (pack_cells g L) (is_obstacle g c.1 c.2) := by
  unfold pack_cells
  rw [List.foldl_append]
  rfl

theorem pack_cells_lt (g : distance_field) (L : List (Int × Int)) (h : L.length ≤ 64) :
    pack_cells g L < 2 ^ L.length := by
  induction L using List.reverseRecOn with
  | nil => simp [pack_cells]
  | append_singleton L c ih =>
    simp only [List.length_append, List.length_singleton] at h ⊢
    have h1 := ih (by omega)
    have h2 : (2 : Nat) ^ L.length ≤ 2 ^ 63 := Nat.pow_le_pow_right (by decide) (by omega)
    rw [pack_cells_snoc, pack_step_eq _ _ (by norm_num at h2; omega), pow_succ]
    cases is_obstacle g c.1 c.2 <;> simp <;> omega

theorem load_step_some (g2 : distance_field) (cc : Nat) (c : Int × Int)
    (hb : g2.in_bounds c.1 c.2 = true) :
    load_step (some (g2, cc)) c =
      some (g2.set_cell c.1 c.2
        { g2.cells (cell_index c.1 c.2) with closed := (cc &&& 1 == 1) }, cc >>> 1) := by
  unfold load_step load_cell distance_field.cell_at
  simp only [add_zero, hb, if_true]

/-- Unpacking in reverse order what was packed gives every cell its own bit. -/
theorem load_pack_cells (g : distance_field) (L : List (Int × Int)) :
    L.length ≤ 64 → (∀ c ∈ L, g.in_bounds c.1 c.2 = true) → ∀ g2 : distance_field,
    ∃ g3, L.reverse.foldl load_step (some (g2, pack_cells g L)) = some (g3, 0) ∧
      g3.grid_dirty = g2.grid_dirty ∧
      ∀ i, g3.cells i =
        if i < 16384 ∧ (index_x i, index_y i) ∈ L
        then { g2.cells i with closed := is_obstacle g (index_x i) (index_y i) }
        else g2.cells i := by
  induction L using List.reverseRecOn with
  | nil =>
    intro _ _ g2
    exact ⟨g2, rfl, rfl, fun i => by simp⟩
  | append_singleton L c ih =>
    intro hlen hb g2
    simp only [List.length_append, List.length_singleton] at hlen
    have hbc : g2.in_bounds c.1 c.2 = true := hb c (by simp)
    have hbc2 := (in_bounds_iff g2 c.1 c.2).mp hbc
    have hlt := pack_cells_lt g L (by omega)
    have h2 : (2 : Nat) ^ L.length ≤ 2 ^ 63 := Nat.pow_le_pow_right (by decide) (by omega)
    norm_num at h2
    have hA := pack_step_eq (pack_cells g L) (is_obstacle g c.1 c.2) (by omega)
    rw [List.reverse_append, List.reverse_singleton, List.singleton_append, List.foldl_cons,
      pack_cells_snoc, load_step_some g2 _ c hbc, hA]
    have hshift : (2 * pack_cells g L + if is_obstacle g c.1 c.2 = true then 1 else 0) >>> 1 =
        pack_cells g L := by
      rw [Nat.shiftRight_eq_div_pow, pow_one]
      cases is_obstacle g c.1 c.2
      · simp
      · simp
        omega
    have hbit : ((2 * pack_cells g L + if is_obstacle g c.1 c.2 = true then 1 else 0) &&& 1 == 1) =
        is_obstacle g c.1 c.2 := by
      rw [Nat.and_one_is_mod]
      cases is_obstacle g c.1 c.2
      · simp
      · simp
        omega
    rw [hshift, hbit]
    obtain ⟨g3, h3, hd3, hc3⟩ := ih (by omega) (fun c hc => hb c (by simp [hc]))
      (g2.set_cell c.1 c.2
        { g2.cells (cell_index c.1 c.2) with closed := is_obstacle g c.1 c.2 })
    refine ⟨g3, h3, by rw [hd3]; rfl, ?_⟩
    intro i
    rw [hc3 i]
    simp only [distance_field.set_cell]
    by_cases hi : i < 16384
    · by_cases hL : (index_x i, index_y i) ∈ L
      · have e1 : i < 16384 ∧ (index_x i, index_y i) ∈ L := ⟨hi, hL⟩
        have e2 : i < 16384 ∧ (index_x i, index_y i) ∈ L ++ [c] :=
          ⟨hi, List.mem_append_left _ hL⟩
        rw [if_pos e1, if_pos e2]
        split
        · rename_i he
          rw [he]
        · rfl
      · have e1 : ¬(i < 16384 ∧ (index_x i, index_y i) ∈ L) := fun h => hL h.2
        rw [if_neg e1]
        by_cases hic : i = cell_index c.1 c.2
        · have hdec := (cell_index_eq_iff i c.1 c.2 hbc2).mp hic
          have e2 : i < 16384 ∧ (index_x i, index_y i) ∈ L ++ [c] := by
            refine ⟨hi, List.mem_append_right _ ?_⟩
            rw [hdec.2.1, hdec.2.2]
            exact List.mem_singleton.mpr rfl
          rw [if_pos hic, if_pos e2, hdec.2.1, hdec.2.2, hic]
        · have e2 : ¬(i < 16384 ∧ (index_x i, index_y i) ∈ L ++ [c]) := by
            rintro ⟨-, hm⟩
            rcases List.mem_append.mp hm with hm | hm
            · exact hL hm
            · have hm2 := List.mem_singleton.mp hm
              apply hic
              rw [cell_index_eq_iff i c.1 c.2 hbc2]
              exact ⟨hi, by rw [← hm2], by rw [← hm2]⟩
          rw [if_neg hic, if_neg e2]
    · have e1 : ¬(i < 16384 ∧ (index_x i, index_y i) ∈ L) := fun h => hi h.1
      have e2 : ¬(i < 16384 ∧ (index_x i, index_y i) ∈ L ++ [c]) := fun h => hi h.1
      have hic : i ≠ cell_index c.1 c.2 := by
        intro hic
        exact hi ((cell_index_eq_iff i c.1 c.2 hbc2).mp hic).1
      rw [if_neg e1, if_neg e2, if_neg hic]

theorem int_range_shift (a n : Int) :
    (int_range 0 n).map (fun v => a + v) = int_range a (a + n) := by
  unfold int_range
  rw [List.map_map, show a + n - a = n - 0 by omega]
  apply List.map_congr_left
  intro k _
  simp

theorem region_cells_shift (a b n m : Int) :
    (region_cells 0 0 n m).map (fun p => (a + p.1, b + p.2)) =
      region_cells a b (a + n) (b + m) := by
  unfold region_cells
  rw [← int_range_shift a n, ← int_range_shift b m, List.map_flatMap, List.flatMap_map]
  apply List.flatMap_congr
  intro y _
  rw [List.map_map, List.map_map]
  rfl

theorem tile_cells_eq (X Y : Int) :
    tile_cells X Y = (region_cells 0 0 8 8).map fun p => (X * 8 + p.1, Y * 8 + p.2) := by
  unfold tile_cells
  rw [region_cells_shift]

theorem tile_cells_length (X Y : Int) : (tile_cells X Y).length = 64 := by
  rw [tile_cells_eq, List.length_map]
  rfl

theorem mem_tile_cells (X Y : Int) (p : Int × Int) :
    p ∈ tile_cells X Y ↔ p.1 / 8 = X ∧ p.2 / 8 = Y := by
  unfold tile_cells
  rw [mem_region_cells]
  omega

theorem save_tile_closed_cells (g : distance_field) (X Y : Int) :
    (save_tile g X Y).ClosedCells = pack_cells g (tile_cells X Y) := by
  unfold save_tile pack_cells tile_size
  dsimp only
  rw [foldl_nested (fun cc x0 y0 => save_cell g (X * 8) (Y * 8) y0 cc x0), tile_cells_eq,
    List.foldl_map]
  unfold region_cells
  congr 1
  funext cc p
  exact save_cell_eq g (X * 8) (Y * 8) p.2 cc p.1

theorem load_cell_shift (cx cy y : Int) (st : Option (distance_field × Nat)) (x : Int) :
    load_cell cx cy y st x = load_step st (x + cx, y + cy) := by
  unfold load_step load_cell
  simp only [add_zero]

theorem load_tile_eq (g2 : distance_field) (chunk : tile_data) :
    load_tile g2 chunk =
      ((tile_cells chunk.X chunk.Y).reverse.foldl load_step
        (some (g2, chunk.ClosedCells))).map Prod.fst := by
  unfold load_tile int_range_down tile_size
  rw [foldl_nested (fun st x y => load_cell (chunk.X * 8) (chunk.Y * 8) y st x), tile_cells_eq]
  congr 1
  have hrev : ((int_range 0 8).reverse.flatMap fun y =>
      (int_range 0 8).reverse.map fun x => (x, y)) = (region_cells 0 0 8 8).reverse := by
    unfold region_cells
    rw [List.reverse_flatMap]
    apply List.flatMap_congr
    intro y _
    simp only [Function.comp_apply, List.map_reverse]
  rw [hrev, ← List.map_reverse, List.foldl_map]
  congr 1
  funext st p
  rw [load_cell_shift, add_comm p.1, add_comm p.2]

theorem tile_in_bounds (g : distance_field) (X Y : Int) (hX : 0 ≤ X ∧ X < 16)
    (hY : 0 ≤ Y ∧ Y < 16) (c : Int × Int) (hc : c ∈ tile_cells X Y) :
    g.in_bounds c.1 c.2 = true := by
  rw [mem_tile_cells] at hc
  rw [in_bounds_iff]
  omega

/-- Loading the record saved for a tile sets the closed flags of that tile. -/
theorem load_save_tile (g : distance_field) (X Y : Int) (hX : 0 ≤ X ∧ X < 16)
    (hY : 0 ≤ Y ∧ Y < 16) (g2 : distance_field) :
    ∃ g3, load_tile g2 (save_tile g X Y) = some g3 ∧ g3.grid_dirty = g2.grid_dirty ∧
      ∀ i, g3.cells i =
        if i < 16384 ∧ index_x i / 8 = X ∧ index_y i / 8 = Y
        then { g2.cells i with closed := is_obstacle g (index_x i) (index_y i) }
        else g2.cells i := by
  obtain ⟨g3, h3, hd, hc⟩ := load_pack_cells g (tile_cells X Y)
    (le_of_eq (tile_cells_length X Y)) (tile_in_bounds g X Y hX hY) g2
  refine ⟨g3, ?_, hd, ?_⟩
  · rw [load_tile_eq, save_tile_closed_cells]
    have e1 : (save_tile g X Y).X = X := rfl
    have e2 : (save_tile g X Y).Y = Y := rfl
    rw [e1, e2, h3]
    rfl
  · intro i
    rw [hc i]
    simp only [mem_tile_cells]

theorem foldl_append_singleton {α β : Type} (f : α → β) (L : List α) (init : List β) :
    L.foldl (fun acc p => acc ++ [f p]) init = init ++ L.map f := by
  induction L generalizing init with
  | nil => simp
  | cons a L ih =>
    simp only [List.foldl_cons, List.map_cons]
    rw [ih]
    simp

theorem save_tiles_eq (g : distance_field) :
    g.save_tiles = (region_cells 0 0 16 16).map fun p => save_tile g p.1 p.2 := by
  unfold distance_field.save_tiles
  have h16 : grid_tile_divisions = 16 := by decide
  rw [h16, foldl_nested (fun tiles x y => tiles ++ [save_tile g x y])]
  unfold region_cells
  rw [foldl_append_singleton (fun p : Int × Int => save_tile g p.1 p.2)]
  simp

theorem load_save_tiles_list (g : distance_field) (T : List (Int × Int)) :
    (∀ p ∈ T, (0 ≤ p.1 ∧ p.1 < 16) ∧ (0 ≤ p.2 ∧ p.2 < 16)) → ∀ g2 : distance_field,
    ∃ g3, T.foldl (fun st p => st.bind fun g1 => load_tile g1 (save_tile g p.1 p.2)) (some g2) =
        some g3 ∧ g3.grid_dirty = g2.grid_dirty ∧
      ∀ i, g3.cells i =
        if i < 16384 ∧ (index_x i / 8, index_y i / 8) ∈ T
        then { g2.cells i with closed := is_obstacle g (index_x i) (index_y i) }
        else g2.cells i := by
  induction T with
  | nil =>
    intro _ g2
    exact ⟨g2, rfl, rfl, fun i => by simp⟩
  | cons t T ih =>
    intro hT g2
    obtain ⟨ht1, ht2⟩ := hT t (List.mem_cons_self _ _)
    obtain ⟨g1, h1, hd1, hc1⟩ := load_save_tile g t.1 t.2 ht1 ht2 g2
    obtain ⟨g3, h3, hd3, hc3⟩ := ih (fun p hp => hT p (List.mem_cons_of_mem _ hp)) g1
    refine ⟨g3, ?_, by rw [hd3, hd1], ?_⟩
    · rw [List.foldl_cons, Option.some_bind, h1, h3]
    · intro i
      rw [hc3 i, hc1 i]
      obtain ⟨tx, ty⟩ := t
      by_cases hi : i < 16384
      · by_cases hm : (index_x i / 8, index_y i / 8) ∈ T
        · by_cases ht : index_x i / 8 = tx ∧ index_y i / 8 = ty
          · simp [hi, hm, ht]
          · simp [hi, hm, ht]
        · by_cases ht : index_x i / 8 = tx ∧ index_y i / 8 = ty
          · simp [hi, hm, ht]
          · have ht2 : ¬(index_x i / 8 = tx ∧ index_y i / 8 = ty) := ht
            rw [not_and] at ht2
            simp [hi, hm, ht, ht2]
      · simp [hi]

/-- Save followed by Load restores the closed flag of every cell and
changes nothing else. -/
theorem load_save_tiles (g g2 : distance_field) :
    ∃ g3, g2.load_tiles g.save_tiles = some g3 ∧ g3.grid_dirty = g2.grid_dirty ∧
      ∀ i, g3.cells i =
        if i < 16384 then { g2.cells i with closed := (g.cells i).closed } else g2.cells i := by
  obtain ⟨g3, h3, hd, hc⟩ := load_save_tiles_list g (region_cells 0 0 16 16)
    (fun p hp => (mem_region_cells _ _ _ _ p).mp hp) g2
  refine ⟨g3, ?_, hd, ?_⟩
  · unfold distance_field.load_tiles
    rw [save_tiles_eq, List.foldl_map]
    exact h3
  · intro i
    rw [hc i]
    by_cases hi : i < 16384
    · have hxy := index_in_bounds i hi
      have hm : (index_x i / 8, index_y i / 8) ∈ region_cells 0 0 16 16 := by
        rw [mem_region_cells]
        simp only
        omega
      rw [if_pos ⟨hi, hm⟩, if_pos hi, is_obstacle_eq,
        if_pos ((in_bounds_iff g _ _).mpr hxy), cell_index_index i hi]
    · rw [if_neg (fun h => hi h.1), if_neg hi]

/-! ## Further facts used by the claims -/

/-- An open cell on the edge of the grid has clearance `1`. -/
theorem recomputed_space_edge (g : distance_field) (x y : Int) (hb : g.in_bounds x y = true)
    (hopen : is_obstacle g x y = false) (hedge : x = 0 ∨ y = 0 ∨ x = 127 ∨ y = 127) :
    recomputed_space g x y = 1 := by
  have hb2 := (in_bounds_iff g x y).mp hb
  have hoff : ∀ a b : Int, ¬(0 ≤ a ∧ a < 128 ∧ 0 ≤ b ∧ b < 128) → is_obstacle g a b = true := by
    intro a b h
    rw [is_obstacle_eq, if_neg]
    rw [in_bounds_iff]
    exact h
  symm
  refine is_reference_clearance_unique _ _ _ _ ⟨fun h => ?_, fun _ => ⟨?_, ?_⟩⟩
  · rw [hopen] at h
    cases h
  · rcases hedge with h | h | h | h
    · exact Or.inr ⟨-1, 0, by omega, by decide, by decide, hoff _ _ (by omega), by decide⟩
    · exact Or.inr ⟨0, -1, by omega, by decide, by decide, hoff _ _ (by omega), by decide⟩
    · exact Or.inr ⟨1, 0, by omega, by decide, by decide, hoff _ _ (by omega), by decide⟩
    · exact Or.inr ⟨0, 1, by omega, by decide, by decide, hoff _ _ (by omega), by decide⟩
  · rintro d (rfl | ⟨dx, dy, h0, -, -, -, rfl⟩)
    · decide
    · exact sqrt_int_pos _ (offset_sq_pos dx dy h0)

theorem grid_filled_obstacle (a b : Int) : is_obstacle grid_filled a b = true := by
  rw [is_obstacle_eq]
  split <;> rfl

theorem grid_filled_reference (a b : Int) :
    is_reference_clearance grid_filled a b (grid_filled.space_at a b) := by
  refine ⟨fun _ => ?_, fun h => ?_⟩
  · unfold distance_field.space_at distance_field.cell_at
    by_cases hb : grid_filled.in_bounds a b = true
    · rw [if_pos hb]
      rfl
    · rw [if_neg hb]
  · rw [grid_filled_obstacle] at h
    cases h

theorem reachable_refl (g : distance_field) (ms : Int) (a : vec2i) : reachable g ms a a :=
  ⟨[a], rfl, rfl, List.chain'_singleton _⟩

/-- A coordinate reached by at least one legal move is traversable. -/
theorem reachable_cases (g : distance_field) (ms : Int) (a b : vec2i)
    (h : reachable g ms a b) : a = b ∨ is_traversable g ms b := by
  obtain ⟨p, h1, h2, h3⟩ := h
  induction p using List.reverseRecOn with
  | nil => cases h1
  | append_singleton l w _ =>
    rw [List.getLast?_append, List.getLast?_singleton] at h2
    change some w = some b at h2
    rw [Option.some.injEq] at h2
    subst h2
    cases hl : l.getLast? with
    | none =>
      rw [List.getLast?_eq_none_iff] at hl
      subst hl
      simp only [List.nil_append, List.head?_cons, Option.some.injEq] at h1
      exact Or.inl h1.symm
    | some u =>
      rw [List.chain'_append] at h3
      exact Or.inr (h3.2.2 u hl w (by simp)).2.1

theorem grid_filled_unreachable (ms : Int) (a b : vec2i) (hne : a ≠ b) :
    ¬reachable grid_filled ms a b := by
  intro h
  rcases reachable_cases grid_filled ms a b h with h1 | h1
  · exact hne h1
  · exact closed_not_traversable grid_filled ms b (grid_filled_obstacle _ _) h1

theorem closed_at_of_cells (g g3 : distance_field)
    (h : ∀ i, i < 16384 → (g3.cells i).closed = (g.cells i).closed) (x y : Int) :
    g3.closed_at x y = g.closed_at x y := by
  unfold distance_field.closed_at
  rw [is_obstacle_eq, is_obstacle_eq, in_bounds_congr g3 g]
  by_cases hb : g.in_bounds x y = true
  · rw [if_pos hb, if_pos hb]
    exact h _ ((cell_index_eq_iff _ x y ((in_bounds_iff g x y).mp hb)).mp rfl).1
  · rw [if_neg hb, if_neg hb]

theorem load_malformed_tiles (g : distance_field) : g.load_tiles malformed_tiles = none := by
  rfl

/-! ## The clearance range -/

theorem recomputed_space_range (g : distance_field) (x y : Int) :
    0 ≤ recomputed_space g x y ∧ recomputed_space g x y ≤ max_distance ∧
      (is_obstacle g x y = true → recomputed_space g x y = 0) := by
  unfold recomputed_space
  by_cases h : is_obstacle g x y = true
  · rw [if_pos h]
    exact ⟨le_refl _, by decide, fun _ => rfl⟩
  · rw [if_neg h]
    have hl := scan_space_isLeast g x y
    refine ⟨?_, hl.2 (Or.inl rfl), fun hc => absurd hc h⟩
    rcases hl.1 with h1 | ⟨dx, dy, h0, -, -, -, h1⟩
    · rw [h1]
      decide
    · rw [h1]
      exact le_trans (by decide) (sqrt_int_pos _ (offset_sq_pos dx dy h0))

/-- Recomputing a region keeps the range, provided the cells outside the
region are in range already. -/
theorem update_cells_in_range (g : distance_field) (x0 y0 x1 y1 : Int)
    (h : ∀ i, i < 16384 → (index_x i, index_y i) ∉ region_cells x0 y0 x1 y1 →
      0 ≤ (g.cells i).space ∧ (g.cells i).space ≤ max_distance ∧
        ((g.cells i).closed = true → (g.cells i).space = 0)) :
    space_in_range (g.update_cells x0 y0 x1 y1) := by
  intro i hi
  rw [update_cells_eq, foldl_update_cell_cells]
  by_cases hm : (index_x i, index_y i) ∈ region_cells x0 y0 x1 y1
  · rw [if_pos ⟨hi, hm⟩]
    obtain ⟨r1, r2, r3⟩ := recomputed_space_range g (index_x i) (index_y i)
    have hob : is_obstacle g (index_x i) (index_y i) = (g.cells i).closed := by
      rw [is_obstacle_eq, if_pos ((in_bounds_iff g _ _).mpr (index_in_bounds i hi)),
        cell_index_index i hi]
    rw [hob] at r3
    generalize recomputed_space g (index_x i) (index_y i) = m at r1 r2 r3
    exact ⟨r1, r2, r3⟩
  · rw [if_neg (fun hh => hm hh.2)]
    exact h i hi hm

theorem update_all_cells_in_range (g : distance_field) : space_in_range g.update_all_cells := by
  unfold distance_field.update_all_cells
  apply update_cells_in_range
  intro i hi hm
  exfalso
  apply hm
  have hxy := index_in_bounds i hi
  rw [mem_region_cells]
  unfold grid_size
  exact ⟨⟨hxy.1, hxy.2.1⟩, hxy.2.2.1, hxy.2.2.2⟩

theorem edit_in_range (g : distance_field) (x y dc : Int) (h : space_in_range g) :
    space_in_range
      ((g.toggle_closed x y dc).update_cells (x - max_distance) (y - max_distance)
        (x + max_distance) (y + max_distance)) := by
  apply update_cells_in_range
  intro i hi hm
  rw [toggle_closed_cells, if_neg]
  · exact h i hi
  · rintro ⟨-, h1, h2⟩
    apply hm
    rw [mem_region_cells, h1, h2]
    unfold max_distance
    simp

/-- The clearance range holds in every state the editor reaches. -/
theorem editor_reaches_in_range (g : distance_field) (h : editor_reaches g) :
    space_in_range g := by
  induction h with
  | start => exact update_all_cells_in_range grid_empty
  | edit g x y dc _ _ ih => exact edit_in_range g x y dc ih
  | clear g _ _ => exact update_all_cells_in_range _
  | fill g _ _ => exact update_all_cells_in_range _
  | tiles g g2 chunks _ _ _ => exact update_all_cells_in_range _

theorem space_in_range_at (g : distance_field) (h : space_in_range g) (x y : Int)
    (hb : g.in_bounds x y = true) :
    0 ≤ g.space_at x y ∧ g.space_at x y ≤ max_distance ∧
      (g.closed_at x y = true → g.space_at x y = 0) := by
  have hi := (cell_index_eq_iff (cell_index x y) x y ((in_bounds_iff g x y).mp hb)).mp rfl
  unfold distance_field.closed_at
  rw [space_at_eq g x y hb, is_obstacle_eq, if_pos hb]
  exact h _ hi.1

/-! ## The bit layout of a saved tile -/

/-- Bit `j` of the packed value is the flag of the cell visited `j` steps
before the last one. -/
theorem pack_cells_testBit (g : distance_field) (L : List (Int × Int)) :
    L.length ≤ 64 → ∀ (j : Nat) (c : Int × Int), L.reverse[j]? = some c →
      Nat.testBit (pack_cells g L) j = is_obstacle g c.1 c.2 := by
  induction L using List.reverseRecOn with
  | nil =>
    intro _ j c h
    simp at h
  | append_singleton L c0 ih =>
    intro hlen j c h
    simp only [List.length_append, List.length_singleton] at hlen
    have hlt := pack_cells_lt g L (by omega)
    have h2 : (2 : Nat) ^ L.length ≤ 2 ^ 63 := Nat.pow_le_pow_right (by decide) (by omega)
    norm_num at h2
    rw [pack_cells_snoc, pack_step_eq _ _ (by omega)]
    rw [List.reverse_append, List.reverse_singleton, List.singleton_append] at h
    cases j with
    | zero =>
      rw [List.getElem?_cons_zero, Option.some.injEq] at h
      subst h
      rw [Nat.testBit_zero]
      cases is_obstacle g c0.1 c0.2
      · simp
      · simp
        omega
    | succ j =>
      rw [List.getElem?_cons_succ] at h
      rw [Nat.testBit_succ]
      have hdiv : (2 * pack_cells g L + if is_obstacle g c0.1 c0.2 = true then 1 else 0) / 2 =
          pack_cells g L := by
        cases is_obstacle g c0.1 c0.2
        · simp
        · simp
          omega
      rw [hdiv]
      exact ih (by omega) j c h

theorem region_cells_index : ∀ y0 : Nat, y0 < 8 → ∀ x0 : Nat, x0 < 8 →
    (region_cells 0 0 8 8)[8 * y0 + x0]? = some ((x0 : Int), (y0 : Int)) := by
  decide

theorem tile_cells_index (X Y : Int) (x0 y0 : Nat) (hx : x0 < 8) (hy : y0 < 8) :
    (tile_cells X Y)[8 * y0 + x0]? = some (X * 8 + x0, Y * 8 + y0) := by
  rw [tile_cells_eq, List.getElem?_map, region_cells_index y0 hy x0 hx]
  rfl

/-- Bit `63 - (8*y0 + x0)` of the value saved for a tile is the flag of its
cell `(x0, y0)`. -/
theorem save_tile_testBit (g : distance_field) (X Y : Int) (x0 y0 : Nat) (hx : x0 < 8)
    (hy : y0 < 8) :
    Nat.testBit (save_tile g X Y).ClosedCells (63 - (8 * y0 + x0)) =
      is_obstacle g (X * 8 + x0) (Y * 8 + y0) := by
  rw [save_tile_closed_cells]
  refine pack_cells_testBit g (tile_cells X Y) (le_of_eq (tile_cells_length X Y)) _
    (X * 8 + x0, Y * 8 + y0) ?_
  rw [List.getElem?_reverse (by rw [tile_cells_length]; omega), tile_cells_length,
    show 64 - 1 - (63 - (8 * y0 + x0)) = 8 * y0 + x0 by omega]
  exact tile_cells_index X Y x0 y0 hx hy

theorem save_tile_lt (g : distance_field) (X Y : Int) :
    (save_tile g X Y).ClosedCells < 18446744073709551616 := by
  rw [save_tile_closed_cells]
  have := pack_cells_lt g (tile_cells X Y) (le_of_eq (tile_cells_length X Y))
  rw [tile_cells_length] at this
  norm_num at this
  exact this

theorem save_tile_mem (g : distance_field) (X Y : Int) (hX : 0 ≤ X ∧ X < 16)
    (hY : 0 ≤ Y ∧ Y < 16) : save_tile g X Y ∈ g.save_tiles := by
  rw [save_tiles_eq, List.mem_map]
  exact ⟨(X, Y), (mem_region_cells _ _ _ _ _).mpr ⟨hX, hY⟩, rfl⟩

/-! ## Termination of the search -/

theorem bfs_visit_enqueued_once (g : distance_field) (arg : path_args) (cur : vec2i)
    (T : List vec2i) (s : bfs_state) (dir : direction) (h : enqueued_once g arg T s) :
    enqueued_once g arg T (bfs_visit g arg cur s dir) := by
  obtain ⟨h1, h2, h3⟩ := h
  have hmono := bfs_visit_visited_mono g arg cur s dir
  rcases bfs_visit_cases g arg cur s dir with ⟨he, -⟩ | ⟨-, -, -, he⟩ | ⟨hv, hok, he⟩
  · rw [he]
    exact ⟨h1, h2, h3⟩
  · have hq : (bfs_visit g arg cur s dir).queue = s.queue := by rw [he]
    have hc := unvisited_count_mono s _ hmono
    unfold enqueued_once
    rw [hq]
    exact ⟨h1, fun v hv => ⟨hmono v (h2 v hv).1, (h2 v hv).2⟩, by omega⟩
  · have hq : (bfs_visit g arg cur s dir).queue = s.queue ++ [cur.add dir.vec2i] := by rw [he]
    have htrav := step_ok_trav g arg cur dir hok
    have hvis : (bfs_visit g arg cur s dir).visited (cur.add dir.vec2i) = true := by
      rw [he]
      simp
    have hc := unvisited_count_lt g s _ _ hmono (trav_in_bounds g arg _ htrav) hv hvis
    have hnew : cur.add dir.vec2i ∉ T ++ s.queue := by
      intro hm
      rw [(h2 _ hm).1] at hv
      cases hv
    unfold enqueued_once
    rw [hq, ← List.append_assoc]
    refine ⟨?_, ?_, ?_⟩
    · exact List.Nodup.append h1 (List.nodup_singleton _) (by
        intro a ha hb
        rw [List.mem_singleton.mp hb] at ha
        exact hnew ha)
    · intro v hm
      rcases List.mem_append.mp hm with hm | hm
      · exact ⟨hmono v (h2 v hm).1, (h2 v hm).2⟩
      · rw [List.mem_singleton.mp hm]
        exact ⟨hvis, Or.inr htrav⟩
    · simp only [List.length_append, List.length_singleton] at h3 ⊢
      omega

theorem bfs_expand_enqueued_once (g : distance_field) (arg : path_args) (cur : vec2i)
    (T : List vec2i) (dirs : List direction) (s : bfs_state) (h : enqueued_once g arg T s) :
    enqueued_once g arg T (dirs.foldl (bfs_visit g arg cur) s) := by
  induction dirs generalizing s with
  | nil => exact h
  | cons dir dirs ih =>
    simp only [List.foldl_cons]
    exact ih _ (bfs_visit_enqueued_once g arg cur T s dir h)

theorem bfs_dequeue_enqueued_once (g : distance_field) (arg : path_args) (cur : vec2i)
    (rest T : List vec2i) (s s2 : bfs_state) (hq : s.queue = cur :: rest)
    (hv : s2.visited = s.visited) (hq2 : s2.queue = rest) (h : enqueued_once g arg T s) :
    enqueued_once g arg (T ++ [cur]) s2 := by
  unfold enqueued_once at h ⊢
  rw [hq] at h
  rw [hq2, hv, unvisited_count_congr s s2 hv, List.append_assoc, List.singleton_append]
  exact h

theorem bfs_trace_enqueued_once (g : distance_field) (arg : path_args) (T : List vec2i)
    (s : bfs_state) (h : bfs_trace g arg T s) : enqueued_once g arg T s := by
  induction h with
  | init =>
    refine ⟨List.nodup_singleton _, ?_, ?_⟩
    · intro v hv
      have : v = arg.start := by simpa [bfs_init] using hv
      rw [this]
      exact ⟨by simp [bfs_init], Or.inl rfl⟩
    · have := unvisited_count_le (bfs_init arg)
      simp only [bfs_init, List.nil_append, List.length_singleton] at this ⊢
      omega
  | skip T s cur rest _ hq _ ih =>
    exact bfs_dequeue_enqueued_once g arg cur rest T s _ hq rfl rfl ih
  | expand T s cur rest _ hq _ _ ih =>
    obtain ⟨f1, -, f3⟩ := bfs_record_fields arg cur rest s
    exact bfs_expand_enqueued_once g arg cur _ path_directions _
      (bfs_dequeue_enqueued_once g arg cur rest T s _ hq f1 f3 ih)

theorem bfs_trace_reaches (g : distance_field) (arg : path_args) (T : List vec2i)
    (s : bfs_state) (h : bfs_trace g arg T s) : bfs_reaches g arg s := by
  induction h with
  | init => exact bfs_reaches.init
  | skip T s cur rest _ hq hc ih => exact bfs_reaches.skip s cur rest ih hq hc
  | expand T s cur rest _ hq hc hg ih => exact bfs_reaches.expand s cur rest ih hq hc hg

/-- Where the search returns, it is at the end of a run of the loop. -/
theorem bfs_returns_trace (g : distance_field) (arg : path_args) (r : List vec2i × Bool)
    (h : g.bfs arg = some r) : ∃ T s, bfs_trace g arg T s ∧ bfs_return arg s r := by
  unfold distance_field.bfs at h
  obtain ⟨s, ⟨T, hT⟩, hr⟩ := bfs_loop_induct g arg (fun s => ∃ T, bfs_trace g arg T s)
    (fun s cur rest ⟨T, hT⟩ hq hc => ⟨_, bfs_trace.skip T s cur rest hT hq hc⟩)
    (fun s cur rest ⟨T, hT⟩ hq hc hg => ⟨_, bfs_trace.expand T s cur rest hT hq hc hg⟩)
    16386 (bfs_init arg) r ⟨[], bfs_trace.init⟩ h
  exact ⟨T, s, hT, hr⟩

/-- What holds of the coordinates enqueued in a run of the loop. -/
theorem bfs_trace_facts (g : distance_field) (arg : path_args) (T : List vec2i)
    (s : bfs_state) (h : bfs_trace g arg T s) :
    (T ++ s.queue).Nodup ∧
    (∀ v ∈ T ++ s.queue, v = arg.start ∨ is_traversable g arg.min_space v) ∧
    (T ++ s.queue).length ≤ 16385 ∧
    (∀ v ∈ T ++ s.queue, ∃ p, construct_path s.prev arg.start v = some p ∧
      p.head? = some arg.start ∧ p.getLast? = some v) := by
  obtain ⟨h1, h2, h3⟩ := bfs_trace_enqueued_once g arg T s h
  obtain ⟨d, hd⟩ := bfs_reaches_inv g arg s (bfs_trace_reaches g arg T s h)
  refine ⟨h1, ?_, by omega, ?_⟩
  · intro v hv
    rcases (h2 v hv).2 with hs | ht
    · exact Or.inl hs
    · exact Or.inr ((trav_iff g arg v).mp ht)
  · intro v hv
    obtain ⟨p, hp, p1, p2, -, -⟩ := construct_path_spec g arg s d hd v (h2 v hv)
    exact ⟨p, hp, p1, p2⟩

/-! ## Searching without fallback reach, and the corner test -/

theorem max_reach_sq_zero (arg : path_args) (h : arg.max_reach = 0) :
    ¬max_reach_sq arg > 0 := by
  unfold max_reach_sq wrap64
  rw [h]
  decide

/-- With `max_reach = 0` no fallback path is returned. -/
theorem bfs_no_reach (g : distance_field) (arg : path_args) (hmr : arg.max_reach = 0)
    (hmd : arg.max_distance = 0) (hun : ¬reachable g arg.min_space arg.start arg.goal) :
    g.bfs arg = some ([], false) := by
  obtain ⟨⟨path, ok⟩, h⟩ := bfs_total g arg
  have hex := bfs_exact g arg hmd path ok h
  have hok : ok = false := by
    cases ok
    · rfl
    · exact absurd (hex.1.mp rfl) hun
  subst hok
  obtain ⟨s, d, -, -, hc⟩ := bfs_result_cases g arg path false h
  rcases hc with ⟨-, -, rfl, -⟩ | ⟨-, -, hpos, -⟩ | ⟨-, hc, -⟩
  · exact h
  · exact absurd hpos (max_reach_sq_zero arg hmr)
  · cases hc

/-- A diagonal neighbour rejected by the corner test is left as it was. -/
theorem bfs_visit_corner_reject (g : distance_field) (arg : path_args) (cur : vec2i)
    (s : bfs_state) (dir : direction) (hd : dir.diagonal = true)
    (hc : can_traverse arg (g.cell_at_pos (cur.add dir.rotate_cw.vec2i)) = false ∨
      can_traverse arg (g.cell_at_pos (cur.add dir.rotate_ccw.vec2i)) = false) :
    bfs_visit g arg cur s dir = s := by
  unfold bfs_visit
  dsimp only
  split
  · rfl
  · rw [if_pos]
    rcases hc with hc | hc
    · simp [hd, hc]
    · simp [hd, hc]

/-! ## The claims -/

/-- Claim C1: for every grid and every in-bounds cell `(x, y)`, after
`update_cell x y`, and after `update_all_cells`, the space of the cell is
the reference clearance of the grid: `0` for a closed cell, otherwise the
minimum of `max_distance` and of `sqrt_int (dx*dx+dy*dy)` over the offsets
of the window whose target is closed or off-grid; the closed flags are left
as they were, and an open cell on the grid edge gets space `1`.  In the
grid whose only closed cell is `(5,5)` the spaces of `(5,5)`, `(6,6)` and
`(20,20)` are `0`, `1` and `15`. -/
theorem update_cell_reference_clearance :
    (∀ (g : distance_field) (x y : Int), g.in_bounds x y = true →
      is_reference_clearance (g.update_cell x y).1 x y ((g.update_cell x y).1.space_at x y) ∧
      is_reference_clearance g.update_all_cells x y (g.update_all_cells.space_at x y) ∧
      (∀ a b, g.update_all_cells.closed_at a b = g.closed_at a b) ∧
      (g.closed_at x y = false → (x = 0 ∨ y = 0 ∨ x = 127 ∨ y = 127) →
        g.update_all_cells.space_at x y = 1)) ∧
    grid_single_closed.update_all_cells.space_at 5 5 = 0 ∧
    grid_single_closed.update_all_cells.space_at 6 6 = 1 ∧
    grid_single_closed.update_all_cells.space_at 20 20 = 15 := by
  have hall : ∀ (g : distance_field) (x y : Int), g.in_bounds x y = true →
      g.update_all_cells.space_at x y = recomputed_space g x y := by
    intro g x y hb
    have hb2 := (in_bounds_iff g x y).mp hb
    unfold distance_field.update_all_cells
    exact update_cells_space_at g 0 0 grid_size grid_size x y hb
      (by unfold grid_size; omega) (by unfold grid_size; omega)
  refine ⟨fun g x y hb => ⟨?_, ?_, ?_, ?_⟩, ?_, ?_, ?_⟩
  · rw [update_cell_space_at g x y hb,
      is_reference_clearance_congr _ g (is_obstacle_update_cell g x y)]
    exact is_reference_clearance_recomputed g x y
  · rw [hall g x y hb]
    exact (is_reference_clearance_congr g.update_all_cells g
      (fun a b => update_cells_obstacle g 0 0 grid_size grid_size a b) x y _).mpr
      (is_reference_clearance_recomputed g x y)
  · intro a b
    exact update_cells_obstacle g 0 0 grid_size grid_size a b
  · intro hopen hedge
    rw [hall g x y hb]
    exact recomputed_space_edge g x y hb hopen hedge
  · rw [hall _ _ _ (by decide)]
    exact grid_single_closed_space_5_5
  · rw [hall _ _ _ (by decide)]
    exact grid_single_closed_space_6_6
  · rw [hall _ _ _ (by decide)]
    exact grid_single_closed_space_20_20

/-- Witness of claim C1 at the cell `(6,6)` of the single-closed-cell grid. -/
theorem update_cell_reference_clearance_witness :
    grid_single_closed.in_bounds 6 6 = true ∧
    is_reference_clearance (grid_single_closed.update_cell 6 6).1 6 6
      ((grid_single_closed.update_cell 6 6).1.space_at 6 6) ∧
    is_reference_clearance grid_single_closed.update_all_cells 6 6
      (grid_single_closed.update_all_cells.space_at 6 6) :=
  ⟨by decide,
    (update_cell_reference_clearance.1 grid_single_closed 6 6 (by decide)).1,
    (update_cell_reference_clearance.1 grid_single_closed 6 6 (by decide)).2.1⟩

/-- Claim C2: in a grid whose every cell holds its reference clearance,
flipping the closed flag of an in-bounds cell `(x, y)` and then calling
`update_cells (x-R) (y-R) (x+R) (y+R)` with `R = max_distance` yields
exactly the same grid as flipping the flag and calling `update_all_cells`. -/
theorem incremental_update_eq_full (g : distance_field) (x y drag_cycle : Int)
    (hb : g.in_bounds x y = true)
    (href : ∀ a b, g.in_bounds a b = true → is_reference_clearance g a b (g.space_at a b)) :
    (g.toggle_closed x y drag_cycle).update_cells (x - max_distance) (y - max_distance)
        (x + max_distance) (y + max_distance) =
      (g.toggle_closed x y drag_cycle).update_all_cells :=
  window_update_eq_full g x y drag_cycle hb href

/-- Witness of claim C2: opening the cell `(3,4)` of the filled grid. -/
theorem incremental_update_eq_full_witness :
    grid_filled.in_bounds 3 4 = true ∧
    (∀ a b, grid_filled.in_bounds a b = true →
      is_reference_clearance grid_filled a b (grid_filled.space_at a b)) ∧
    (grid_filled.toggle_closed 3 4 1).update_cells (3 - max_distance) (4 - max_distance)
        (3 + max_distance) (4 + max_distance) =
      (grid_filled.toggle_closed 3 4 1).update_all_cells :=
  ⟨by decide, fun a b _ => grid_filled_reference a b,
    incremental_update_eq_full grid_filled 3 4 1 (by decide)
      (fun a b _ => grid_filled_reference a b)⟩

/-- Claim C3: for every grid and every request with `max_distance = 0`,
`bfs` returns, and it returns `ok = true` if and only if `goal` is
reachable from `start` by a finite, possibly empty, sequence of legal
moves. -/
theorem bfs_ok_iff_reachable (g : distance_field) (arg : path_args)
    (hmd : arg.max_distance = 0) :
    ∃ path ok, g.bfs arg = some (path, ok) ∧
      (ok = true ↔ reachable g arg.min_space arg.start arg.goal) := by
  obtain ⟨⟨path, ok⟩, h⟩ := bfs_total g arg
  exact ⟨path, ok, h, (bfs_exact g arg hmd path ok h).1⟩

/-- Witness of claim C3 on the grid after `Load`, from `(0,0)` to `(16,16)`. -/
theorem bfs_ok_iff_reachable_witness :
    scenario_request.max_distance = 0 ∧
    ∃ path ok, grid_loaded.bfs scenario_request = some (path, ok) ∧
      (ok = true ↔ reachable grid_loaded scenario_request.min_space scenario_request.start
        scenario_request.goal) :=
  ⟨rfl, bfs_ok_iff_reachable grid_loaded scenario_request rfl⟩

/-- Claim C4: for every grid and every request, `bfs` returns a sequence in
which every consecutive pair `(p, q)` is a legal move: a single
8-neighbour step into a cell that is in bounds, not closed and has
`space ≥ min_space`, and for a diagonal step both cells `(q.x, p.y)` and
`(p.x, q.y)` are traversable as well.  So no returned path takes a diagonal
step between two closed orthogonal cells; from `(0,0)` to `(1,1)` with
`(1,0)` and `(0,1)` closed and `(1,1)` open, the search does not reach the
goal and returns the fallback path that holds `start` only. -/
theorem bfs_path_moves_legal :
    (∀ (g : distance_field) (arg : path_args), ∃ path ok, g.bfs arg = some (path, ok) ∧
      (∀ pq ∈ path.zip path.tail, legal_move g arg.min_space pq.1 pq.2) ∧
      (∀ pq ∈ path.zip path.tail, pq.2.x ≠ pq.1.x → pq.2.y ≠ pq.1.y →
        ¬(g.closed_at pq.2.x pq.1.y = true ∧ g.closed_at pq.1.x pq.2.y = true))) ∧
    grid_corner.closed_at 1 0 = true ∧ grid_corner.closed_at 0 1 = true ∧
    grid_corner.closed_at 1 1 = false ∧
    grid_corner.bfs corner_request = some ([{ x := 0, y := 0 }], false) := by
  refine ⟨fun g arg => ?_, by decide, by decide, by decide, by decide!⟩
  obtain ⟨⟨path, ok⟩, h⟩ := bfs_total g arg
  have hlegal := chain_zip_tail _ _ (bfs_path_chain g arg path ok h)
  refine ⟨path, ok, h, hlegal, ?_⟩
  intro pq hpq hx hy hc
  have := (hlegal pq hpq).2.2 ⟨hx, hy⟩
  exact closed_not_traversable g arg.min_space _ hc.1 this.1

/-- Claim C5: for every grid and every request with `max_distance = 0`, if
`bfs` returns `(path, true)` then `path` is a route from `start` to `goal`
and no route from `start` to `goal` has fewer moves than `len(path) - 1`.
On the all-open grid with recomputed clearance the search from `(0,0)` to
`(16,16)` with `min_space = 1` returns `ok = true` and the 17 coordinates of
the diagonal. -/
theorem bfs_exact_path_shortest :
    (∀ (g : distance_field) (arg : path_args) (path : List vec2i),
      arg.max_distance = 0 → g.bfs arg = some (path, true) →
      is_route g arg.min_space arg.start arg.goal path ∧
      ∀ q, is_route g arg.min_space arg.start arg.goal q → path.length - 1 ≤ q.length - 1) ∧
    grid_loaded.bfs scenario_request =
      some ([{ x := 0, y := 0 }, { x := 1, y := 1 }, { x := 2, y := 2 }, { x := 3, y := 3 },
        { x := 4, y := 4 }, { x := 5, y := 5 }, { x := 6, y := 6 }, { x := 7, y := 7 },
        { x := 8, y := 8 }, { x := 9, y := 9 }, { x := 10, y := 10 }, { x := 11, y := 11 },
        { x := 12, y := 12 }, { x := 13, y := 13 }, { x := 14, y := 14 },
        { x := 15, y := 15 }, { x := 16, y := 16 }], true) := by
  refine ⟨fun g arg path hmd h => ?_, ?_⟩
  · obtain ⟨hr, hmin⟩ := (bfs_exact g arg hmd path true h).2 rfl
    exact ⟨hr, fun q hq => Nat.sub_le_sub_right (hmin q hq) 1⟩
  · exact bfs_loaded_diagonal 16 (by decide) 1 0 rfl

/-- Witness of claim C5 on the grid after `Load`: the diagonal to `(16,16)`. -/
theorem bfs_exact_path_shortest_witness :
    scenario_request.max_distance = 0 ∧
    grid_loaded.bfs scenario_request = some (diagonal_route 16, true) ∧
    is_route grid_loaded scenario_request.min_space scenario_request.start
      scenario_request.goal (diagonal_route 16) ∧
    ∀ q, is_route grid_loaded scenario_request.min_space scenario_request.start
      scenario_request.goal q → (diagonal_route 16).length - 1 ≤ q.length - 1 :=
  ⟨rfl, bfs_loaded_diagonal 16 (by decide) 1 0 rfl,
    bfs_exact_path_shortest.1 grid_loaded scenario_request (diagonal_route 16) rfl
      (bfs_loaded_diagonal 16 (by decide) 1 0 rfl)⟩

/-- Counterexample to claim C6 as stated, for every request: on the filled
grid with `max_reach = 2^32` and `goal = (2^32, 0)` the goal is unreachable
and `start` is a reachable cell within reach, yet `bfs` returns the empty
path: `max_reach * max_reach` wraps to `0` in 64 bits. -/
theorem bfs_fallback_overflow_counterexample :
    overflow_request.max_distance = 0 ∧ 0 < overflow_request.max_reach ∧
    ¬reachable grid_filled overflow_request.min_space overflow_request.start
      overflow_request.goal ∧
    reachable grid_filled overflow_request.min_space overflow_request.start
      overflow_request.start ∧
    sq_dist overflow_request.start overflow_request.goal ≤
      overflow_request.max_reach * overflow_request.max_reach ∧
    overflow_request.start.distance_sq overflow_request.goal ≤ max_reach_sq overflow_request ∧
    grid_filled.bfs overflow_request = some ([], false) :=
  ⟨rfl, by decide, grid_filled_unreachable _ _ _ (by decide), reachable_refl _ _ _, by decide,
    by decide, by decide!⟩

/-- Claim C6, amended: for every grid and every request with
`max_distance = 0`, `max_reach > 0`, `max_reach * max_reach` within the
64-bit range and `start`, `goal` coordinates below `2^30` in absolute
value, in which `goal` is not reachable from `start`: `bfs` returns
`ok = false`; if some reachable cell (start included) has squared distance
to `goal` at most `max_reach * max_reach`, the path starts at `start` and
its last coordinate is such a cell with the minimum squared distance to
`goal`; if there is none, the path is empty. -/
theorem bfs_fallback_nearest (g : distance_field) (arg : path_args)
    (hmd : arg.max_distance = 0) (hmr : 0 < arg.max_reach)
    (hsq : arg.max_reach * arg.max_reach ≤ MaxInt)
    (hs : coord_small arg.start) (hg : coord_small arg.goal)
    (hun : ¬reachable g arg.min_space arg.start arg.goal) :
    ∃ path, g.bfs arg = some (path, false) ∧
      ((∃ c, reachable g arg.min_space arg.start c ∧
          sq_dist c arg.goal ≤ arg.max_reach * arg.max_reach) →
        ∃ e, path.getLast? = some e ∧ path.head? = some arg.start ∧
          reachable g arg.min_space arg.start e ∧
          sq_dist e arg.goal ≤ arg.max_reach * arg.max_reach ∧
          ∀ c, reachable g arg.min_space arg.start c →
            sq_dist c arg.goal ≤ arg.max_reach * arg.max_reach →
            sq_dist e arg.goal ≤ sq_dist c arg.goal) ∧
      ((¬∃ c, reachable g arg.min_space arg.start c ∧
          sq_dist c arg.goal ≤ arg.max_reach * arg.max_reach) → path = []) :=
  bfs_fallback_result g arg hmd hmr hsq hs hg hun

/-- Witness of the amended claim C6: the filled grid, from `(0,0)` towards
`(1,1)` with `max_reach = 5`. -/
theorem bfs_fallback_nearest_witness :
    corner_request.max_distance = 0 ∧ 0 < corner_request.max_reach ∧
    corner_request.max_reach * corner_request.max_reach ≤ MaxInt ∧
    coord_small corner_request.start ∧ coord_small corner_request.goal ∧
    ¬reachable grid_filled corner_request.min_space corner_request.start corner_request.goal ∧
    ∃ path, grid_filled.bfs corner_request = some (path, false) ∧
      ((∃ c, reachable grid_filled corner_request.min_space corner_request.start c ∧
          sq_dist c corner_request.goal ≤ corner_request.max_reach * corner_request.max_reach) →
        ∃ e, path.getLast? = some e ∧ path.head? = some corner_request.start ∧
          reachable grid_filled corner_request.min_space corner_request.start e ∧
          sq_dist e corner_request.goal ≤ corner_request.max_reach * corner_request.max_reach ∧
          ∀ c, reachable grid_filled corner_request.min_space corner_request.start c →
            sq_dist c corner_request.goal ≤
              corner_request.max_reach * corner_request.max_reach →
            sq_dist e corner_request.goal ≤ sq_dist c corner_request.goal) ∧
      ((¬∃ c, reachable grid_filled corner_request.min_space corner_request.start c ∧
          sq_dist c corner_request.goal ≤ corner_request.max_reach * corner_request.max_reach) →
        path = []) :=
  ⟨rfl, by decide, by decide, by decide, by decide, grid_filled_unreachable _ _ _ (by decide),
    bfs_fallback_nearest grid_filled corner_request rfl (by decide) (by decide) (by decide)
      (by decide) (grid_filled_unreachable _ _ _ (by decide))⟩

/-- Counterexample to claim C7 as stated, for every start: on the filled
grid with `start = goal = (0,0)` the goal cell is closed and
`max_reach = 0`, yet `bfs` returns the path `[(0,0)]` with `ok = true`. -/
theorem bfs_closed_goal_counterexample :
    grid_filled.closed_at standing_request.goal.x standing_request.goal.y = true ∧
    standing_request.max_reach = 0 ∧
    grid_filled.bfs standing_request = some ([{ x := 0, y := 0 }], true) :=
  ⟨by decide, rfl, by decide!⟩

/-- Claim C7, amended: for every grid, every start other than the goal and
every `min_space`, if the goal cell is closed and `max_reach = 0` then `bfs`
returns the empty path and `ok = false`. -/
theorem bfs_closed_goal_empty (g : distance_field) (arg : path_args)
    (hclosed : g.closed_at arg.goal.x arg.goal.y = true) (hreach : arg.max_reach = 0)
    (hne : arg.start ≠ arg.goal) : g.bfs arg = some ([], false) :=
  bfs_closed_goal g arg hclosed hreach hne

/-- Witness of the amended claim C7: the grid whose only closed cell is
`(5,5)`, from `(0,0)` to `(5,5)`. -/
theorem bfs_closed_goal_empty_witness :
    grid_single_closed.closed_at 5 5 = true ∧ (0 : Int) = 0 ∧
    ({ x := 0, y := 0 } : vec2i) ≠ { x := 5, y := 5 } ∧
    grid_single_closed.bfs
      { start := { x := 0, y := 0 }
        goal := { x := 5, y := 5 }
        min_space := 1
        max_distance := 0
        max_reach := 0 } = some ([], false) :=
  ⟨by decide, rfl, by decide,
    bfs_closed_goal_empty grid_single_closed _ (by decide) rfl (by decide)⟩

/-- Claim C8: for all grids `g` and `g2`, applying with the Load loop the
tile list that the Save loop builds from `g` completes and leaves `g2` with
`closed (x, y)` equal to that of `g` at every coordinate; the other fields
of the cells of `g2` are unchanged. -/
theorem save_load_round_trip (g g2 : distance_field) :
    ∃ g3, g2.load_tiles g.save_tiles = some g3 ∧
      (∀ x y, g3.closed_at x y = g.closed_at x y) ∧
      (∀ x y, g3.space_at x y = g2.space_at x y) := by
  obtain ⟨g3, h3, -, hc⟩ := load_save_tiles g g2
  refine ⟨g3, h3, closed_at_of_cells g g3 (fun i hi => by rw [hc i, if_pos hi]), ?_⟩
  intro x y
  unfold distance_field.space_at distance_field.cell_at
  rw [in_bounds_congr g3 g2]
  by_cases hb : g2.in_bounds x y = true
  · rw [if_pos hb, if_pos hb]
    simp only
    rw [hc]
    split <;> rfl
  · rw [if_neg hb, if_neg hb]

/-- Claim C9 fails on the code: on a decoded list whose record has `X = 16`
the Load loop writes through the nil pointer that `cell_at` returns for the
off-grid cell `(135, 7)`; the load panics on every grid instead of
completing. -/
theorem load_off_grid_tile_panics (g : distance_field) :
    g.load_tiles malformed_tiles = none ∧ g.cell_at (7 + 16 * tile_size) (7 + 0 * tile_size) = none :=
  ⟨load_malformed_tiles g, rfl⟩

/-- Claim C10: for every grid and every request `bfs` returns, and a
non-empty returned sequence has `start` as its first coordinate; its last
coordinate is `goal` when `ok = true`, and when `ok = false` it is the
fallback cell `closest` recorded in the state the loop ended in. -/
theorem bfs_path_endpoints (g : distance_field) (arg : path_args) :
    ∃ path ok, g.bfs arg = some (path, ok) ∧
      ∃ s, bfs_reaches g arg s ∧ bfs_return arg s (path, ok) ∧
        (path ≠ [] →
          path.head? = some arg.start ∧
          (ok = true → path.getLast? = some arg.goal) ∧
          (ok = false → s.queue = [] ∧ s.closest_distance ≠ MaxInt ∧
            path.getLast? = some s.closest)) := by
  obtain ⟨⟨path, ok⟩, h⟩ := bfs_total g arg
  obtain ⟨s, hs, hr⟩ := bfs_returns_reaches g arg _ h
  obtain ⟨d, hd⟩ := bfs_reaches_inv g arg s hs
  refine ⟨path, ok, h, s, hs, hr, fun hne => ?_⟩
  rcases bfs_return_cases g arg s d hd path ok hr with
    ⟨-, -, rfl, -⟩ | ⟨hq, rfl, -, hcd, -, h1, h2, -, -⟩ | ⟨-, rfl, -, h1, h2, -, -⟩
  · exact absurd rfl hne
  · exact ⟨h1, fun hc => Bool.noConfusion hc, fun _ => ⟨hq, hcd, h2⟩⟩
  · exact ⟨h1, fun _ => h2, fun hc => Bool.noConfusion hc⟩

/-- Claim C11: in every grid state the editor reaches from `Load` by
editing cells (flip, then `update_cells` on the window of radius
`max_distance`), Clear, Fill and applying a tile list, each followed by
`update_all_cells`, every cell has `0 ≤ space ≤ max_distance`, and every
closed cell has `space = 0`. -/
theorem clearance_range_invariant (g : distance_field) (h : editor_reaches g) (x y : Int)
    (hb : g.in_bounds x y = true) :
    0 ≤ g.space_at x y ∧ g.space_at x y ≤ max_distance ∧
      (g.closed_at x y = true → g.space_at x y = 0) :=
  space_in_range_at g (editor_reaches_in_range g h) x y hb

/-- Witness of claim C11: the grid after `Load` and one edit of the cell
`(3,4)`, at the cell `(3,4)`. -/
theorem clearance_range_invariant_witness :
    editor_reaches
      ((grid_loaded.toggle_closed 3 4 1).update_cells (3 - max_distance) (4 - max_distance)
        (3 + max_distance) (4 + max_distance)) ∧
    0 ≤ ((grid_loaded.toggle_closed 3 4 1).update_cells (3 - max_distance) (4 - max_distance)
        (3 + max_distance) (4 + max_distance)).space_at 3 4 ∧
    ((grid_loaded.toggle_closed 3 4 1).update_cells (3 - max_distance) (4 - max_distance)
        (3 + max_distance) (4 + max_distance)).space_at 3 4 ≤ max_distance :=
  ⟨editor_reaches.edit grid_loaded 3 4 1 editor_reaches.start rfl,
    (clearance_range_invariant _
      (editor_reaches.edit grid_loaded 3 4 1 editor_reaches.start rfl) 3 4 rfl).1,
    (clearance_range_invariant _
      (editor_reaches.edit grid_loaded 3 4 1 editor_reaches.start rfl) 3 4 rfl).2.1⟩

/-- Claim C12: for every grid, every tile `(tile_x, tile_y)` with
`0 ≤ tile_x, tile_y < 16` and all `x0, y0 < 8`, the Save loop produces a
record for the tile, and bit `63 - (8*y0 + x0)` (bit `0` the least
significant) of the 64-bit `ClosedCells` of that record is set if and only
if the cell `(8*tile_x + x0, 8*tile_y + y0)` is closed; so the cell `(0,0)`
is bit `63` and the cell `(7,7)` is bit `0`. -/
theorem save_bit_layout (g : distance_field) (tile_x tile_y : Int) (x0 y0 : Nat)
    (htx : 0 ≤ tile_x ∧ tile_x < 16) (hty : 0 ≤ tile_y ∧ tile_y < 16)
    (hx0 : x0 < 8) (hy0 : y0 < 8) :
    (∃ t ∈ g.save_tiles, t.X = tile_x ∧ t.Y = tile_y) ∧
    ∀ t ∈ g.save_tiles, t.X = tile_x → t.Y = tile_y →
      t.ClosedCells < 2 ^ 64 ∧
      (Nat.testBit t.ClosedCells (63 - (8 * y0 + x0)) = true ↔
        g.closed_at (8 * tile_x + x0) (8 * tile_y + y0) = true) := by
  refine ⟨⟨_, save_tile_mem g tile_x tile_y htx hty, rfl, rfl⟩, ?_⟩
  intro t ht hX hY
  rw [save_tiles_eq, List.mem_map] at ht
  obtain ⟨p, -, rfl⟩ := ht
  have e1 : p.1 = tile_x := hX
  have e2 : p.2 = tile_y := hY
  rw [e1, e2]
  refine ⟨by norm_num; exact save_tile_lt g tile_x tile_y, ?_⟩
  rw [save_tile_testBit g tile_x tile_y x0 y0 hx0 hy0, mul_comm tile_x, mul_comm tile_y]
  rfl

/-- Witness of claim C12: the tile `(0,0)` of the grid whose only closed
cell is `(5,5)`, at the cell `(5,5)`: bit `18`. -/
theorem save_bit_layout_witness :
    (∃ t ∈ grid_single_closed.save_tiles, t.X = 0 ∧ t.Y = 0) ∧
    ∀ t ∈ grid_single_closed.save_tiles, t.X = 0 → t.Y = 0 →
      t.ClosedCells < 2 ^ 64 ∧
      (Nat.testBit t.ClosedCells (63 - (8 * 5 + 5)) = true ↔
        grid_single_closed.closed_at (8 * 0 + (5 : Nat)) (8 * 0 + (5 : Nat)) = true) :=
  save_bit_layout grid_single_closed 0 0 5 5 (by decide) (by decide) (by decide) (by decide)

/-- Counterexample to claim C13: on the filled grid with `max_reach = 0` and
`max_distance = 0` the goal `(1,1)` is not reachable from `(0,0)` and
`start` itself is a reachable cell, yet `bfs` returns the empty path. -/
theorem bfs_zero_reach_counterexample :
    no_reach_request.max_reach = 0 ∧ no_reach_request.max_distance = 0 ∧
    ¬reachable grid_filled no_reach_request.min_space no_reach_request.start
      no_reach_request.goal ∧
    reachable grid_filled no_reach_request.min_space no_reach_request.start
      no_reach_request.start ∧
    grid_filled.bfs no_reach_request = some ([], false) :=
  ⟨rfl, rfl, grid_filled_unreachable _ _ _ (by decide), reachable_refl _ _ _, by decide!⟩

/-- Claim C13, amended: `max_reach = 0` switches the fallback off: for every
grid and every request with `max_reach = 0` and `max_distance = 0` in which
`goal` is not reachable from `start`, `bfs` returns the empty path and
`ok = false`. -/
theorem bfs_zero_reach_empty (g : distance_field) (arg : path_args)
    (hmr : arg.max_reach = 0) (hmd : arg.max_distance = 0)
    (hun : ¬reachable g arg.min_space arg.start arg.goal) :
    g.bfs arg = some ([], false) :=
  bfs_no_reach g arg hmr hmd hun

/-- Witness of the amended claim C13 on the grid whose only closed cell is
`(5,5)`, with that cell as goal. -/
theorem bfs_zero_reach_empty_witness :
    (0 : Int) = 0 ∧
    ¬reachable grid_single_closed 1 { x := 0, y := 0 } { x := 5, y := 5 } ∧
    grid_single_closed.bfs
      { start := { x := 0, y := 0 }
        goal := { x := 5, y := 5 }
        min_space := 1
        max_distance := 0
        max_reach := 0 } = some ([], false) :=
  ⟨rfl,
    fun h => (reachable_cases _ _ _ _ h).elim (fun he => absurd he (by decide))
      (fun ht => closed_not_traversable grid_single_closed 1 { x := 5, y := 5 } (by decide) ht),
    bfs_zero_reach_empty grid_single_closed _ rfl rfl
      (fun h => (reachable_cases _ _ _ _ h).elim (fun he => absurd he (by decide))
        (fun ht =>
          closed_not_traversable grid_single_closed 1 { x := 5, y := 5 } (by decide) ht))⟩

/-- Counterexample to claim C14: with `(1,0)` closed, the expansion of
`(0,0)` rejects the diagonal neighbour `(1,1)` under the corner test and
leaves it unvisited; the later expansion of `(0,1)` enqueues it, and `bfs`
returns the path through it. -/
theorem bfs_corner_reject_counterexample :
    southeast ∈ path_directions ∧ southeast.diagonal = true ∧
    ({ x := 0, y := 0 } : vec2i).add southeast.vec2i = { x := 1, y := 1 } ∧
    detour_state.visited { x := 1, y := 1 } = false ∧
    can_traverse detour_request
      (grid_one_wall.cell_at_pos
        (({ x := 0, y := 0 } : vec2i).add southeast.rotate_ccw.vec2i)) = false ∧
    can_traverse detour_request (grid_one_wall.cell_at_pos { x := 1, y := 1 }) = true ∧
    (bfs_visit grid_one_wall detour_request { x := 0, y := 0 } detour_state
      southeast).visited { x := 1, y := 1 } = false ∧
    grid_one_wall.bfs detour_request =
      some ([{ x := 0, y := 0 }, { x := 0, y := 1 }, { x := 1, y := 1 }], true) :=
  ⟨by decide, by decide, by decide, by decide!, by decide, by decide, by decide!, by decide!⟩

/-- Claim C14, amended: when `bfs` rejects a diagonal neighbour under the
corner-cutting rule (one of the two orthogonal cells next to the diagonal
step is not traversable under `min_space`), it changes nothing: the
neighbour is not enqueued through this edge and is not marked visited, so
a later expansion of the same search can still enqueue it. -/
theorem bfs_corner_reject_unchanged (g : distance_field) (arg : path_args) (cur : vec2i)
    (s : bfs_state) (dir : direction) (hv : s.visited (cur.add dir.vec2i) = false)
    (hd : dir.diagonal = true)
    (hc : can_traverse arg (g.cell_at_pos (cur.add dir.rotate_cw.vec2i)) = false ∨
      can_traverse arg (g.cell_at_pos (cur.add dir.rotate_ccw.vec2i)) = false) :
    bfs_visit g arg cur s dir = s ∧
      (bfs_visit g arg cur s dir).visited (cur.add dir.vec2i) = false := by
  rw [bfs_visit_corner_reject g arg cur s dir hd hc]
  exact ⟨rfl, hv⟩

/-- Witness of the amended claim C14: the rejection of `(1,1)` in the
expansion of `(0,0)` with `(1,0)` closed. -/
theorem bfs_corner_reject_unchanged_witness :
    detour_state.visited (({ x := 0, y := 0 } : vec2i).add southeast.vec2i) = false ∧
    southeast.diagonal = true ∧
    bfs_visit grid_one_wall detour_request { x := 0, y := 0 } detour_state southeast =
      detour_state ∧
    (bfs_visit grid_one_wall detour_request { x := 0, y := 0 } detour_state southeast).visited
      (({ x := 0, y := 0 } : vec2i).add southeast.vec2i) = false :=
  ⟨by decide!, by decide,
    bfs_corner_reject_unchanged grid_one_wall detour_request { x := 0, y := 0 } detour_state
      southeast (by decide!) (by decide) (Or.inr (by decide))⟩

/-- Claim C15: `bfs` terminates on every grid and every request, also with
`start` or `goal` outside the grid.  In every run of the loop the
coordinates enqueued so far (the dequeued ones followed by the queue) are
pairwise distinct and, apart from `start`, traversable cells of the grid;
there are at most `16385` of them, so at most `16385` nodes are dequeued
(the head of the queue included when the search returns at `goal`), and
the predecessor walk of `construct_path` from each of them reaches `start`. -/
theorem bfs_terminates :
    (∀ (g : distance_field) (arg : path_args), ∃ r T s, g.bfs arg = some r ∧
      bfs_trace g arg T s ∧ bfs_return arg s r ∧ (T ++ s.queue.take 1).length ≤ 16385) ∧
    (∀ (g : distance_field) (arg : path_args) (T : List vec2i) (s : bfs_state),
      bfs_trace g arg T s →
      (T ++ s.queue).Nodup ∧
      (∀ v ∈ T ++ s.queue, v = arg.start ∨ is_traversable g arg.min_space v) ∧
      (T ++ s.queue).length ≤ 16385 ∧
      (∀ v ∈ T ++ s.queue, ∃ p, construct_path s.prev arg.start v = some p ∧
        p.head? = some arg.start ∧ p.getLast? = some v)) ∧
    grid_loaded.bfs outside_request = some ([], false) := by
  refine ⟨fun g arg => ?_, fun g arg T s h => bfs_trace_facts g arg T s h, by decide!⟩
  obtain ⟨r, h⟩ := bfs_total g arg
  obtain ⟨T, s, hT, hr⟩ := bfs_returns_trace g arg r h
  refine ⟨r, T, s, h, hT, hr, ?_⟩
  have h3 := (bfs_trace_facts g arg T s hT).2.2.1
  have h4 := List.length_take_le' 1 s.queue
  simp only [List.length_append] at h3 ⊢
  omega

/-- Witness of claim C15: the state in which the loop is entered, for a
request whose start and goal lie outside the grid. -/
theorem bfs_terminates_witness :
    bfs_trace grid_loaded outside_request [] (bfs_init outside_request) ∧
    ([] ++ (bfs_init outside_request).queue).Nodup ∧
    ([] ++ (bfs_init outside_request).queue).length ≤ 16385 :=
  ⟨bfs_trace.init,
    (bfs_terminates.2.1 grid_loaded outside_request [] _ bfs_trace.init).1,
    (bfs_terminates.2.1 grid_loaded outside_request [] _ bfs_trace.init).2.2.1⟩

end DistanceField
